import Mathlib

/-!
# A verification development for the Resolve entity-resolution engine

This file gives a shallow embedding, in Lean 4, of the parts of the Resolve
codebase (Go) that its specification talks about, and proves or refutes the
specified properties against that embedding.

Modelling conventions, used throughout:

* Go `string` values are modelled as `List Char`.  Go indexes strings by byte;
  all inputs the theorems touch are ASCII, where bytes and runes coincide, so
  one `Char` per byte is faithful there.  Case conversion and character-class
  predicates are modelled on the Latin-1 range (the code's own data — legal
  suffixes, street types, stop words — is ASCII).
* Go `float64` arithmetic is modelled by exact rationals (`ℚ`), wrapped in
  `GoFloat` so that the one place the code divides zero by zero (token-set
  Jaccard on token-free inputs, which yields IEEE `NaN` in Go) is represented
  exactly.  Infinities never arise in the embedded code: every division whose
  divisor can be zero is either explicitly guarded (`totalWeight == 0`,
  `magA == 0`) or has a zero numerator exactly when the divisor is zero.
* Go `map` values are modelled as association lists in insertion order, with
  Go's zero-value lookup semantics.  Where the code iterates over a map — an
  order Go randomizes — the model iterates in insertion order; every theorem
  below is either independent of that order or says so explicitly.
* The remote collaborators (embedding service, vector store) are modelled as
  total function-valued environments; the theorems quantify over them, with
  explicit well-formedness hypotheses where the vector-store contract is
  needed (e.g. distances are nonnegative, stored IDs are pairwise distinct).
-/

set_option maxRecDepth 20000

namespace Resolve

/-- Go `float64` results: an exact rational, or the `NaN` produced by `0.0/0.0`. -/
inductive GoFloat where
  | nan : GoFloat
  | q : ℚ → GoFloat
deriving DecidableEq

/-- Addition; `NaN` propagates, as in IEEE arithmetic. -/
def GoFloat.add : GoFloat → GoFloat → GoFloat
  | GoFloat.q a, GoFloat.q b => GoFloat.q (a + b)
  | _, _ => GoFloat.nan

/-- Subtraction; `NaN` propagates. -/
def GoFloat.sub : GoFloat → GoFloat → GoFloat
  | GoFloat.q a, GoFloat.q b => GoFloat.q (a - b)
  | _, _ => GoFloat.nan

/-- Multiplication; `NaN` propagates. -/
def GoFloat.mul : GoFloat → GoFloat → GoFloat
  | GoFloat.q a, GoFloat.q b => GoFloat.q (a * b)
  | _, _ => GoFloat.nan

/-- Division.  In the embedded code the numerator is zero whenever the
divisor is, so `x/0` is modelled as the `NaN` that Go's `0.0/0.0` yields. -/
def GoFloat.div : GoFloat → GoFloat → GoFloat
  | GoFloat.q a, GoFloat.q b => if b = 0 then GoFloat.nan else GoFloat.q (a / b)
  | _, _ => GoFloat.nan

/-- Go's `<` on floats: false whenever `NaN` is involved. -/
def GoFloat.lt : GoFloat → GoFloat → Bool
  | GoFloat.q a, GoFloat.q b => a < b
  | _, _ => false

/-- Go's `>` on floats: false whenever `NaN` is involved. -/
def GoFloat.gt : GoFloat → GoFloat → Bool
  | GoFloat.q a, GoFloat.q b => b < a
  | _, _ => false

/-- `NaN` test. -/
def GoFloat.isNaN : GoFloat → Bool
  | GoFloat.nan => true
  | GoFloat.q _ => false

/-- `x ≤ c` for a rational bound `c`, false on `NaN` (mirrors Go `<=`). -/
def GoFloat.leQ (x : GoFloat) (c : ℚ) : Bool :=
  match x with
  | GoFloat.q a => a ≤ c
  | GoFloat.nan => false

/-- Sum of a list of Go floats, folded left as Go's `+=` loops do. -/
def goSum (l : List GoFloat) : GoFloat :=
  l.foldl GoFloat.add (GoFloat.q 0)

/-! ## Go string primitives

The byte-level string helpers the embedded code uses: ASCII case conversion,
the two whitespace classes in play (RE2's `\s` and Go's `unicode.IsSpace`,
the latter restricted to Latin-1), trimming, whitespace collapsing
(`regexp \s+` replacement by a single space), `strings.Fields` and
`strings.Join`. -/

/-- `strings.ToLower`, on the ASCII range (the code's inputs of interest). -/
def goToLower (c : Char) : Char :=
  if 65 ≤ c.toNat ∧ c.toNat ≤ 90 then Char.ofNat (c.toNat + 32) else c

/-- `strings.ToUpper`, on the ASCII range. -/
def goToUpper (c : Char) : Char :=
  if 97 ≤ c.toNat ∧ c.toNat ≤ 122 then Char.ofNat (c.toNat - 32) else c

/-- lowercase a whole string. -/
def lowerStr (s : List Char) : List Char := s.map goToLower

/-- RE2's `\s` character class: `[\t\n\f\r ]`. -/
def isGoRegexSpace (c : Char) : Bool :=
  c.toNat = 9 ∨ c.toNat = 10 ∨ c.toNat = 12 ∨ c.toNat = 13 ∨ c.toNat = 32

/-- Go `unicode.IsSpace`, restricted to Latin-1 (the full table adds only
higher Unicode space separators, which the embedded inputs never contain). -/
def isGoSpace (c : Char) : Bool :=
  c.toNat = 9 ∨ c.toNat = 10 ∨ c.toNat = 11 ∨ c.toNat = 12 ∨ c.toNat = 13 ∨
  c.toNat = 32 ∨ c.toNat = 133 ∨ c.toNat = 160

/-- `strings.TrimSpace`: drop `unicode.IsSpace` characters from both ends. -/
def goTrimSpace (s : List Char) : List Char :=
  (((s.dropWhile (fun c => isGoSpace c)).reverse).dropWhile (fun c => isGoSpace c)).reverse

/-- Scanner for the regex replacement `\s+` → `" "`: a maximal run of RE2
whitespace becomes a single space; `prevSpace` records whether the scanner
is inside a run. -/
def collapseAux (prevSpace : Bool) : List Char → List Char
  | [] => []
  | c :: cs =>
    if isGoRegexSpace c then
      if prevSpace then collapseAux true cs
      else ' ' :: collapseAux true cs
    else c :: collapseAux false cs

/-- The regex replacement `\s+` → `" "`. -/
def collapseSpaces (s : List Char) : List Char := collapseAux false s

/-- Scanner for `strings.Fields`; `acc` is the reversed current word. -/
def goFieldsAux (acc : List Char) : List Char → List (List Char)
  | [] => if acc.isEmpty then [] else [acc.reverse]
  | c :: cs =>
    if isGoSpace c then
      if acc.isEmpty then goFieldsAux [] cs
      else acc.reverse :: goFieldsAux [] cs
    else goFieldsAux (c :: acc) cs

/-- `strings.Fields`: maximal runs of non-whitespace characters. -/
def goFields (s : List Char) : List (List Char) := goFieldsAux [] s

/-- `strings.Join ws " "`. -/
def joinSpace : List (List Char) → List Char
  | [] => []
  | [w] => w
  | w :: ws => w ++ ' ' :: joinSpace ws

/-- Case-insensitive ASCII equality of strings (`strings.EqualFold` on ASCII). -/
def eqFold (a b : List Char) : Bool :=
  lowerStr a = lowerStr b

/-- Whether `needle` occurs as a contiguous substring (`strings.Contains`). -/
def goContains (hay needle : List Char) : Bool :=
  match hay with
  | [] => needle.isEmpty
  | _ :: t => needle.isPrefixOf hay || goContains t needle

/-- Shorthand for string literals as character lists. -/
def str (s : String) : List Char := s.toList

/-- ASCII decimal digit (RE2 `\d`, `[0-9]`). -/
def isDigitChar (c : Char) : Bool := 48 ≤ c.toNat ∧ c.toNat ≤ 57

/-- ASCII letter. -/
def isAsciiAlpha (c : Char) : Bool :=
  (65 ≤ c.toNat ∧ c.toNat ≤ 90) ∨ (97 ≤ c.toNat ∧ c.toNat ≤ 122)

/-- ASCII letter or digit. -/
def isAlnumChar (c : Char) : Bool := isDigitChar c || isAsciiAlpha c

/-- RE2 `\w` / word character for `\b` boundaries: `[0-9A-Za-z_]`. -/
def isWordChar (c : Char) : Bool := isAlnumChar c || c = '_'

/-- ASCII uppercase letter (the `[A-Z]` class). -/
def isUpperAZ (c : Char) : Bool := 65 ≤ c.toNat ∧ c.toNat ≤ 90

/-- `strings.Split` on a single separator character. -/
def splitOnChar (sep : Char) : List Char → List (List Char)
  | [] => [[]]
  | c :: cs =>
    if c = sep then [] :: splitOnChar sep cs
    else
      match splitOnChar sep cs with
      | [] => [[c]]
      | w :: ws => (c :: w) :: ws

/-! ## The `normalize` package (weaviate generation)

Embeds `internal/normalize`: the `Normalizer` with its per-field operations.
Regex operations are embedded as direct scans with RE2's leftmost-first
match semantics; each is commented with the pattern it implements. -/

/-- The normalizer's stop-word table (keys of the `stopwords` map). -/
def stopwordTable : List String :=
  ["a", "an", "the", "and", "but", "if", "or", "because", "as", "until",
   "while", "of", "at", "by", "for", "with", "about", "against", "between",
   "into", "through", "during", "before", "after", "above", "below", "to",
   "from", "up", "down", "in", "out", "on", "off", "over", "under", "again",
   "further", "then", "once", "here", "there", "when", "where", "why",
   "how", "all", "any", "both", "each", "few", "more", "most", "other",
   "some", "such", "no", "nor", "not", "only", "own", "same", "so", "than",
   "too", "very", "can", "will", "just", "should", "now"]

/-- Go `map[string]bool` lookup (missing keys read as `false`). -/
def lookupOpt (opts : List (List Char × Bool)) (k : List Char) : Bool :=
  ((opts.find? (fun p => p.1 = k)).map (fun p => p.2)).getD false

/-- The `Normalization` section of the configuration. -/
structure NormalizationConfig where
  enableLowercase : Bool
  enableStopwords : Bool
  enableStemming : Bool
  nameOptions : List (List Char × Bool)
  addressOptions : List (List Char × Bool)
  phoneOptions : List (List Char × Bool)
  emailOptions : List (List Char × Bool)
deriving DecidableEq

/-- Membership in the stop-word map (`n.stopwords[strings.ToLower(word)]`). -/
def isStopword (w : List Char) : Bool :=
  (stopwordTable.map str).contains w

/-- `Normalizer.NormalizeText`: optional lowercasing, `strings.TrimSpace`,
the `\s+` → `" "` replacement, and optional stop-word removal via
`strings.Fields` / `strings.Join`. -/
def NormalizeText (cfg : NormalizationConfig) (text : List Char) : List Char :=
  if text = [] then []
  else
    let t1 := if cfg.enableLowercase then lowerStr text else text
    let t2 := collapseSpaces (goTrimSpace t1)
    if cfg.enableStopwords then
      joinSpace ((goFields t2).filter (fun w => ¬ isStopword (lowerStr w)))
    else t2

/-- The alternatives of the legal-suffix regex
`(?i)\s+(inc\.?|incorporated|corp\.?|corporation|llc|ltd\.?|limited|llp|l\.l\.p\.?|pllc|p\.l\.l\.c\.?|pc|p\.c\.?)$`,
expanded (optional trailing periods written out). -/
def legalSuffixAlts : List (List Char) :=
  ["inc", "inc.", "incorporated", "corp", "corp.", "corporation", "llc",
   "ltd", "ltd.", "limited", "llp", "l.l.p", "l.l.p.", "pllc", "p.l.l.c",
   "p.l.l.c.", "pc", "p.c", "p.c."].map str

/-- Whether a tail of the string is exactly `\s+` followed by one
legal-suffix alternative (case-insensitively), i.e. an anchored match. -/
def isLegalSuffixTail (l : List Char) : Bool :=
  match l with
  | [] => false
  | c :: _ =>
    isGoRegexSpace c && legalSuffixAlts.contains (lowerStr (l.dropWhile (fun d => isGoRegexSpace d)))

/-- `legalSuffixRegex.ReplaceAllString(name, "")`: the pattern is anchored at
`$`, so it removes the leftmost tail consisting of whitespace plus one
suffix alternative — at most one suffix per application. -/
def stripLegalSuffix : List Char → List Char
  | [] => []
  | c :: cs => if isLegalSuffixTail (c :: cs) then [] else c :: stripLegalSuffix cs

/-- `initialsRegex.ReplaceAllString(name, "$1")` for `\b([A-Z])\.?\b`:
leftmost-first scan; a boundary-preceded uppercase letter keeps itself and
drops a following period when (and only when) a word character follows that
period (otherwise `\.?` must match empty for the trailing `\b` to hold).
The scan carries the previous character of the *original* string for the
`\b` test, as Go's scanner does.  The fuel argument only bounds the number
of scan steps; every step consumes at least one character, so fuel equal to
the string length never runs out. -/
def normInitialsAux : Nat → Option Char → List Char → List Char
  | 0, _, s => s
  | _ + 1, _, [] => []
  | fuel + 1, prev, c :: cs =>
    let boundaryBefore := match prev with
      | none => true
      | some p => !(isWordChar p)
    if boundaryBefore && isUpperAZ c then
      match cs with
      | '.' :: rest =>
        if (match rest with | [] => false | d :: _ => isWordChar d)
        then c :: normInitialsAux fuel (some '.') rest
        else c :: normInitialsAux fuel (some c) cs
      | _ => c :: normInitialsAux fuel (some c) cs
    else c :: normInitialsAux fuel (some c) cs

/-- The full `initialsRegex` replacement pass. -/
def normInitialsScan (s : List Char) : List Char :=
  normInitialsAux s.length none s

/-- `Normalizer.NormalizeName`. -/
def NormalizeName (cfg : NormalizationConfig) (name : List Char) : List Char :=
  if name = [] then []
  else
    let n1 := NormalizeText cfg name
    let n2 := if lookupOpt cfg.nameOptions (str "remove_legal_suffixes")
              then stripLegalSuffix n1 else n1
    let n3 := if lookupOpt cfg.nameOptions (str "normalize_initials")
              then normInitialsScan n2 else n2
    goTrimSpace n3

/-- The normalizer's `streetAbbreviations` table, in source order.  (Go
iterates the map in randomized order; the replacements are independent of
each other — no key occurs in another entry's replacement — so the result
does not depend on the order.) -/
def streetAbbrTable : List (List Char × List Char) :=
  [(str "street", str "st"), (str "avenue", str "ave"),
   (str "boulevard", str "blvd"), (str "road", str "rd"),
   (str "lane", str "ln"), (str "drive", str "dr"),
   (str "court", str "ct"), (str "square", str "sq"),
   (str "parkway", str "pkwy")]

/-- Case-insensitive match of `word` at the head of `s`. -/
def ciWordAt (s word : List Char) : Bool :=
  word.length ≤ s.length && lowerStr (s.take word.length) = word

/-- One replacement pass for the dynamically built regex `(?i)\bword\b\.?`
with replacement `abbr`: a boundary-delimited case-insensitive occurrence of
`word` is replaced, together with a directly following period (`\.?` is
greedy, and the period sits after the trailing `\b`).  `prev` is the
character of the original string before the scan position; the fuel, set to
the string length by the wrapper, never runs out because every step consumes
at least one character. -/
def replaceWordAux (word abbr : List Char) : Nat → Option Char → List Char → List Char
  | 0, _, s => s
  | _ + 1, _, [] => []
  | fuel + 1, prev, c :: cs =>
    let boundaryBefore := match prev with
      | none => true
      | some p => !(isWordChar p)
    if word ≠ [] ∧ (boundaryBefore && ciWordAt (c :: cs) word) = true ∧
        (match (c :: cs).drop word.length with
         | [] => true
         | d :: _ => !(isWordChar d)) = true then
      match (c :: cs).drop word.length with
      | '.' :: rest2 => abbr ++ replaceWordAux word abbr fuel (some '.') rest2
      | rest => abbr ++ replaceWordAux word abbr fuel word.getLast? rest
    else c :: replaceWordAux word abbr fuel (some c) cs

/-- The full replacement pass for one street-type abbreviation. -/
def replaceWordScan (word abbr : List Char) (s : List Char) : List Char :=
  replaceWordAux word abbr s.length none s

/-- Apply every street-type abbreviation replacement
(`for word, abbr := range n.streetAbbreviations { ... ReplaceAllString ... }`). -/
def applyStreetAbbrs (s : List Char) : List Char :=
  streetAbbrTable.foldl (fun acc p => replaceWordScan p.1 p.2 acc) s

/-- Keyword alternatives of the apartment-clause regex, in pattern order. -/
def aptKeywords : List (List Char) :=
  ["apt", "apartment", "ste", "suite", "unit", "#"].map str

/-- Character class `[a-z0-9-]` under `(?i)`. -/
def isAptTokenChar (c : Char) : Bool := isAlnumChar c || c = '-'

/-- Try to match the apartment-clause regex
`(?i)(\s+)(apt|apartment|ste|suite|unit|#)\.?\s+[a-z0-9-]+` at the head of
`s`; on success return the remainder after the match.  The whitespace runs
and the token run are greedy; their classes are disjoint from what follows
them, so no backtracking arises (a consumed period must be followed by
whitespace or the period branch fails and the empty `\.?` cannot succeed
either, the next character being the period). -/
def matchAptClause (s : List Char) : Option (List Char) :=
  if s.takeWhile (fun c => isGoRegexSpace c) = [] then none
  else
    let r1 := s.dropWhile (fun c => isGoRegexSpace c)
    match aptKeywords.find? (fun kw => ciWordAt r1 kw) with
    | none => none
    | some kw =>
      let r2 := r1.drop kw.length
      let r3 := if r2.head? = some '.' then r2.drop 1 else r2
      if r3.takeWhile (fun c => isGoRegexSpace c) = [] then none
      else
        let r4 := r3.dropWhile (fun c => isGoRegexSpace c)
        let tok := r4.takeWhile (fun c => isAptTokenChar c)
        if tok = [] then none
        else some (r4.drop tok.length)

/-- `apartmentRegex.ReplaceAllString(address, "")`: remove every
apartment/suite/unit clause, scanning left to right and resuming after each
match, as `ReplaceAllString` does.  Fuel as in the other scanners;
`matchAptClause_length` shows a match consumes at least one character, so
fuel equal to the string length never runs out. -/
def removeAptAux : Nat → List Char → List Char
  | 0, s => s
  | _ + 1, [] => []
  | fuel + 1, c :: cs =>
    match matchAptClause (c :: cs) with
    | some rest => removeAptAux fuel rest
    | none => c :: removeAptAux fuel cs

/-- The full apartment-clause removal pass. -/
def removeAptClauses (s : List Char) : List Char := removeAptAux s.length s

/-- `Normalizer.NormalizeAddress`. -/
def NormalizeAddress (cfg : NormalizationConfig) (address : List Char) : List Char :=
  if address = [] then []
  else
    let a1 := NormalizeText cfg address
    let a2 := if lookupOpt cfg.addressOptions (str "standardize_abbreviations")
              then applyStreetAbbrs a1 else a1
    let a3 := if lookupOpt cfg.addressOptions (str "remove_apartment_numbers")
              then removeAptClauses a2 else a2
    goTrimSpace a3

/-- Take exactly `n` digits from the head of `s` (`\d{n}` anchored). -/
def takeDigits (n : Nat) (s : List Char) : Option (List Char × List Char) :=
  let d := s.take n
  if d.length = n ∧ d.all (fun c => isDigitChar c) then some (d, s.drop n) else none

/-- Match `[-. (]*(\d{3})[-. )]*(\d{3})[-. ]*(\d{4})$` against `t`.  Each
separator class is disjoint from the digits that follow it, so the greedy
stars never need to backtrack. -/
def phoneTailMatch (t : List Char) : Option (List Char × List Char × List Char) :=
  let t1 := t.dropWhile (fun c => c = '-' ∨ c = '.' ∨ c = ' ' ∨ c = '(')
  match takeDigits 3 t1 with
  | none => none
  | some (g2, t2) =>
    let t3 := t2.dropWhile (fun c => c = '-' ∨ c = '.' ∨ c = ' ' ∨ c = ')')
    match takeDigits 3 t3 with
    | none => none
    | some (g3, t4) =>
      let t5 := t4.dropWhile (fun c => c = '-' ∨ c = '.' ∨ c = ' ')
      match takeDigits 4 t5 with
      | none => none
      | some (g4, t6) => if t6 = [] then some (g2, g3, g4) else none

/-- Full match of `phoneRegex`
`^(?:\+?(\d{1,3}))?[-. (]*(\d{3})[-. )]*(\d{3})[-. ]*(\d{4})$`, with RE2's
preference order: the optional country group prefers to be present, `\+?`
prefers to consume a plus, `\d{1,3}` is greedy.  Returns the four capture
groups (the country group is `[]` when absent). -/
def phoneRegexMatch (s : List Char) : Option (List Char × List Char × List Char × List Char) :=
  let tryCC := fun (rest : List Char) =>
    (([3, 2, 1].filterMap (fun k =>
      match takeDigits k rest with
      | none => none
      | some (cc, t) =>
        match phoneTailMatch t with
        | none => none
        | some (g2, g3, g4) => some (cc, g2, g3, g4))).head?)
  match s with
  | '+' :: rest => tryCC rest
  | _ =>
    match tryCC s with
    | some r => some r
    | none =>
      match phoneTailMatch s with
      | none => none
      | some (g2, g3, g4) => some ([], g2, g3, g4)

/-- `Normalizer.NormalizePhone`. -/
def NormalizePhone (cfg : NormalizationConfig) (phone : List Char) : List Char :=
  if phone = [] then []
  else if phone.head? = some '+' ∧ 8 ≤ phone.length ∧ phone.length ≤ 15 then phone
  else
    match phoneRegexMatch phone with
    | none => phone
    | some (cc, g2, g3, g4) =>
      let countryCode := if cc = [] then str "1" else cc
      if lookupOpt cfg.phoneOptions (str "e164_format")
      then '+' :: (countryCode ++ g2 ++ g3 ++ g4)
      else phone

/-- The local-part character class `[a-zA-Z0-9._%+-]` of `emailRegex`. -/
def isEmailLocalChar (c : Char) : Bool :=
  isAlnumChar c || c = '.' || c = '_' || c = '%' || c = '+' || c = '-'

/-- The domain character class `[a-zA-Z0-9.-]` of `emailRegex`. -/
def isEmailDomainChar (c : Char) : Bool :=
  isAlnumChar c || c = '.' || c = '-'

/-- Whether `rest` matches `[a-zA-Z0-9.-]+\.[a-zA-Z]{2,}$`. -/
def emailTailValid (rest : List Char) : Bool :=
  (List.range rest.length).any (fun i =>
    let m := rest.take i
    let r := rest.drop i
    decide (m ≠ []) && m.all (fun c => isEmailDomainChar c) &&
    decide (r.head? = some '.') &&
    (let t := r.drop 1
     decide (2 ≤ t.length) && t.all (fun c => isAsciiAlpha c)))

/-- `emailRegex.MatchString`:
`^[a-zA-Z0-9._%+-]+@[a-zA-Z0-9.-]+\.[a-zA-Z]{2,}$`.  Neither class admits
`@`, so the regex's `@` is the first `@` of the string. -/
def goEmailValid (s : List Char) : Bool :=
  let local' := s.takeWhile (fun c => c ≠ '@')
  decide (local'.length < s.length) &&
  decide (local' ≠ []) && local'.all (fun c => isEmailLocalChar c) &&
  emailTailValid (s.drop (local'.length + 1))

/-- `Normalizer.NormalizeEmail`. -/
def NormalizeEmail (cfg : NormalizationConfig) (email : List Char) : List Char :=
  if email = [] then []
  else if ¬ goEmailValid email then email
  else if lookupOpt cfg.emailOptions (str "lowercase_domain") then
    match splitOnChar '@' email with
    | [p0, p1] => p0 ++ '@' :: lowerStr p1
    | _ => email
  else email

/-- The normalizer's `stateCodes` table. -/
def stateCodes : List (String × String) :=
  [("alabama", "AL"), ("alaska", "AK"), ("arizona", "AZ"), ("arkansas", "AR"),
   ("california", "CA"), ("colorado", "CO"), ("connecticut", "CT"),
   ("delaware", "DE"), ("florida", "FL"), ("georgia", "GA"), ("hawaii", "HI"),
   ("idaho", "ID"), ("illinois", "IL"), ("indiana", "IN"), ("iowa", "IA"),
   ("kansas", "KS"), ("kentucky", "KY"), ("louisiana", "LA"), ("maine", "ME"),
   ("maryland", "MD"), ("massachusetts", "MA"), ("michigan", "MI"),
   ("minnesota", "MN"), ("mississippi", "MS"), ("missouri", "MO"),
   ("montana", "MT"), ("nebraska", "NE"), ("nevada", "NV"),
   ("new hampshire", "NH"), ("new jersey", "NJ"), ("new mexico", "NM"),
   ("new york", "NY"), ("north carolina", "NC"), ("north dakota", "ND"),
   ("ohio", "OH"), ("oklahoma", "OK"), ("oregon", "OR"),
   ("pennsylvania", "PA"), ("rhode island", "RI"), ("south carolina", "SC"),
   ("south dakota", "SD"), ("tennessee", "TN"), ("texas", "TX"),
   ("utah", "UT"), ("vermont", "VT"), ("virginia", "VA"),
   ("washington", "WA"), ("west virginia", "WV"), ("wisconsin", "WI"),
   ("wyoming", "WY")]

/-- `Normalizer.NormalizeState` (uses no configuration options). -/
def NormalizeState (state : List Char) : List Char :=
  if state = [] then []
  else
    let stateLower := lowerStr state
    if state.length = 2 then state.map goToUpper
    else
      match stateCodes.find? (fun p => p.1.toList = stateLower) with
      | some p => p.2.toList
      | none => state

/-- `Normalizer.NormalizeZip`: strip `[^0-9a-zA-Z]`, then keep the first five
characters when the result is at least five long and starts with a digit. -/
def NormalizeZip (zip : List Char) : List Char :=
  if zip = [] then []
  else
    let z := zip.filter (fun c => isAlnumChar c)
    if 5 ≤ z.length ∧ (match z.head? with | some c => isDigitChar c | none => false) = true
    then z.take 5 else z

/-- Go string-keyed maps of strings, as insertion-ordered association lists. -/
abbrev FieldMap : Type := List (List Char × List Char)

/-- Map read with Go's zero-value semantics. -/
def mapGet (m : FieldMap) (k : List Char) : List Char :=
  ((m.find? (fun p => p.1 = k)).map (fun p => p.2)).getD []

/-- Map read returning presence. -/
def mapGet? (m : FieldMap) (k : List Char) : Option (List Char) :=
  (m.find? (fun p => p.1 = k)).map (fun p => p.2)

/-- Key-presence test (`_, ok := m[k]`). -/
def mapHas (m : FieldMap) (k : List Char) : Bool :=
  (m.find? (fun p => p.1 = k)).isSome

/-- Map write: replace the binding in place, or append a new one. -/
def mapSet (m : FieldMap) (k v : List Char) : FieldMap :=
  if (m.find? (fun p => p.1 = k)).isSome
  then m.map (fun p => if p.1 = k then (k, v) else p)
  else m ++ [(k, v)]

/-- `Normalizer.NormalizeEntity`: copy all bindings, then add (or overwrite)
the `_normalized` variant of each known field that is present. -/
def NormalizeEntity (cfg : NormalizationConfig) (entity : FieldMap) : FieldMap :=
  let m0 : FieldMap := entity
  let m1 := if mapHas entity (str "name")
            then mapSet m0 (str "name_normalized") (NormalizeName cfg (mapGet entity (str "name")))
            else m0
  let m2 := if mapHas entity (str "address")
            then mapSet m1 (str "address_normalized") (NormalizeAddress cfg (mapGet entity (str "address")))
            else m1
  let m3 := if mapHas entity (str "phone")
            then mapSet m2 (str "phone_normalized") (NormalizePhone cfg (mapGet entity (str "phone")))
            else m2
  let m4 := if mapHas entity (str "email")
            then mapSet m3 (str "email_normalized") (NormalizeEmail cfg (mapGet entity (str "email")))
            else m3
  let m5 := if mapHas entity (str "state")
            then mapSet m4 (str "state_normalized") (NormalizeState (mapGet entity (str "state")))
            else m4
  let m6 := if mapHas entity (str "zip")
            then mapSet m5 (str "zip_normalized") (NormalizeZip (mapGet entity (str "zip")))
            else m5
  let m7 := if mapHas entity (str "city")
            then mapSet m6 (str "city_normalized") (NormalizeText cfg (mapGet entity (str "city")))
            else m6
  m7

/-! ## The `similarity` package

Embeds `internal/similarity`: the comparators the match service resolves
through its registry, plus the token-based `Jaccard` and `Cosine`
comparators.  All scores are `GoFloat` (exact rationals, or the `NaN` Go
produces for `0.0/0.0`); `Cosine`, whose value involves real square roots,
is embedded as a relation between inputs and a real score. -/

/-- Maximal runs of characters satisfying `p`; `acc` is the reversed
current run. -/
def runsAux (p : Char → Bool) (acc : List Char) : List Char → List (List Char)
  | [] => if acc.isEmpty then [] else [acc.reverse]
  | c :: cs =>
    if p c then runsAux p (c :: acc) cs
    else if acc.isEmpty then runsAux p [] cs
    else acc.reverse :: runsAux p [] cs

/-- `tokenize`: maximal runs of letters/digits, each lowercased.
(`unicode.IsLetter`/`IsNumber` are modelled on ASCII.) -/
def tokenize (s : List Char) : List (List Char) :=
  (runsAux (fun c => isAlnumChar c) [] s).map lowerStr

/-- `ExactMatch.Compare`. -/
def ExactMatch.Compare (a b : List Char) : GoFloat :=
  if a = b then GoFloat.q 1 else GoFloat.q 0

/-- `CaseInsensitiveMatch.Compare` (`strings.EqualFold`, ASCII model). -/
def CaseInsensitiveMatch.Compare (a b : List Char) : GoFloat :=
  if eqFold a b then GoFloat.q 1 else GoFloat.q 0

/-- `ContainedIn.Compare` (the registry instantiates `IgnoreCase: true`). -/
def ContainedIn.Compare (ignoreCase : Bool) (a0 b0 : List Char) : GoFloat :=
  if a0 = [] ∧ b0 = [] then GoFloat.q 1
  else if a0 = [] ∨ b0 = [] then GoFloat.q 0
  else
    let a := if ignoreCase then lowerStr a0 else a0
    let b := if ignoreCase then lowerStr b0 else b0
    if goContains b a || goContains a b then
      GoFloat.q ((min a.length b.length : ℚ) / (max a.length b.length : ℚ))
    else GoFloat.q 0

/-- The matching pass of `JaroWinkler.jaro`: for each index `i` of `a`, scan
the window `[max(0,i-md), min(i+md+1,|b|))` of `b` for the first unmarked
equal character; returns (marks on `a`, marks on `b`, match count). -/
def jaroScan (a b : List Char) (md : Nat) : List Bool × List Bool × Nat :=
  (List.range a.length).foldl
    (fun st i =>
      let mA := st.1
      let mB := st.2.1
      let cnt := st.2.2
      match a.get? i with
      | none => (mA ++ [false], mB, cnt)
      | some ai =>
        let start := i - md
        let stop := min (i + md + 1) b.length
        match (List.range' start (stop - start)).find?
            (fun j => (mB.get? j = some false) && (b.get? j = some ai)) with
        | some j => (mA ++ [true], mB.set j true, cnt + 1)
        | none => (mA ++ [false], mB, cnt))
    ([], List.replicate b.length false, 0)

/-- The transposition pass of `JaroWinkler.jaro`: walk the marked positions
of `b` in order against the marked positions of `a`. -/
def jaroTranspositions (a b : List Char) (mA mB : List Bool) : Nat :=
  ((List.range a.length).foldl
    (fun st i =>
      let k := st.1
      let t := st.2
      if mA.getD i false then
        match (List.range' k (b.length - k)).find? (fun j => mB.getD j false) with
        | some k' =>
          (k' + 1, if a.get? i = b.get? k' then t else t + 1)
        | none => (k, t)
      else (k, t))
    (0, 0)).2

/-- `JaroWinkler.jaro` (byte-indexed, as the Go code is). -/
def JaroWinkler.jaro (a0 b0 : List Char) : ℚ :=
  if a0 = b0 then 1
  else
    let a := if b0.length < a0.length then b0 else a0
    let b := if b0.length < a0.length then a0 else b0
    if a.length = 0 then 0
    else
      let md := max a.length b.length / 2 - 1
      let scan := jaroScan a b md
      let mcount := scan.2.2
      if mcount = 0 then 0
      else
        let t := jaroTranspositions a b scan.1 scan.2.1
        let m : ℚ := mcount
        (m / a.length + m / b.length + (m - (t : ℚ) / 2) / m) / 3

/-- Length of the common prefix of `a` and `b`, capped at `n`
(the Winkler prefix loop, which breaks at the first mismatch). -/
def commonPrefixLen : List Char → List Char → Nat → Nat
  | a :: as', b :: bs, n + 1 => if a = b then 1 + commonPrefixLen as' bs n else 0
  | _, _, _ => 0

/-- `JaroWinkler.Compare` with the registry's parameters
(`PrefixScale = 0.1`, `PrefixLength = 4`). -/
def JaroWinkler.Compare (a b : List Char) : GoFloat :=
  if a = [] ∧ b = [] then GoFloat.q 1
  else if a = [] ∨ b = [] then GoFloat.q 0
  else
    let j := JaroWinkler.jaro a b
    let p : Nat := commonPrefixLen a b (min 4 (min a.length b.length))
    GoFloat.q (j + (p : ℚ) * (1 / 10) * (1 - j))

/-- `Jaccard.Compare`: intersection over union of lowercase token sets.
`float64(0)/float64(0)` in Go is `NaN`, which `GoFloat.div` reproduces when
both strings are non-empty but token-free. -/
def Jaccard.Compare (a b : List Char) : GoFloat :=
  if a = [] ∧ b = [] then GoFloat.q 1
  else if a = [] ∨ b = [] then GoFloat.q 0
  else
    let tokensA := tokenize a
    let tokensB := tokenize b
    let setA := tokensA.dedup
    let setB := tokensB.dedup
    let unionSet := (tokensA ++ tokensB).dedup
    let inter := (setA.filter (fun t => setB.contains t)).length
    GoFloat.div (GoFloat.q inter) (GoFloat.q unionSet.length)

/-- Term-frequency vector of a string: each distinct token with its count,
in first-occurrence order. -/
def freqVec (s : List Char) : List (List Char × Nat) :=
  let tokens := tokenize s
  tokens.dedup.map (fun t => (t, tokens.count t))

/-- The dot product of `Cosine.Compare` (an integer in the code's floats). -/
def cosDot (a b : List Char) : ℚ :=
  ((freqVec a).map (fun p =>
    match (freqVec b).find? (fun q' => q'.1 = p.1) with
    | some q' => (p.2 * q'.2 : ℚ)
    | none => 0)).sum

/-- The squared magnitude of a term-frequency vector. -/
def cosMagSq (a : List Char) : ℚ :=
  ((freqVec a).map (fun p => (p.2 * p.2 : ℚ))).sum

/-- `Cosine.Compare`, as a relation between the two inputs and the real
score: the code computes `dot / (√magA² · √magB²)`, guarded by
`magA == 0 || magB == 0 → 0`.  Square roots of rationals are irrational in
general, so the comparator is embedded relationally instead of as an
executable function. -/
def Cosine.CompareRel (a b : List Char) (r : ℝ) : Prop :=
  if a = [] ∧ b = [] then r = 1
  else if a = [] ∨ b = [] then r = 0
  else
    ((Real.sqrt (cosMagSq a) = 0 ∨ Real.sqrt (cosMagSq b) = 0) ∧ r = 0) ∨
    (¬ (Real.sqrt (cosMagSq a) = 0 ∨ Real.sqrt (cosMagSq b) = 0) ∧
      r = (cosDot a b : ℝ) / (Real.sqrt (cosMagSq a) * Real.sqrt (cosMagSq b)))

/-- Alternatives of a `\b(alt1|alt2|...)\b` regex: the literal (lowercase)
and whether the alternative carries an optional trailing `\.?`. -/
abbrev AltList : Type := List (List Char × Bool)

/-- Match one alternative at the head of `s` (case-insensitively), honouring
RE2's leftmost-first preference: alternatives in order, and within one, the
optional period is consumed when the trailing `\b` still holds (a word
character after the period), otherwise left.  Returns the matched text and
the remainder. -/
def altMatchAt (alts : AltList) (s : List Char) : Option (List Char × List Char) :=
  alts.findSome? (fun alt =>
    if ciWordAt s alt.1 then
      let rest := s.drop alt.1.length
      let withDot : Option (List Char × List Char) :=
        if alt.2 then
          match rest with
          | '.' :: r2 =>
            if (match r2 with | [] => false | d :: _ => isWordChar d)
            then some (s.take (alt.1.length + 1), r2)
            else none
          | _ => none
        else none
      match withDot with
      | some m => some m
      | none =>
        if (match rest with | [] => true | d :: _ => !(isWordChar d))
        then some (s.take alt.1.length, rest)
        else none
    else none)

/-- The `ReplaceAllStringFunc` closure shared by the street-type and
directional replacements: lowercase the matched text, return the
replacement of the first table key *contained* in it, else the lowered
match.  (Go iterates the map in randomized order; the model iterates in
source order.  The choice is observable only for matches containing several
keys — e.g. `parkway` contains both `parkway` and `way` — and no theorem
below depends on it.) -/
def simAbbrevClosure (table : List (List Char × List Char)) (mtext : List Char) : List Char :=
  let m := lowerStr mtext
  match table.find? (fun p => goContains m p.1) with
  | some p => p.2
  | none => m

/-- Replacement scan for `(?i)\b(alts)\b` with the closure above; `prev` is
the previous character of the original string, fuel as in the other
scanners (every step consumes at least one character). -/
def altReplaceAux (alts : AltList) (table : List (List Char × List Char)) :
    Nat → Option Char → List Char → List Char
  | 0, _, s => s
  | _ + 1, _, [] => []
  | fuel + 1, prev, c :: cs =>
    let boundaryBefore := match prev with
      | none => true
      | some p => !(isWordChar p)
    if boundaryBefore then
      match altMatchAt alts (c :: cs) with
      | some (mtext, rest) =>
        simAbbrevClosure table mtext ++ altReplaceAux alts table fuel mtext.getLast? rest
      | none => c :: altReplaceAux alts table fuel (some c) cs
    else c :: altReplaceAux alts table fuel (some c) cs

/-- One full replacement pass. -/
def altReplaceScan (alts : AltList) (table : List (List Char × List Char))
    (s : List Char) : List Char :=
  altReplaceAux alts table s.length none s

/-- Alternatives of `AddressSimilarity.streetTypeRegex`, in pattern order. -/
def streetTypeAlts : AltList :=
  [(str "street", false), (str "st", true), (str "avenue", false),
   (str "ave", true), (str "boulevard", false), (str "blvd", true),
   (str "road", false), (str "rd", true), (str "drive", false),
   (str "dr", true), (str "lane", false), (str "ln", true),
   (str "court", false), (str "ct", true), (str "circle", false),
   (str "cir", true), (str "place", false), (str "pl", true),
   (str "way", false), (str "parkway", false), (str "pkwy", true),
   (str "highway", false), (str "hwy", true), (str "expressway", false),
   (str "expy", true)]

/-- `AddressSimilarity.streetTypes`, in source order. -/
def streetTypesTable : List (List Char × List Char) :=
  [(str "street", str "st"), (str "st", str "st"), (str "avenue", str "ave"),
   (str "ave", str "ave"), (str "boulevard", str "blvd"),
   (str "blvd", str "blvd"), (str "road", str "rd"), (str "rd", str "rd"),
   (str "drive", str "dr"), (str "dr", str "dr"), (str "lane", str "ln"),
   (str "ln", str "ln"), (str "court", str "ct"), (str "ct", str "ct"),
   (str "circle", str "cir"), (str "cir", str "cir"),
   (str "place", str "pl"), (str "pl", str "pl"), (str "way", str "way"),
   (str "parkway", str "pkwy"), (str "pkwy", str "pkwy"),
   (str "highway", str "hwy"), (str "hwy", str "hwy")]

/-- Alternatives of `AddressSimilarity.directionalRegex`, in pattern order. -/
def directionalAlts : AltList :=
  [(str "north", false), (str "south", false), (str "east", false),
   (str "west", false), (str "n", true), (str "s", true), (str "e", true),
   (str "w", true), (str "ne", false), (str "nw", false), (str "se", false),
   (str "sw", false)]

/-- `AddressSimilarity.directions`, in source order. -/
def directionsTable : List (List Char × List Char) :=
  [(str "north", str "n"), (str "n", str "n"), (str "south", str "s"),
   (str "s", str "s"), (str "east", str "e"), (str "e", str "e"),
   (str "west", str "w"), (str "w", str "w"), (str "ne", str "ne"),
   (str "nw", str "nw"), (str "se", str "se"), (str "sw", str "sw")]

/-- `NameSimilarity.preprocess`: lowercase, strip legal suffixes (the same
anchored regex as the normalizer), trim, collapse whitespace. -/
def NameSimilarity.preprocess (name : List Char) : List Char :=
  collapseSpaces (goTrimSpace (stripLegalSuffix (lowerStr name)))

/-- `NameSimilarity.Compare`:
`0.6·JaroWinkler + 0.3·Jaccard + 0.1·ContainedIn` after preprocessing, with
early-out exact and case-insensitive checks. -/
def NameSimilarity.Compare (a0 b0 : List Char) : GoFloat :=
  if a0 = [] ∧ b0 = [] then GoFloat.q 1
  else if a0 = [] ∨ b0 = [] then GoFloat.q 0
  else if a0 = b0 then GoFloat.q 1
  else
    let a := NameSimilarity.preprocess a0
    let b := NameSimilarity.preprocess b0
    if CaseInsensitiveMatch.Compare a b = GoFloat.q 1 then GoFloat.q 1
    else
      ((JaroWinkler.Compare a b).mul (GoFloat.q (6 / 10))).add
        (((Jaccard.Compare a b).mul (GoFloat.q (3 / 10))).add
          ((ContainedIn.Compare true a b).mul (GoFloat.q (1 / 10))))

/-- `AddressSimilarity.preprocess`: lowercase, remove unit clauses (the same
pattern as the normalizer's apartment regex), fold street types, fold
directionals, trim, collapse whitespace. -/
def AddressSimilarity.preprocess (address : List Char) : List Char :=
  collapseSpaces (goTrimSpace
    (altReplaceScan directionalAlts directionsTable
      (altReplaceScan streetTypeAlts streetTypesTable
        (removeAptClauses (lowerStr address)))))

/-- `AddressSimilarity.Compare`:
`(0.5·Jaccard + 0.2·JaroWinkler + 0.3·ContainedIn) × penalty`, with
`penalty = 0.3` when both sides have a leading numeric run and the first
runs differ. -/
def AddressSimilarity.Compare (a0 b0 : List Char) : GoFloat :=
  if a0 = [] ∧ b0 = [] then GoFloat.q 1
  else if a0 = [] ∨ b0 = [] then GoFloat.q 0
  else if a0 = b0 then GoFloat.q 1
  else
    let a := AddressSimilarity.preprocess a0
    let b := AddressSimilarity.preprocess b0
    if CaseInsensitiveMatch.Compare a b = GoFloat.q 1 then GoFloat.q 1
    else
      let aNumbers := runsAux (fun c => isDigitChar c) [] a
      let bNumbers := runsAux (fun c => isDigitChar c) [] b
      let numberMatch : ℚ :=
        if aNumbers ≠ [] ∧ bNumbers ≠ [] ∧ aNumbers.head? ≠ bNumbers.head?
        then 3 / 10 else 1
      let combined :=
        ((Jaccard.Compare a b).mul (GoFloat.q (5 / 10))).add
          (((JaroWinkler.Compare a b).mul (GoFloat.q (2 / 10))).add
            ((ContainedIn.Compare true a b).mul (GoFloat.q (3 / 10))))
      combined.mul (GoFloat.q numberMatch)

/-- `getLastN`: the last at most `n` characters. -/
def getLastN (s : List Char) (n : Nat) : List Char :=
  if s.length ≤ n then s else s.drop (s.length - n)

/-- `PhoneSimilarity.Compare`. -/
def PhoneSimilarity.Compare (a b : List Char) : GoFloat :=
  if a = [] ∧ b = [] then GoFloat.q 1
  else if a = [] ∨ b = [] then GoFloat.q 0
  else
    let aDigits := a.filter (fun c => isDigitChar c)
    let bDigits := b.filter (fun c => isDigitChar c)
    if aDigits = [] ∧ bDigits = [] then GoFloat.q 1
    else if aDigits = [] ∨ bDigits = [] then GoFloat.q 0
    else if aDigits = bDigits then GoFloat.q 1
    else
      let aLast := getLastN aDigits 10
      let bLast := getLastN bDigits 10
      let matching :=
        (((aLast.reverse).zip (bLast.reverse)).takeWhile (fun p => p.1 = p.2)).length
      if 10 ≤ matching then GoFloat.q 1
      else if 7 ≤ matching then GoFloat.q (9 / 10)
      else if 4 ≤ matching then GoFloat.q (7 / 10)
      else GoFloat.q ((matching : ℚ) / 10)

/-- Split by `emailPartsRegex` `^([^@]+)@(.+)$`: user is everything before
the first `@` (non-empty), domain everything after it (non-empty; RE2's `.`
does not match a newline, so a newline in the domain defeats the match). -/
def emailParts (s : List Char) : Option (List Char × List Char) :=
  let user := s.takeWhile (fun c => c ≠ '@')
  if user = [] ∨ user.length = s.length then none
  else
    let domain := s.drop (user.length + 1)
    if domain = [] ∨ domain.contains '\n' then none
    else some (user, domain)

/-- `EmailSimilarity.Compare`. -/
def EmailSimilarity.Compare (a b : List Char) : GoFloat :=
  if a = [] ∧ b = [] then GoFloat.q 1
  else if a = [] ∨ b = [] then GoFloat.q 0
  else if a = b then GoFloat.q 1
  else if eqFold a b then GoFloat.q (99 / 100)
  else
    match emailParts a, emailParts b with
    | some pa, some pb =>
      let domainScore := CaseInsensitiveMatch.Compare pa.2 pb.2
      if domainScore.lt (GoFloat.q 1) then domainScore.mul (GoFloat.q (3 / 10))
      else
        let userScore := JaroWinkler.Compare pa.1 pb.1
        (userScore.mul (GoFloat.q (4 / 10))).add (domainScore.mul (GoFloat.q (6 / 10)))
    | _, _ => JaroWinkler.Compare a b

/-- `ZipCodeSimilarity.Compare`. -/
def ZipCodeSimilarity.Compare (a b : List Char) : GoFloat :=
  if a = [] ∧ b = [] then GoFloat.q 1
  else if a = [] ∨ b = [] then GoFloat.q 0
  else
    let aDigits := a.filter (fun c => isDigitChar c)
    let bDigits := b.filter (fun c => isDigitChar c)
    if aDigits = [] ∧ bDigits = [] then GoFloat.q 1
    else if aDigits = [] ∨ bDigits = [] then GoFloat.q 0
    else if aDigits = bDigits then GoFloat.q 1
    else
      let prefixCap := min 5 (min aDigits.length bDigits.length)
      let matching :=
        (((aDigits.zip bDigits).take prefixCap).takeWhile (fun p => p.1 = p.2)).length
      if matching = 0 then GoFloat.q 0
      else if 5 ≤ matching then GoFloat.q (95 / 100)
      else if 3 ≤ matching then GoFloat.q (8 / 10)
      else if 1 ≤ matching then GoFloat.q (5 / 10)
      else GoFloat.q 0

/-- The similarity functions the match service can resolve (the registry's
field-specific comparators, the default text comparator, and `ExactMatch`).
`Cosine` and `Levenshtein` are never reachable from the match service. -/
inductive SimFn where
  | name : SimFn
  | address : SimFn
  | phone : SimFn
  | email : SimFn
  | zipCode : SimFn
  | text : SimFn
  | exactMatch : SimFn
deriving DecidableEq

/-- Dispatch `Function.Compare`. -/
def SimFn.Compare : SimFn → List Char → List Char → GoFloat
  | SimFn.name => NameSimilarity.Compare
  | SimFn.address => AddressSimilarity.Compare
  | SimFn.phone => PhoneSimilarity.Compare
  | SimFn.email => EmailSimilarity.Compare
  | SimFn.zipCode => ZipCodeSimilarity.Compare
  | SimFn.text => JaroWinkler.Compare
  | SimFn.exactMatch => ExactMatch.Compare

/-- `Function.Name()`. -/
def SimFn.fnName : SimFn → List Char
  | SimFn.name => str "NameSimilarity"
  | SimFn.address => str "AddressSimilarity"
  | SimFn.phone => str "PhoneSimilarity"
  | SimFn.email => str "EmailSimilarity"
  | SimFn.zipCode => str "ZipCodeSimilarity"
  | SimFn.text => str "JaroWinkler"
  | SimFn.exactMatch => str "ExactMatch"

/-- `Registry.GetByFieldType` (the registry's `text` default is
Jaro-Winkler). -/
def GetByFieldType (fieldType : List Char) : SimFn :=
  let f := lowerStr fieldType
  if f = str "name" ∨ f = str "business_name" ∨ f = str "person_name" ∨
     f = str "company" ∨ f = str "organization" then SimFn.name
  else if f = str "address" ∨ f = str "street" ∨ f = str "street_address" ∨
     f = str "mailing_address" then SimFn.address
  else if f = str "phone" ∨ f = str "phone_number" ∨ f = str "telephone" ∨
     f = str "mobile" ∨ f = str "cell" ∨ f = str "fax" then SimFn.phone
  else if f = str "email" ∨ f = str "email_address" then SimFn.email
  else if f = str "zip" ∨ f = str "zipcode" ∨ f = str "postal_code" ∨
     f = str "postal" then SimFn.zipCode
  else SimFn.text

/-! ## MD5 and the `cluster` package

Embeds `crypto/md5` (needed by `GenerateClusterKey`) as a pure function on
byte lists, and the cluster service's key derivation.  The service's
memoization cache is not modelled: it only short-circuits recomputation (it
is keyed on the raw values of the present blocking fields). -/

/-- 32-bit left rotation (inputs below `2^32`). -/
def rotl32 (x n : Nat) : Nat := ((x <<< n) ||| (x >>> (32 - n))) % 4294967296

/-- Bitwise complement on 32 bits. -/
def not32 (x : Nat) : Nat := x ^^^ 4294967295

/-- The MD5 per-round shift amounts. -/
def md5Shifts : List Nat :=
  [7, 12, 17, 22, 7, 12, 17, 22, 7, 12, 17, 22, 7, 12, 17, 22,
   5, 9, 14, 20, 5, 9, 14, 20, 5, 9, 14, 20, 5, 9, 14, 20,
   4, 11, 16, 23, 4, 11, 16, 23, 4, 11, 16, 23, 4, 11, 16, 23,
   6, 10, 15, 21, 6, 10, 15, 21, 6, 10, 15, 21, 6, 10, 15, 21]

/-- The MD5 sine-derived constants. -/
def md5K : List Nat :=
  [0xd76aa478, 0xe8c7b756, 0x242070db, 0xc1bdceee,
   0xf57c0faf, 0x4787c62a, 0xa8304613, 0xfd469501,
   0x698098d8, 0x8b44f7af, 0xffff5bb1, 0x895cd7be,
   0x6b901122, 0xfd987193, 0xa679438e, 0x49b40821,
   0xf61e2562, 0xc040b340, 0x265e5a51, 0xe9b6c7aa,
   0xd62f105d, 0x02441453, 0xd8a1e681, 0xe7d3fbc8,
   0x21e1cde6, 0xc33707d6, 0xf4d50d87, 0x455a14ed,
   0xa9e3e905, 0xfcefa3f8, 0x676f02d9, 0x8d2a4c8a,
   0xfffa3942, 0x8771f681, 0x6d9d6122, 0xfde5380c,
   0xa4beea44, 0x4bdecfa9, 0xf6bb4b60, 0xbebfbc70,
   0x289b7ec6, 0xeaa127fa, 0xd4ef3085, 0x04881d05,
   0xd9d4d039, 0xe6db99e5, 0x1fa27cf8, 0xc4ac5665,
   0xf4292244, 0x432aff97, 0xab9423a7, 0xfc93a039,
   0x655b59c3, 0x8f0ccc92, 0xffeff47d, 0x85845dd1,
   0x6fa87e4f, 0xfe2ce6e0, 0xa3014314, 0x4e0811a1,
   0xf7537e82, 0xbd3af235, 0x2ad7d2bb, 0xeb86d391]

/-- One MD5 round step. -/
def md5Step (M : List Nat) (st : Nat × Nat × Nat × Nat) (i : Nat) :
    Nat × Nat × Nat × Nat :=
  let a := st.1
  let b := st.2.1
  let c := st.2.2.1
  let d := st.2.2.2
  let fg : Nat × Nat :=
    if i < 16 then ((b &&& c) ||| (not32 b &&& d), i)
    else if i < 32 then ((d &&& b) ||| (not32 d &&& c), (5 * i + 1) % 16)
    else if i < 48 then (b ^^^ c ^^^ d, (3 * i + 5) % 16)
    else (c ^^^ (b ||| not32 d), (7 * i) % 16)
  let f := (fg.1 + a + md5K.getD i 0 + M.getD fg.2 0) % 4294967296
  (d, (b + rotl32 f (md5Shifts.getD i 0)) % 4294967296, b, c)

/-- Decode 64 bytes into 16 little-endian 32-bit words. -/
def md5Words : List Nat → List Nat
  | b0 :: b1 :: b2 :: b3 :: rest =>
    (b0 + b1 * 256 + b2 * 65536 + b3 * 16777216) :: md5Words rest
  | _ => []

/-- Process one 64-byte chunk. -/
def md5Chunk (st : Nat × Nat × Nat × Nat) (chunk : List Nat) :
    Nat × Nat × Nat × Nat :=
  let M := md5Words chunk
  let r := (List.range 64).foldl (md5Step M) st
  ((st.1 + r.1) % 4294967296, (st.2.1 + r.2.1) % 4294967296,
   (st.2.2.1 + r.2.2.1) % 4294967296, (st.2.2.2 + r.2.2.2) % 4294967296)

/-- Split into 64-byte chunks (fuel bounds the chunk count; every step
consumes at least one byte, so `length / 64 + 1` chunks always suffice). -/
def chunks64Aux : Nat → List Nat → List (List Nat)
  | 0, _ => []
  | _ + 1, [] => []
  | n + 1, b :: bs => (b :: bs).take 64 :: chunks64Aux n ((b :: bs).drop 64)

/-- Split into 64-byte chunks. -/
def chunks64 (l : List Nat) : List (List Nat) := chunks64Aux (l.length / 64 + 1) l

/-- A number as `n` little-endian bytes. -/
def leBytes : Nat → Nat → List Nat
  | 0, _ => []
  | n + 1, x => x % 256 :: leBytes n (x / 256)

/-- MD5 padding: a `0x80` byte, zeros to 56 mod 64, and the bit length as
eight little-endian bytes. -/
def md5Pad (msg : List Nat) : List Nat :=
  let padLen := (119 - msg.length % 64) % 64
  msg ++ [128] ++ List.replicate padLen 0 ++
    leBytes 8 ((msg.length * 8) % 18446744073709551616)

/-- The MD5 digest of a byte string, as 16 bytes. -/
def md5Sum (msg : List Nat) : List Nat :=
  let st := (chunks64 (md5Pad msg)).foldl md5Chunk
    (0x67452301, 0xefcdab89, 0x98badcfe, 0x10325476)
  leBytes 4 st.1 ++ leBytes 4 st.2.1 ++ leBytes 4 st.2.2.1 ++ leBytes 4 st.2.2.2

/-- One lowercase hex digit. -/
def hexDigit (n : Nat) : Char :=
  if n < 10 then Char.ofNat (48 + n) else Char.ofNat (87 + n)

/-- `hex.EncodeToString` of a byte list. -/
def hexEncode (bytes : List Nat) : List Char :=
  bytes.foldr (fun b acc => hexDigit (b / 16) :: hexDigit (b % 16) :: acc) []

/-- `hex.EncodeToString(md5.Sum(...))` of an ASCII string. -/
def md5Hex (s : List Char) : List Char :=
  hexEncode (md5Sum (s.map Char.toNat))

/-- Byte-lexicographic `<` on strings (Go `sort.Strings` order). -/
def strLt : List Char → List Char → Bool
  | [], [] => false
  | [], _ :: _ => true
  | _ :: _, [] => false
  | a :: as', b :: bs =>
    if a.toNat < b.toNat then true
    else if b.toNat < a.toNat then false
    else strLt as' bs

/-- Insert into a reversed sorted prefix, bubbling left while the strict
comparator holds — exactly Go's insertion sort inner loop. -/
def insertRev (lt : α → α → Bool) (x : α) : List α → List α
  | [] => [x]
  | y :: ys => if lt x y then y :: insertRev lt x ys else x :: y :: ys

/-- Go's insertion sort (`sort.Slice`/`sort.Strings` run exactly this loop
for slices shorter than 12).  For 12 or more elements Go's pdqsort may
order *ties* differently, so `goSortBy` is faithful to `sort.Slice` only up
to tie order: conclusions independent of tie order hold unconditionally,
while tie-position conclusions below either quantify over every valid
`sort.Slice` outcome (`sortSliceOutcome`) or carry an explicit length
bound restricting them to the insertion-sort path. -/
def goSortBy (lt : α → α → Bool) (l : List α) : List α :=
  (l.foldl (fun acc x => insertRev lt x acc) []).reverse

/-- The `cluster.Config` structure. -/
structure ClusterConfig where
  enabled : Bool
  method : List Char
  fields : List (List Char)
  similarityThreshold : ℚ

/-- The key component extracted for one blocking field
(the `switch field` in `GenerateClusterKey`). -/
def clusterKeyComponent (field nf : List Char) : List Char :=
  if field = str "name" then (if 3 ≤ nf.length then nf.take 3 else nf)
  else if field = str "zip" then (if 5 ≤ nf.length then nf.take 5 else nf)
  else if field = str "phone" then
    (let digits := nf.filter (fun c => isDigitChar c)
     if 4 ≤ digits.length then digits.drop (digits.length - 4) else digits)
  else if field = str "email" then
    (match splitOnChar '@' nf with
     | [_, p1] => p1
     | _ => nf)
  else (if 3 ≤ nf.length then nf.take 3 else nf)

/-- The component concatenation of `Service.GenerateClusterKey` (its
`keyBuilder` loop): keep the configured blocking fields whose *raw* key is
present, sort them, take each field's component from the normalized value
(falling back to the raw value when the normalized one is empty), and
append each non-empty component followed by `"|"`. -/
def clusterKeyConcat (cfg : ClusterConfig) (fields : FieldMap) : List Char :=
  (goSortBy strLt (cfg.fields.filter (fun f => mapHas fields f))).foldl
    (fun acc field =>
      let nf0 := mapGet fields (field ++ str "_normalized")
      let nf := if nf0 = [] then mapGet fields field else nf0
      let comp := clusterKeyComponent field nf
      if comp ≠ [] then acc ++ comp ++ ['|'] else acc) []

/-- The key derivation of `Service.GenerateClusterKey` — the computation
run on a memo-cache miss (see `GenerateClusterKeyMemo` for the cache). -/
def GenerateClusterKey (cfg : ClusterConfig) (fields : FieldMap) : List Char :=
  if ¬ cfg.enabled ∨ cfg.fields = [] then str "default"
  else
    let key := clusterKeyConcat cfg fields
    if key = [] ∨ key = str "|" then str "default"
    else (md5Hex key).take 16

/-- The memoization key of `Service.GenerateClusterKey`: built from the
sorted present blocking fields and their *raw* values only
(`cacheKey += field + ":" + fields[field] + "|"`). -/
def clusterCacheKey (cfg : ClusterConfig) (fields : FieldMap) : List Char :=
  (goSortBy strLt (cfg.fields.filter (fun f => mapHas fields f))).foldl
    (fun acc field => acc ++ field ++ [':'] ++ mapGet fields field ++ ['|']) []

/-- `Service.GenerateClusterKey` with its memo cache (`s.keyCache`): after
the enabled/configured check the raw-only cache key is looked up; a hit
returns the cached key unchanged (normalized values never consulted), a
miss runs the derivation, and only the hashed (non-`"default"`) result is
stored. -/
def GenerateClusterKeyMemo (cfg : ClusterConfig)
    (cache : List (List Char × List Char)) (fields : FieldMap) :
    List Char × List (List Char × List Char) :=
  if ¬ cfg.enabled ∨ cfg.fields = [] then (str "default", cache)
  else
    match cache.find? (fun p => p.1 = clusterCacheKey cfg fields) with
    | some p => (p.2, cache)
    | none =>
      let key := clusterKeyConcat cfg fields
      if key = [] ∨ key = str "|" then (str "default", cache)
      else ((md5Hex key).take 16,
            cache ++ [(clusterCacheKey cfg fields, (md5Hex key).take 16)])

/-! ## The `match` package (weaviate generation)

Embeds the current `match.Service`: `FindMatches`, `FindMatchesForEntity`,
field scoring and weighting, together with the earlier in-tree variant of
`FindMatchesForEntity` (constant score, self-skip) that the source also
contains.  The embedding service and the vector store are environments:
total functions the theorems quantify over. -/

/-- A Go `interface{}` metadata value (the variants the code stores/reads). -/
inductive MetaVal where
  | num : ℚ → MetaVal
  | strv : List Char → MetaVal
  | intv : Int → MetaVal
deriving DecidableEq

/-- Metadata: `nil` or an insertion-ordered map. -/
abbrev Metadata : Type := Option (List (List Char × MetaVal))

/-- Metadata read. -/
def metaGet (m : Metadata) (k : List Char) : Option MetaVal :=
  match m with
  | none => none
  | some l => (l.find? (fun p => p.1 = k)).map (fun p => p.2)

/-- Metadata write (the code paths modelled here only write to maps it has
made non-nil; writing to a `nil` map panics in Go, and the theorems'
hypotheses keep execution away from that). -/
def metaSet (m : Metadata) (k : List Char) (v : MetaVal) : Metadata :=
  match m with
  | none => some [(k, v)]
  | some l =>
    if (l.find? (fun p => p.1 = k)).isSome
    then some (l.map (fun p => if p.1 = k then (k, v) else p))
    else some (l ++ [(k, v)])

/-- `weaviate.EntityRecord`. -/
structure EntityRecord where
  id : List Char := []
  name : List Char := []
  nameNorm : List Char := []
  address : List Char := []
  addressNorm : List Char := []
  city : List Char := []
  cityNorm : List Char := []
  state : List Char := []
  stateNorm : List Char := []
  zip : List Char := []
  zipNorm : List Char := []
  phone : List Char := []
  phoneNorm : List Char := []
  email : List Char := []
  emailNorm : List Char := []
  createdAt : Int := 0
  updatedAt : Int := 0
  vector : List ℚ := []
  metadata : Metadata := none
deriving DecidableEq

/-- `match.EntityData`. -/
structure EntityData where
  id : List Char := []
  fields : FieldMap := []
  metadata : Metadata := none

/-- `match.FieldScore`. -/
structure FieldScore where
  score : GoFloat
  queryValue : List Char := []
  matchedValue : List Char := []
  similarityFn : List Char := []
  normalized : Bool := false
deriving DecidableEq

/-- `match.MatchResult`. -/
structure MatchResult where
  id : List Char := []
  score : GoFloat := GoFloat.q 0
  fields : FieldMap := []
  matchedOn : List (List Char) := []
  explanation : List Char := []
  metadata : Metadata := none
  createdAt : Int := 0
  updatedAt : Int := 0
  fieldScores : List (List Char × FieldScore) := []
deriving DecidableEq

/-- `match.Options`. -/
structure Options where
  limit : Int := 0
  threshold : ℚ := 0
  includeDetails : Bool := false
  useClustering : Bool := false
  includeFieldScores : Bool := false
  fieldWeights : List (List Char × ℚ) := []
  fieldTypeMappings : List (List Char × List Char) := []
  forceExactMatchFields : List (List Char) := []

/-- The `matching` section of the configuration. -/
structure MatchingConfig where
  similarityThreshold : ℚ
  defaultLimit : Int
  fieldWeights : List (List Char × ℚ) := []

/-- The configuration slice the match service reads. -/
structure Config where
  matching : MatchingConfig
  clustering : ClusterConfig
  normalization : NormalizationConfig

/-- The remote collaborators, as total functions. -/
structure Env where
  getEmbedding : List Char → List ℚ
  search : List ℚ → Int → Option (List (List Char × List Char)) → List EntityRecord
  getEntity : List Char → Option EntityRecord

/-- `cluster.Service.AssignCluster`: build the field map from the record,
derive the key, ensure metadata, store `cluster_id`. -/
def AssignCluster (cfg : ClusterConfig) (e : EntityRecord) : EntityRecord :=
  if ¬ cfg.enabled then e
  else
    let fields : FieldMap :=
      [(str "name", e.name), (str "name_normalized", e.nameNorm),
       (str "address", e.address), (str "address_normalized", e.addressNorm),
       (str "city", e.city), (str "city_normalized", e.cityNorm),
       (str "state", e.state), (str "state_normalized", e.stateNorm),
       (str "zip", e.zip), (str "zip_normalized", e.zipNorm),
       (str "phone", e.phone), (str "phone_normalized", e.phoneNorm),
       (str "email", e.email), (str "email_normalized", e.emailNorm)]
    let clusterID := GenerateClusterKey cfg fields
    let md := match e.metadata with
      | none => some []
      | some l => some l
    { e with metadata := metaSet md (str "cluster_id") (MetaVal.strv clusterID) }

/-- `cluster.Service.GetClusterFilterForEntity`. -/
def GetClusterFilterForEntity (cfg : ClusterConfig) (e : EntityRecord) :
    Option (List (List Char × List Char)) :=
  if ¬ cfg.enabled ∨ e.metadata = none then none
  else
    match metaGet e.metadata (str "cluster_id") with
    | some (MetaVal.strv cid) =>
      if cid = [] ∨ cid = str "default" then none
      else some [(str "metadata.cluster_id", cid)]
    | _ => none

/-- `strings.SplitN(pair, "=", 2)` modelled as the split at the first `=`
(`none` when there is no `=`). -/
def splitN2Eq (pair : List Char) : Option (List Char × List Char) :=
  let p0 := pair.takeWhile (fun c => c ≠ '=')
  if p0.length = pair.length then none
  else some (p0, pair.drop (p0.length + 1))

/-- `parseQueryFields`: parse `field=value` pairs split on `;` (preferred)
or `,`, trimming parts and skipping empties. -/
def parseQueryFields (text : List Char) : FieldMap :=
  if ¬ text.contains '=' then []
  else
    let pairs :=
      if text.contains ';' then splitOnChar ';' text
      else if text.contains ',' then splitOnChar ',' text
      else [text]
    pairs.foldl (fun acc pair0 =>
      let pair := goTrimSpace pair0
      if pair = [] then acc
      else
        match splitN2Eq pair with
        | none => acc
        | some (p0, p1) =>
          let fieldName := goTrimSpace p0
          let fieldValue := goTrimSpace p1
          if fieldName ≠ [] ∧ fieldValue ≠ []
          then mapSet acc fieldName fieldValue
          else acc) []

/-- `computeWeightedScore`: weighted average of field scores; missing
weights default to `1.0`; zero total weight yields `0`. -/
def computeWeightedScore (fieldScores : List (List Char × FieldScore))
    (fieldWeights : List (List Char × ℚ)) : GoFloat :=
  let totals := fieldScores.foldl
    (fun (st : GoFloat × ℚ) p =>
      let weight := (((fieldWeights.find? (fun w => w.1 = p.1)).map
        (fun w => w.2)).getD 1)
      (st.1.add ((p.2.score).mul (GoFloat.q weight)), st.2 + weight))
    (GoFloat.q 0, 0)
  if totals.2 = 0 then GoFloat.q 0
  else totals.1.div (GoFloat.q totals.2)

/-- `Service.inferSimilarityFunction`. -/
def inferSimilarityFunction (fieldName : List Char) : SimFn :=
  let f := lowerStr fieldName
  if goContains f (str "name") || goContains f (str "company") ||
     goContains f (str "business") || goContains f (str "organization")
  then SimFn.name
  else if goContains f (str "address") || goContains f (str "street")
  then SimFn.address
  else if goContains f (str "phone") || goContains f (str "tel") ||
     goContains f (str "mobile") || goContains f (str "cell") ||
     goContains f (str "fax")
  then SimFn.phone
  else if goContains f (str "email") then SimFn.email
  else if goContains f (str "zip") || goContains f (str "postal")
  then SimFn.zipCode
  else SimFn.text

/-- Resolve the similarity function for one field, as `computeFieldScores`
does: an explicit type mapping wins, else inference from the field name,
and a `ForceExactMatchFields` entry overrides both. -/
def resolveSimFn (opts : Options) (fieldName : List Char) : SimFn :=
  let base :=
    match opts.fieldTypeMappings.find? (fun p => p.1 = fieldName) with
    | some p => GetByFieldType p.2
    | none => inferSimilarityFunction fieldName
  if opts.forceExactMatchFields.contains fieldName then SimFn.exactMatch else base

/-- `Service.computeFieldScores`: fill the per-field scores (self-compare
when no query fields were parsed), then blend the overall score with the
weighted field score when weights are provided. -/
def computeFieldScores (opts : Options) (result : MatchResult)
    (queryFields : FieldMap) : MatchResult :=
  let fieldScores :=
    if queryFields = [] then
      result.fields.foldl (fun acc p =>
        if p.2 = [] then acc
        else
          let simFn := resolveSimFn opts p.1
          let score := simFn.Compare p.2 p.2
          acc ++ [(p.1, { score := score, matchedValue := p.2,
                          similarityFn := simFn.fnName, normalized := true : FieldScore })])
        result.fieldScores
    else
      queryFields.foldl (fun acc p =>
        if p.2 = [] then acc
        else
          match mapGet? result.fields p.1 with
          | none => acc
          | some matchValue =>
            let simFn := resolveSimFn opts p.1
            let score := simFn.Compare p.2 matchValue
            acc ++ [(p.1, { score := score, queryValue := p.2,
                            matchedValue := matchValue,
                            similarityFn := simFn.fnName, normalized := true : FieldScore })])
        result.fieldScores
  let result' := { result with fieldScores := fieldScores }
  if opts.fieldWeights ≠ [] ∧ fieldScores ≠ [] then
    let weighted := computeWeightedScore fieldScores opts.fieldWeights
    { result' with score := (result'.score.add weighted).div (GoFloat.q 2) }
  else result'

/-- `getMatchedFields`: names of non-empty, non-`_normalized` fields. -/
def getMatchedFields (fields : FieldMap) : List (List Char) :=
  (fields.filter (fun p => p.2 ≠ [] ∧ ¬ (str "_normalized").isSuffixOf p.1)).map
    (fun p => p.1)

/-- Go `>=` against a rational bound, false on `NaN`. -/
def GoFloat.geQ (x : GoFloat) (c : ℚ) : Bool :=
  match x with
  | GoFloat.q a => c ≤ a
  | GoFloat.nan => false

/-- Two decimal digits of a score for `%0.2f` (the model rounds half away
from zero where the float formatter rounds the nearest double; no property
below depends on this string). -/
def fmtScore2 (x : GoFloat) : List Char :=
  match x with
  | GoFloat.nan => str "NaN"
  | GoFloat.q a =>
    let n : Int := round (a * 100)
    let sign : List Char := if n < 0 then str "-" else []
    let m := n.natAbs
    sign ++ (Nat.toDigits 10 (m / 100)) ++ str "." ++
      (if m % 100 < 10 then str "0" else []) ++ Nat.toDigits 10 (m % 100)

/-- `strings.Join` with an arbitrary separator. -/
def joinWith (sep : List Char) : List (List Char) → List Char
  | [] => []
  | [w] => w
  | w :: ws => w ++ sep ++ joinWith sep ws

/-- `generateExplanation` (the current variant, keyed on the score). -/
def generateExplanation (score : GoFloat) (matchedFields : List (List Char)) : List Char :=
  let confidence :=
    if score.geQ (9 / 10) then str "high"
    else if score.lt (GoFloat.q (7 / 10)) then str "low"
    else str "medium"
  str "Matched with " ++ confidence ++ str " confidence (" ++ fmtScore2 score ++
    str ") on fields: " ++ joinWith (str ", ") matchedFields

/-- Truncation of a float toward zero (`int64(f)` in Go). -/
def ratTrunc (a : ℚ) : Int := a.num / (a.den : Int)

/-- `convertToMatchResult` (current variant): raw fields plus the non-empty
normalized ones, timestamps from `float64` metadata entries, matched-field
heuristic and explanation. -/
def convertToMatchResult (e : EntityRecord) (score : GoFloat) : MatchResult :=
  let base : FieldMap :=
    [(str "name", e.name), (str "address", e.address), (str "city", e.city),
     (str "state", e.state), (str "zip", e.zip), (str "phone", e.phone),
     (str "email", e.email)]
  let base := if e.nameNorm ≠ [] then base ++ [(str "name_normalized", e.nameNorm)] else base
  let base := if e.addressNorm ≠ [] then base ++ [(str "address_normalized", e.addressNorm)] else base
  let base := if e.cityNorm ≠ [] then base ++ [(str "city_normalized", e.cityNorm)] else base
  let base := if e.stateNorm ≠ [] then base ++ [(str "state_normalized", e.stateNorm)] else base
  let base := if e.zipNorm ≠ [] then base ++ [(str "zip_normalized", e.zipNorm)] else base
  let base := if e.phoneNorm ≠ [] then base ++ [(str "phone_normalized", e.phoneNorm)] else base
  let fields := if e.emailNorm ≠ [] then base ++ [(str "email_normalized", e.emailNorm)] else base
  let createdAt := match metaGet e.metadata (str "created_at") with
    | some (MetaVal.num t) => ratTrunc t
    | _ => 0
  let updatedAt := match metaGet e.metadata (str "updated_at") with
    | some (MetaVal.num t) => ratTrunc t
    | _ => 0
  let matchedOn := getMatchedFields fields
  { id := e.id, score := score, fields := fields, matchedOn := matchedOn,
    explanation := generateExplanation score matchedOn,
    metadata := e.metadata, createdAt := createdAt, updatedAt := updatedAt,
    fieldScores := [] }

/-- The vector score the loop computes for one candidate:
`1 − metadata.distance` when a `float64` distance is attached, else the
default `1.0`.  No clamping. -/
def resultScore (e : EntityRecord) : GoFloat :=
  match metaGet e.metadata (str "distance") with
  | some (MetaVal.num d) => GoFloat.q (1 - d)
  | _ => GoFloat.q 1

/-- Effective limit after defaulting. -/
def effLimit (cfg : Config) (opts : Options) : Int :=
  if opts.limit ≤ 0 then cfg.matching.defaultLimit else opts.limit

/-- Effective threshold after defaulting. -/
def effThreshold (cfg : Config) (opts : Options) : ℚ :=
  if opts.threshold ≤ 0 then cfg.matching.similarityThreshold else opts.threshold

/-- `FindMatches` steps 1–6: defaults, embedding, temporary entity, cluster
filter, search limit, single search (the current revision has no
empty-result fallback search; that retry exists only in the earlier
in-tree revision). -/
def findMatchesSearch (cfg : Config) (env : Env) (text : List Char)
    (opts : Options) : List EntityRecord :=
  let useClustering := opts.useClustering || cfg.clustering.enabled
  let vector := env.getEmbedding text
  let tempEntity : EntityRecord := { name := text, vector := vector }
  let clustering := useClustering && cfg.clustering.enabled
  let tempEntity := if clustering then AssignCluster cfg.clustering tempEntity else tempEntity
  let filterParams := if clustering then GetClusterFilterForEntity cfg.clustering tempEntity else none
  let searchLimit := if clustering then effLimit cfg opts * 3 else effLimit cfg opts
  env.search vector searchLimit filterParams

/-- `FindMatches` steps 7–9: convert each candidate, drop those whose vector
score is below the effective threshold, and apply field scoring. -/
def findMatchesPre (cfg : Config) (env : Env) (text : List Char)
    (opts : Options) : List MatchResult :=
  let queryFields := parseQueryFields text
  (findMatchesSearch cfg env text opts).foldl (fun acc e =>
    let score := resultScore e
    if score.lt (GoFloat.q (effThreshold cfg opts)) then acc
    else
      let mr := convertToMatchResult e score
      let mr := if opts.includeFieldScores || queryFields ≠ []
                then computeFieldScores opts mr queryFields else mr
      acc ++ [mr]) []

/-- `Service.FindMatches` (current variant): the filtered conversions,
sorted by descending score, truncated to the limit. -/
def FindMatches (cfg : Config) (env : Env) (text : List Char)
    (opts : Options) : List MatchResult :=
  let sorted := goSortBy (fun a b => MatchResult.score a |>.gt (MatchResult.score b))
    (findMatchesPre cfg env text opts)
  if (effLimit cfg opts) < (sorted.length : Int)
  then sorted.take (effLimit cfg opts).toNat
  else sorted

/-- `combineFields` (current variant): all non-empty values of the field
map, joined by single spaces.  (Go iterates the map in randomized order;
the model uses insertion order.) -/
def combineFields (fields : FieldMap) : List Char :=
  joinWith (str " ") ((fields.filter (fun p => p.2 ≠ [])).map (fun p => p.2))

/-- `Service.FindMatchesForEntity` (current variant): normalize, combine,
and delegate to `FindMatches` — with no self-exclusion. -/
def FindMatchesForEntity (cfg : Config) (env : Env) (entity : EntityData)
    (opts : Options) : List MatchResult :=
  let normalizedFields := NormalizeEntity cfg.normalization entity.fields
  let textToEmbed := combineFields normalizedFields
  FindMatches cfg env textToEmbed opts

/-! ### The earlier in-tree `FindMatchesForEntity`

The source tree also carries an earlier revision of the match service in
which the candidate loop skips the query entity's own ID and scores every
kept candidate with the constant `1.0` (the revision §9's open question (1)
refers to).  Only its entity-form matcher is embedded, under `V1` names. -/

/-- The earlier revision's match result (no field-score structs: a plain
field → score map, filled with `1.0` when details are requested). -/
structure MatchResultV1 where
  id : List Char := []
  score : GoFloat := GoFloat.q 0
  fields : FieldMap := []
  metadata : Metadata := none
  createdAt : Int := 0
  updatedAt : Int := 0
  fieldScores : List (List Char × ℚ) := []
deriving DecidableEq

/-- The earlier revision's `combineFields`: the seven normalized fields in
fixed order, space-separated. -/
def combineFieldsV1 (fields : FieldMap) : List Char :=
  joinWith (str " ")
    (([str "name_normalized", str "address_normalized", str "city_normalized",
       str "state_normalized", str "zip_normalized", str "phone_normalized",
       str "email_normalized"].filterMap (fun k =>
        match mapGet? fields k with
        | some v => if v ≠ [] then some v else none
        | none => none)))

/-- The earlier revision's `convertToWeaviateEntity` (its wall-clock
timestamps are irrelevant here: the record is only read for its fields and
metadata). -/
def convertToWeaviateEntityV1 (id : List Char) (fields : FieldMap)
    (vector : List ℚ) (metadata : Metadata) : EntityRecord :=
  { id := id, vector := vector, metadata := metadata,
    name := mapGet fields (str "name"),
    nameNorm := mapGet fields (str "name_normalized"),
    address := mapGet fields (str "address"),
    addressNorm := mapGet fields (str "address_normalized"),
    city := mapGet fields (str "city"),
    cityNorm := mapGet fields (str "city_normalized"),
    state := mapGet fields (str "state"),
    stateNorm := mapGet fields (str "state_normalized"),
    zip := mapGet fields (str "zip"),
    zipNorm := mapGet fields (str "zip_normalized"),
    phone := mapGet fields (str "phone"),
    phoneNorm := mapGet fields (str "phone_normalized"),
    email := mapGet fields (str "email"),
    emailNorm := mapGet fields (str "email_normalized") }

/-- The earlier revision's `convertToMatchResult`. -/
def convertToMatchResultV1 (e : EntityRecord) (score : GoFloat)
    (includeDetails : Bool) : MatchResultV1 :=
  { id := e.id, score := score,
    fields := [(str "name", e.name), (str "address", e.address),
               (str "city", e.city), (str "state", e.state),
               (str "zip", e.zip), (str "phone", e.phone),
               (str "email", e.email)],
    metadata := e.metadata, createdAt := e.createdAt, updatedAt := e.updatedAt,
    fieldScores :=
      if includeDetails then
        [(str "name", 1), (str "address", 1), (str "city", 1),
         (str "state", 1), (str "zip", 1), (str "phone", 1), (str "email", 1)]
      else [] }

/-- The earlier revision's `Service.FindMatchesForEntity`: constant score
`1.0` per candidate, self-ID skip, no sort. -/
def FindMatchesForEntityV1 (cfg : Config) (env : Env) (data : EntityData)
    (opts : Options) : List MatchResultV1 :=
  let normalizedFields := NormalizeEntity cfg.normalization data.fields
  let textToEmbed := combineFieldsV1 normalizedFields
  let vector := env.getEmbedding textToEmbed
  let entity := convertToWeaviateEntityV1 data.id normalizedFields vector data.metadata
  let useClustering := opts.useClustering || cfg.clustering.enabled
  let clustering := useClustering && cfg.clustering.enabled
  let entity := if clustering then AssignCluster cfg.clustering entity else entity
  let filterParams := if clustering then GetClusterFilterForEntity cfg.clustering entity else none
  let searchLimit := if clustering then effLimit cfg opts * 3 else effLimit cfg opts
  let results0 := env.search vector searchLimit filterParams
  let results := if results0 = [] ∧ clustering then env.search vector searchLimit none else results0
  let kept := results.foldl (fun acc e =>
    if data.id ≠ [] ∧ data.id = e.id then acc
    else
      let score := GoFloat.q 1
      if score.lt (GoFloat.q (effThreshold cfg opts)) then acc
      else acc ++ [convertToMatchResultV1 e score opts.includeDetails]) []
  if (effLimit cfg opts) < (kept.length : Int)
  then kept.take (effLimit cfg opts).toNat
  else kept

/-! ### The qdrant-generation match service

The tree's `internal/match/match.go` is an earlier, qdrant-backed service
with its own one-string normalizer; its `FindMatches` carries the
empty-input validation. -/

/-- The qdrant-era `normalize.abbreviations` table. -/
def abbrevTable : List (List Char × List Char) :=
  [(str "inc", str "incorporated"), (str "llc", str "limited liability company"),
   (str "ltd", str "limited"), (str "corp", str "corporation"),
   (str "co", str "company"), (str "intl", str "international"),
   (str "&", str "and"), (str "tech", str "technology"),
   (str "svcs", str "services"), (str "svc", str "service"),
   (str "mfg", str "manufacturing"), (str "hldgs", str "holdings"),
   (str "grp", str "group"), (str "assn", str "association"),
   (str "assoc", str "associates")]

/-- The qdrant-era `normalize.Normalize`: lowercase, replace
`[^a-zA-Z0-9\s]` by spaces, expand abbreviations word-wise, join, collapse
whitespace, trim. -/
def Normalize (input : List Char) : List Char :=
  if input = [] then []
  else
    let n1 := lowerStr input
    let n2 := n1.map (fun c => if isAlnumChar c || isGoRegexSpace c then c else ' ')
    let words := goFields n2
    let words2 := words.map (fun w =>
      match abbrevTable.find? (fun p => p.1 = w) with
      | some p => p.2
      | none => w)
    goTrimSpace (collapseSpaces (joinSpace words2))

/-- A qdrant search hit (`qdrant.MatchResult`), with the store-computed
score. -/
structure QMatch where
  id : List Char := []
  originalText : List Char := []
  normalized : List Char := []
  score : ℚ := 0
deriving DecidableEq

/-- The qdrant-era environment. -/
structure QdrantEnv where
  getEmbedding : List Char → List ℚ
  search : List ℚ → Int → ℚ → List QMatch

/-- The qdrant-era `match.Options`. -/
structure QdrantOptions where
  limit : Int := 0
  threshold : ℚ := 0
  includeDetails : Bool := false

/-- The qdrant-era `Service.FindMatches`: empty input fails with
`"empty input text"` before any normalization, embedding, or store search;
otherwise default the options, normalize, embed, search, and copy the
results over. -/
def qdrantFindMatches (cfgSimilarityThreshold : ℚ) (env : QdrantEnv)
    (text : List Char) (opts : QdrantOptions) : Except (List Char) (List QMatch) :=
  if text = [] then Except.error (str "empty input text")
  else
    let limit := if opts.limit ≤ 0 then 10 else opts.limit
    let threshold := if opts.threshold ≤ 0 then cfgSimilarityThreshold else opts.threshold
    let normalizedText := Normalize text
    let embedding := env.getEmbedding normalizedText
    let results := env.search embedding limit threshold
    Except.ok (results.map (fun r =>
      { id := r.id, originalText := r.originalText,
        normalized := r.normalized, score := r.score }))

/-! ## The group resolver (`group.go`)

`GetMatchGroup` and its three strategies.  The BFS loop of the transitive
strategy is embedded with a fuel argument: every iteration pops one queue
entry, entries are enqueued only for entities freshly appended to the
group, and appending stops as soon as the group reaches `MaxGroupSize`, so
`MaxGroupSize + 2` iterations always suffice for the calls `GetMatchGroup`
makes (it defaults `MaxGroupSize` to at least `1`). -/

/-- One `sample_fields` entry. -/
structure SampleField where
  value : List Char
  agreement : GoFloat
  confidence : GoFloat
deriving DecidableEq

/-- `match.MatchGroup`. -/
structure MatchGroup where
  id : List Char := []
  entities : List MatchResult := []
  score : GoFloat := GoFloat.q 0
  size : Int := 0
  primaryID : List Char := []
  sampleFields : List (List Char × SampleField) := []
deriving DecidableEq

/-- `match.MatchGroupOptions`. -/
structure MatchGroupOptions where
  thresholdOverride : ℚ := 0
  maxGroupSize : Int := 0
  includeScores : Bool := false
  strategy : List Char := []
  hopsLimit : Int := 0
  fieldWeights : List (List Char × ℚ) := []

/-- The `EntityData` the strategies build from a stored record (raw fields
always, normalized fields when non-empty). -/
def groupEntityData (e : EntityRecord) : EntityData :=
  let fields : FieldMap :=
    [(str "name", e.name), (str "address", e.address), (str "city", e.city),
     (str "state", e.state), (str "zip", e.zip), (str "phone", e.phone),
     (str "email", e.email)]
  let fields := if e.nameNorm ≠ [] then fields ++ [(str "name_normalized", e.nameNorm)] else fields
  let fields := if e.addressNorm ≠ [] then fields ++ [(str "address_normalized", e.addressNorm)] else fields
  let fields := if e.cityNorm ≠ [] then fields ++ [(str "city_normalized", e.cityNorm)] else fields
  let fields := if e.stateNorm ≠ [] then fields ++ [(str "state_normalized", e.stateNorm)] else fields
  let fields := if e.zipNorm ≠ [] then fields ++ [(str "zip_normalized", e.zipNorm)] else fields
  let fields := if e.phoneNorm ≠ [] then fields ++ [(str "phone_normalized", e.phoneNorm)] else fields
  let fields := if e.emailNorm ≠ [] then fields ++ [(str "email_normalized", e.emailNorm)] else fields
  { id := e.id, fields := fields, metadata := e.metadata }

/-- The match options each strategy passes to `FindMatchesForEntity`. -/
def groupMatchOptions (cfg : Config) (opts : MatchGroupOptions) : Options :=
  { limit := opts.maxGroupSize, threshold := opts.thresholdOverride,
    includeDetails := opts.includeScores,
    useClustering := cfg.clustering.enabled,
    includeFieldScores := opts.includeScores,
    fieldWeights := opts.fieldWeights }

/-- `getDirectMatchGroup`: append matches other than the primary. -/
def getDirectMatchGroup (cfg : Config) (env : Env) (opts : MatchGroupOptions)
    (entities0 : List MatchResult) (entity : EntityRecord) : List MatchResult :=
  let ms := FindMatchesForEntity cfg env (groupEntityData entity) (groupMatchOptions cfg opts)
  entities0 ++ ms.filter (fun m => m.id ≠ entity.id)

/-- State of the inner match-processing loop of the transitive BFS. -/
structure TransState where
  entities : List MatchResult
  visited : List (List Char)
  hop : List (List Char × Int)
  queueAdds : List EntityRecord
  stopped : Bool

/-- The inner loop of `getTransitiveMatchGroup`: mark and append each
unvisited match (recording `metadata.hop_distance`), stop at the size
bound, and fetch the full record for further expansion (a failed fetch is
logged and skipped in the code; here it just adds nothing to the queue). -/
def processMatches (env : Env) (maxGroupSize : Int) (currentHops : Int)
    (ms : List MatchResult) (st0 : TransState) : TransState :=
  ms.foldl (fun st m =>
    if st.stopped then st
    else if st.visited.contains m.id then st
    else
      let visited := st.visited ++ [m.id]
      let md' := metaSet m.metadata (str "hop_distance") (MetaVal.intv (currentHops + 1))
      let m' := { m with metadata := md' }
      let entities := st.entities ++ [m']
      if 0 < maxGroupSize ∧ maxGroupSize ≤ (entities.length : Int) then
        { st with entities := entities, visited := visited, stopped := true }
      else
        match env.getEntity m.id with
        | none => { st with entities := entities, visited := visited }
        | some me =>
          { entities := entities, visited := visited,
            hop := st.hop ++ [(m.id, currentHops + 1)],
            queueAdds := st.queueAdds ++ [me], stopped := false }) st0

/-- The BFS worklist loop of `getTransitiveMatchGroup`. -/
def transLoop (cfg : Config) (env : Env) (opts : MatchGroupOptions) :
    Nat → List EntityRecord → List MatchResult → List (List Char) →
    List (List Char × Int) → List MatchResult
  | 0, _, entities, _, _ => entities
  | _ + 1, [], entities, _, _ => entities
  | fuel + 1, current :: rest, entities, visited, hop =>
    let currentHops : Int :=
      (((hop.find? (fun p => p.1 = current.id)).map (fun p => p.2)).getD 0)
    if opts.hopsLimit ≤ currentHops then
      transLoop cfg env opts fuel rest entities visited hop
    else
      let ms := FindMatchesForEntity cfg env (groupEntityData current)
        (groupMatchOptions cfg opts)
      let st := processMatches env opts.maxGroupSize currentHops ms
        { entities := entities, visited := visited, hop := hop,
          queueAdds := [], stopped := false }
      if st.stopped then st.entities
      else transLoop cfg env opts fuel (rest ++ st.queueAdds) st.entities st.visited st.hop

/-- `getTransitiveMatchGroup`: BFS seeded with the given entity. -/
def getTransitiveMatchGroup (cfg : Config) (env : Env) (opts : MatchGroupOptions)
    (entities0 : List MatchResult) (entity : EntityRecord) : List MatchResult :=
  transLoop cfg env opts (opts.maxGroupSize.toNat + 2) [entity] entities0
    [entity.id] [(entity.id, 0)]

/-- `getHybridMatchGroup`: high-confidence direct pass (threshold at least
`0.9`), then a reduced-hop transitive pass from each direct neighbour,
merging unvisited entities up to the size bound. -/
def getHybridMatchGroup (cfg : Config) (env : Env) (opts : MatchGroupOptions)
    (entities0 : List MatchResult) (entity : EntityRecord) : List MatchResult :=
  let thr := if opts.thresholdOverride < 9 / 10 then 9 / 10 else opts.thresholdOverride
  let directOpts := { opts with hopsLimit := 1, thresholdOverride := thr }
  let ent1 := getDirectMatchGroup cfg env directOpts entities0 entity
  if 1 < opts.hopsLimit then
    let visited0 := ent1.map (fun m => m.id)
    let transitiveOpts := { opts with hopsLimit := opts.hopsLimit - 1 }
    let final := ent1.foldl (fun (st : List MatchResult × List (List Char) × Bool) directMatch =>
      if st.2.2 then st
      else if directMatch.id = entity.id then st
      else
        match env.getEntity directMatch.id with
        | none => st
        | some matchEntity =>
          let tempEntities := getTransitiveMatchGroup cfg env transitiveOpts [] matchEntity
          tempEntities.foldl (fun (st' : List MatchResult × List (List Char) × Bool) tm =>
            if st'.2.2 then st'
            else if st'.2.1.contains tm.id then st'
            else
              let entities := st'.1 ++ [tm]
              if 0 < opts.maxGroupSize ∧ opts.maxGroupSize ≤ (entities.length : Int)
              then (entities, st'.2.1 ++ [tm.id], true)
              else (entities, st'.2.1 ++ [tm.id], false)) st)
      (ent1, visited0, false)
    final.1
  else ent1

/-- `calculateGroupStatistics`: average score, size, sort by descending
score, and per-field value agreement over all non-empty field entries of
every member (the code's comment says normalized fields are skipped, but
the condition only skips empty field names and values). -/
def calculateGroupStatistics (group : MatchGroup) : MatchGroup :=
  if group.entities = [] then group
  else
    let totalScore := goSum (group.entities.map (fun e => e.score))
    let score := totalScore.div (GoFloat.q (group.entities.length : ℚ))
    let size : Int := group.entities.length
    let sorted := goSortBy (fun a b => MatchResult.score a |>.gt (MatchResult.score b))
      group.entities
    let fieldCounts : List (List Char × List (List Char × Nat)) :=
      group.entities.foldl (fun fc e =>
        e.fields.foldl (fun fc p =>
          if p.1 = [] ∨ p.2 = [] then fc
          else
            match fc.find? (fun q' => q'.1 = p.1) with
            | none => fc ++ [(p.1, [(p.2, 1)])]
            | some _ =>
              fc.map (fun q' =>
                if q'.1 = p.1 then
                  (q'.1,
                   match q'.2.find? (fun v => v.1 = p.2) with
                   | none => q'.2 ++ [(p.2, 1)]
                   | some _ => q'.2.map (fun v => if v.1 = p.2 then (v.1, v.2 + 1) else v))
                else q')) fc) []
    let sampleFields := fieldCounts.foldl
      (fun (sf : List (List Char × SampleField)) (fcEntry : List Char × List (List Char × Nat)) =>
      let best := fcEntry.2.foldl (fun (b : Nat × List Char) v =>
        if b.1 < v.2 then (v.2, v.1) else b) ((0, []) : Nat × List Char)
      if best.2 = [] then sf
      else
        let agreement : GoFloat := GoFloat.q ((best.1 : ℚ) / (group.entities.length : ℚ))
        let entry : SampleField :=
          { value := best.2, agreement := agreement, confidence := agreement.mul score }
        sf ++ [(fcEntry.1, entry)]) []
    { group with score := score, size := size, entities := sorted, sampleFields := sampleFields }

/-- `Service.GetMatchGroup`. -/
def GetMatchGroup (cfg : Config) (env : Env) (entityID : List Char)
    (opts0 : MatchGroupOptions) : Except (List Char) MatchGroup :=
  let thr := if opts0.thresholdOverride ≤ 0 then cfg.matching.similarityThreshold
             else opts0.thresholdOverride
  let mgs := if opts0.maxGroupSize ≤ 0 then 100 else opts0.maxGroupSize
  let strat := if opts0.strategy = [] then str "hybrid" else opts0.strategy
  let hl := if opts0.hopsLimit ≤ 0 then 3 else opts0.hopsLimit
  let opts := { opts0 with thresholdOverride := thr, maxGroupSize := mgs, strategy := strat, hopsLimit := hl }
  match env.getEntity entityID with
  | none => Except.error (str "failed to retrieve entity")
  | some entity =>
    let primaryResult := convertToMatchResult entity (GoFloat.q 1)
    let entities0 := [primaryResult]
    let entities? : Except (List Char) (List MatchResult) :=
      if opts.strategy = str "direct" then
        Except.ok (getDirectMatchGroup cfg env opts entities0 entity)
      else if opts.strategy = str "transitive" then
        Except.ok (getTransitiveMatchGroup cfg env opts entities0 entity)
      else if opts.strategy = str "hybrid" then
        Except.ok (getHybridMatchGroup cfg env opts entities0 entity)
      else Except.error (str "unknown match group strategy")
    match entities? with
    | Except.error e => Except.error e
    | Except.ok entities =>
      Except.ok (calculateGroupStatistics
        { id := entityID, primaryID := entityID, entities := entities,
          sampleFields := [] })

/-! ## Concrete scenarios

Closed configurations, stores and records for the concrete evaluations
below.  Each `Env` is a total description of the remote collaborators. -/

/-- The default-shaped normalization configuration: every option the
shipped `config.New()` enables. -/
def defaultNorm : NormalizationConfig :=
  { enableLowercase := true, enableStopwords := true, enableStemming := true,
    nameOptions := [(str "remove_legal_suffixes", true), (str "normalize_initials", true)],
    addressOptions := [(str "standardize_abbreviations", true), (str "remove_apartment_numbers", true)],
    phoneOptions := [(str "e164_format", true)],
    emailOptions := [(str "lowercase_domain", true)] }

/-- A base service configuration: default threshold `0.85`, default limit
`10`, clustering disabled. -/
def baseConfig : Config :=
  { matching := { similarityThreshold := 85 / 100, defaultLimit := 10, fieldWeights := [] },
    clustering := { enabled := false, method := str "canopy", fields := [],
                    similarityThreshold := 0 },
    normalization := defaultNorm }

/-- A stored candidate at cosine distance `0.1` whose name is nothing like
the query. -/
def entBlend : EntityRecord :=
  { id := str "x", name := str "Zzz",
    metadata := some [(str "distance", MetaVal.num (1 / 10))] }

/-- A store holding only `entBlend`. -/
def envBlend : Env :=
  { getEmbedding := fun _ => [1], search := fun _ _ _ => [entBlend],
    getEntity := fun _ => none }

/-- Options requesting threshold `0.85` with a weight on `name`. -/
def optsBlend : Options :=
  { threshold := 85 / 100, limit := 10, fieldWeights := [(str "name", 1)] }

/-- A stored candidate whose ID equals the query entity's ID. -/
def entSelf : EntityRecord :=
  { id := str "x", name := str "Acme",
    metadata := some [(str "distance", MetaVal.num 0)] }

/-- A store holding only `entSelf`. -/
def envSelf : Env :=
  { getEmbedding := fun _ => [1], search := fun _ _ _ => [entSelf],
    getEntity := fun _ => none }

/-- Equal-distance candidates returned by the store in the order `b`, `a`. -/
def entTieB : EntityRecord :=
  { id := str "b", metadata := some [(str "distance", MetaVal.num (1 / 2))] }

/-- Second equal-distance candidate. -/
def entTieA : EntityRecord :=
  { id := str "a", metadata := some [(str "distance", MetaVal.num (1 / 2))] }

/-- A store answering every search with `[entTieB, entTieA]`. -/
def envTie : Env :=
  { getEmbedding := fun _ => [1], search := fun _ _ _ => [entTieB, entTieA],
    getEntity := fun _ => none }

/-- A primary record with a normalized name. -/
def entPrimary : EntityRecord :=
  { id := str "p", name := str "Acme", nameNorm := str "acme" }

/-- A neighbour of the primary at distance `0.05`. -/
def entNeighbour : EntityRecord :=
  { id := str "q2", name := str "Beta", nameNorm := str "beta",
    metadata := some [(str "distance", MetaVal.num (1 / 20))] }

/-- A store in which `p` resolves to `entPrimary` and every search returns
`entNeighbour`. -/
def envGroup : Env :=
  { getEmbedding := fun _ => [1], search := fun _ _ _ => [entNeighbour],
    getEntity := fun i => if i = str "p" then some entPrimary else none }

/-- Direct-strategy group options with explicit bounds. -/
def groupOptsDirect : MatchGroupOptions :=
  { strategy := str "direct", thresholdOverride := 1 / 2, maxGroupSize := 10,
    hopsLimit := 2 }

/-- A clustering configuration blocked on the single field `name`. -/
def clusterNameCfg : ClusterConfig :=
  { enabled := true, method := str "canopy", fields := [str "name"],
    similarityThreshold := 0 }

/-- A field map carrying both the raw and the normalized name. -/
def fieldsWithRaw : FieldMap :=
  [(str "name", str "Acme"), (str "name_normalized", str "acme")]

/-- A field map carrying only the normalized name. -/
def fieldsNormOnly : FieldMap := [(str "name_normalized", str "acme")]

/-- The same raw name as `fieldsWithRaw` but a different normalized value —
so the two share a memo cache entry while their cold-cache keys differ. -/
def fieldsOtherNorm : FieldMap :=
  [(str "name", str "Acme"), (str "name_normalized", str "zzzz")]

/-- An entity map whose `name_normalized` entry disagrees with what the
normalizer would produce from its raw name. -/
def entityStaleNorm : FieldMap :=
  [(str "name", str "Acme Inc"), (str "name_normalized", str "xxx")]


/-- The seven `_normalized` keys `NormalizeEntity` may write. -/
def normalizedVariantKeys : List (List Char) :=
  [str "name_normalized", str "address_normalized", str "phone_normalized",
   str "email_normalized", str "state_normalized", str "zip_normalized",
   str "city_normalized"]


/-- The vector score a result carries, recovered from its metadata exactly
as the candidate loop computed it: `1 - distance` when a numeric distance
is attached, else the default `1`. -/
def matchVectorScore (r : MatchResult) : GoFloat :=
  match metaGet r.metadata (str "distance") with
  | some (MetaVal.num d) => GoFloat.q (1 - d)
  | _ => GoFloat.q 1


/-- The body of the candidate loop of `FindMatches` for one kept candidate:
convert, then apply field scoring when details were requested or query
fields were parsed. -/
def candidateResult (cfg : Config) (text : List Char) (opts : Options)
    (e : EntityRecord) : MatchResult :=
  let queryFields := parseQueryFields text
  let score := resultScore e
  let mr := convertToMatchResult e score
  if opts.includeFieldScores || queryFields ≠ [] then
    computeFieldScores opts mr queryFields
  else mr

/-- A Go float that is `NaN` or a rational at most `bound`. -/
def WeightedLe (g : GoFloat) (bound : ℚ) : Prop :=
  g = GoFloat.nan ∨ ∃ x : ℚ, g = GoFloat.q x ∧ x ≤ bound

/-- Hop count looked up for the current queue entry in `transLoop`. -/
def transHops (hop : List (List Char × Int)) (current : EntityRecord) : Int :=
  (((hop.find? (fun p => p.1 = current.id)).map (fun p => p.2)).getD 0)

/-- The `processMatches` state produced for one queue entry of `transLoop`. -/
def transStepState (cfg : Config) (env : Env) (opts : MatchGroupOptions)
    (current : EntityRecord) (entities : List MatchResult)
    (visited : List (List Char)) (hop : List (List Char × Int)) : TransState :=
  processMatches env opts.maxGroupSize (transHops hop current)
    (FindMatchesForEntity cfg env (groupEntityData current) (groupMatchOptions cfg opts))
    { entities := entities, visited := visited, hop := hop, queueAdds := [], stopped := false }

/-- The direct-pass options of `getHybridMatchGroup` (threshold raised to at
least `0.9`, one hop). -/
def hybridDirectOpts (opts : MatchGroupOptions) : MatchGroupOptions :=
  { opts with hopsLimit := 1, thresholdOverride := if opts.thresholdOverride < 9 / 10 then 9 / 10 else opts.thresholdOverride }

/-- One step of the merge fold of `getHybridMatchGroup`: expand a direct
neighbour transitively (with one hop fewer) and merge its unvisited members
up to the size bound. -/
def hybridStep (cfg : Config) (env : Env) (opts : MatchGroupOptions)
    (entity : EntityRecord) :
    (List MatchResult × List (List Char) × Bool) → MatchResult →
      (List MatchResult × List (List Char) × Bool) :=
  fun st directMatch =>
    if st.2.2 then st
    else if directMatch.id = entity.id then st
    else
      match env.getEntity directMatch.id with
      | none => st
      | some matchEntity =>
        (getTransitiveMatchGroup cfg env { opts with hopsLimit := opts.hopsLimit - 1 } [] matchEntity).foldl
          (fun st' tm =>
            if st'.2.2 then st'
            else if st'.2.1.contains tm.id then st'
            else if 0 < opts.maxGroupSize ∧ opts.maxGroupSize ≤ ((st'.1 ++ [tm]).length : Int)
            then (st'.1 ++ [tm], st'.2.1 ++ [tm.id], true)
            else (st'.1 ++ [tm], st'.2.1 ++ [tm.id], false)) st

/-- The defaulted options computed at the top of `GetMatchGroup`. -/
def gmOpts (cfg : Config) (opts0 : MatchGroupOptions) : MatchGroupOptions :=
  { opts0 with thresholdOverride := if opts0.thresholdOverride ≤ 0 then cfg.matching.similarityThreshold else opts0.thresholdOverride, maxGroupSize := if opts0.maxGroupSize ≤ 0 then 100 else opts0.maxGroupSize, strategy := if opts0.strategy = [] then str "hybrid" else opts0.strategy, hopsLimit := if opts0.hopsLimit ≤ 0 then 3 else opts0.hopsLimit }

/-- The group actually returned for the `envGroup` direct-strategy scenario. -/
def C5groupResult : MatchGroup :=
  match GetMatchGroup baseConfig envGroup (str "p") groupOptsDirect with
  | Except.ok g => g
  | Except.error _ => {}

/-- The contract of Go's `sort.Slice` for comparator `lt`: a permutation of
the input in which no later element strictly precedes an earlier one.
`sort.Slice` (pdqsort) promises nothing about the relative order of ties —
it is unstable for 12 or more elements — so the group pipeline below is
also modelled relationally, over every outcome this contract admits. -/
def sortSliceOutcome {α : Type} (lt : α → α → Bool) (l l' : List α) : Prop :=
  List.Perm l' l ∧ l'.Pairwise (fun a b => lt b a = false)

/-- `calculateGroupStatistics` with `sort.Slice` modelled by its contract:
`score`, `size` and the order-independent `sampleFields` tally are the
deterministic computation (reused from the functional model), while
`entities` is any valid `sort.Slice` outcome. -/
def calculateGroupStatisticsRel (group g : MatchGroup) : Prop :=
  if group.entities = [] then g = group
  else ∃ sorted, sortSliceOutcome
      (fun a b => MatchResult.score a |>.gt (MatchResult.score b))
      group.entities sorted ∧
    g = { calculateGroupStatistics group with entities := sorted }

/-- `Service.GetMatchGroup` with the final sort relational: the strategy
pipeline of `GetMatchGroup` followed by `calculateGroupStatisticsRel`. -/
def GetMatchGroupRel (cfg : Config) (env : Env) (entityID : List Char)
    (opts0 : MatchGroupOptions) (out : Except (List Char) MatchGroup) : Prop :=
  match env.getEntity entityID with
  | none => out = Except.error (str "failed to retrieve entity")
  | some entity =>
    if (gmOpts cfg opts0).strategy = str "direct" then
      ∃ g, calculateGroupStatisticsRel { id := entityID, primaryID := entityID, entities := getDirectMatchGroup cfg env (gmOpts cfg opts0) [convertToMatchResult entity (GoFloat.q 1)] entity, sampleFields := [] } g ∧ out = Except.ok g
    else if (gmOpts cfg opts0).strategy = str "transitive" then
      ∃ g, calculateGroupStatisticsRel { id := entityID, primaryID := entityID, entities := getTransitiveMatchGroup cfg env (gmOpts cfg opts0) [convertToMatchResult entity (GoFloat.q 1)] entity, sampleFields := [] } g ∧ out = Except.ok g
    else if (gmOpts cfg opts0).strategy = str "hybrid" then
      ∃ g, calculateGroupStatisticsRel { id := entityID, primaryID := entityID, entities := getHybridMatchGroup cfg env (gmOpts cfg opts0) [convertToMatchResult entity (GoFloat.q 1)] entity, sampleFields := [] } g ∧ out = Except.ok g
    else out = Except.error (str "unknown match group strategy")

/-- A stored neighbour at distance `0` — its vector score ties the
primary's `1.0`. -/
def entTieOne : EntityRecord :=
  { id := str "q2", name := str "Beta", nameNorm := str "beta",
    metadata := some [(str "distance", MetaVal.num 0)] }

/-- A store in which `p` resolves to `entPrimary` and every search returns
the tied neighbour `entTieOne`. -/
def envGroupTie : Env :=
  { getEmbedding := fun _ => [1], search := fun _ _ _ => [entTieOne],
    getEntity := fun i => if i = str "p" then some entPrimary else none }

/-- The unsorted direct group of the tie scenario. -/
def C5tieGroup0 : MatchGroup :=
  { id := str "p", primaryID := str "p",
    entities := getDirectMatchGroup baseConfig envGroupTie
      (gmOpts baseConfig groupOptsDirect)
      [convertToMatchResult entPrimary (GoFloat.q 1)] entPrimary,
    sampleFields := [] }

/-- A valid `sort.Slice` outcome of the tie scenario in which the tied
neighbour precedes the primary. -/
def C5badGroup : MatchGroup := { calculateGroupStatistics C5tieGroup0 with entities := (calculateGroupStatistics C5tieGroup0).entities.reverse }

/-! ## Infrastructure lemmas -/

/-- Dropping a matched predicate run never lengthens a list. -/
theorem length_dropWhile_le (p : Char → Bool) (l : List Char) :
    (l.dropWhile p).length ≤ l.length :=
  (List.dropWhile_sublist _).length_le

/-- A nonempty leading whitespace run makes `dropWhile` strictly shorter. -/
theorem length_dropWhile_lt (p : Char → Bool) (l : List Char)
    (h : l.takeWhile p ≠ []) : (l.dropWhile p).length < l.length := by
  have h0 := congrArg List.length (List.takeWhile_append_dropWhile p l)
  rw [List.length_append] at h0
  cases hh : l.takeWhile p with
  | nil => exact absurd hh h
  | cons a t =>
    have : (l.takeWhile p).length = t.length + 1 := by simp [hh]
    omega

/-- A successful apartment-clause match consumes at least one character. -/
theorem matchAptClause_length {s rest : List Char} (h : matchAptClause s = some rest) :
    rest.length < s.length := by
  have h5 : ∀ (l : List Char) (n : Nat), (l.drop n).length ≤ l.length := by
    intro l n; rw [List.length_drop]; omega
  unfold matchAptClause at h
  simp only at h
  split at h
  · exact Option.noConfusion h
  rename_i hws
  have hr1 : (s.dropWhile (fun c => isGoRegexSpace c)).length < s.length :=
    length_dropWhile_lt _ _ hws
  split at h
  · exact Option.noConfusion h
  rename_i kw hkw
  repeat' split at h
  all_goals first
    | exact Option.noConfusion h
    | (simp only [Option.some.injEq] at h
       subst h
       refine lt_of_le_of_lt ?_ hr1
       refine le_trans (h5 _ _) ?_
       refine le_trans (length_dropWhile_le _ _) ?_
       first
         | exact le_trans (h5 _ _) (h5 _ _)
         | exact h5 _ _)


/-- Inserting with `insertRev` yields a permutation of consing. -/
theorem insertRev_perm (lt : α → α → Bool) (x : α) (l : List α) :
    List.Perm (insertRev lt x l) (x :: l) := by
  induction l with
  | nil => simp [insertRev]
  | cons y ys ih =>
    unfold insertRev
    split
    · exact ((ih.cons y).trans (List.Perm.swap x y ys))
    · exact List.Perm.refl _

theorem sortFold_perm (lt : α → α → Bool) (l acc : List α) :
    List.Perm (l.foldl (fun acc x => insertRev lt x acc) acc) (l.reverse ++ acc) := by
  induction l generalizing acc with
  | nil => simp
  | cons x xs ih =>
    have h1 := ih (insertRev lt x acc)
    have h2 : List.Perm (insertRev lt x acc) (x :: acc) := insertRev_perm lt x acc
    have h3 : List.Perm (xs.reverse ++ insertRev lt x acc) (xs.reverse ++ (x :: acc)) :=
      List.Perm.append_left _ h2
    have h4 : xs.reverse ++ (x :: acc) = (x :: xs).reverse ++ acc := by
      simp
    rw [List.foldl_cons]
    exact h4 ▸ (h1.trans h3)

theorem goSortBy_perm (lt : α → α → Bool) (l : List α) :
    List.Perm (goSortBy lt l) l := by
  have h := sortFold_perm lt l []
  have h2 : List.Perm (goSortBy lt l) (l.reverse ++ []) :=
    (List.reverse_perm _).trans h
  have h3 : List.Perm (l.reverse ++ []) l := by
    simpa using List.reverse_perm l
  exact h2.trans h3

theorem mem_insertRev {lt : α → α → Bool} {x z : α} {l : List α} :
    z ∈ insertRev lt x l ↔ z ∈ x :: l :=
  (insertRev_perm lt x l).mem_iff

/-- Membership transfers through `goSortBy`. -/
theorem mem_goSortBy {lt : α → α → Bool} {l : List α} {x : α} :
    x ∈ goSortBy lt l ↔ x ∈ l :=
  (goSortBy_perm lt l).mem_iff

/-- Length is preserved by `goSortBy`. -/
theorem length_goSortBy (lt : α → α → Bool) (l : List α) :
    (goSortBy lt l).length = l.length :=
  (goSortBy_perm lt l).length_eq

theorem insertRev_pairwise (lt : α → α → Bool) (x : α) (acc : List α)
    (hasym : ∀ z ∈ acc, lt x z = true → lt z x = false)
    (htrans : ∀ b ∈ acc, ∀ c ∈ acc, lt b c = false → lt x b = false → lt x c = false)
    (hp : acc.Pairwise (fun a b => lt a b = false)) :
    (insertRev lt x acc).Pairwise (fun a b => lt a b = false) := by
  induction acc with
  | nil => simp [insertRev]
  | cons y ys ih =>
    rw [List.pairwise_cons] at hp
    unfold insertRev
    by_cases hxy : lt x y = true
    · simp only [hxy, if_true]
      rw [List.pairwise_cons]
      constructor
      · intro z hz
        rcases List.mem_cons.mp (mem_insertRev.mp hz) with hz | hz
        · subst hz
          exact hasym y (by simp) hxy
        · exact hp.1 z hz
      · exact ih (fun z hz h => hasym z (by simp [hz]) h)
          (fun b hb c hc h1 h2 => htrans b (by simp [hb]) c (by simp [hc]) h1 h2)
          hp.2
    · have hxy' : lt x y = false := by
        cases h : lt x y
        · rfl
        · exact absurd h hxy
      rw [if_neg hxy, List.pairwise_cons]
      constructor
      · intro z hz
        rcases List.mem_cons.mp hz with hz | hz
        · subst hz; exact hxy'
        · exact htrans y (by simp) z (by simp [hz]) (hp.1 z hz) hxy'
      · exact List.pairwise_cons.mpr hp

theorem sortFold_pairwise (lt : α → α → Bool) (l0 : List α)
    (hasym : ∀ a ∈ l0, ∀ b ∈ l0, lt a b = true → lt b a = false)
    (htrans : ∀ x ∈ l0, ∀ a ∈ l0, ∀ b ∈ l0,
      lt a b = false → lt x a = false → lt x b = false) :
    ∀ (l acc : List α), (∀ z ∈ l, z ∈ l0) → (∀ z ∈ acc, z ∈ l0) →
      acc.Pairwise (fun a b => lt a b = false) →
      (l.foldl (fun acc x => insertRev lt x acc) acc).Pairwise
        (fun a b => lt a b = false) := by
  intro l
  induction l with
  | nil => intro acc _ _ hp; simpa using hp
  | cons x xs ih =>
    intro acc hl hacc hp
    have hx : x ∈ l0 := hl x (by simp)
    rw [List.foldl_cons]
    refine ih (insertRev lt x acc) (fun z hz => hl z (by simp [hz])) ?_ ?_
    · intro z hz
      rcases List.mem_cons.mp (mem_insertRev.mp hz) with hz | hz
      · subst hz; exact hx
      · exact hacc z hz
    · exact insertRev_pairwise lt x acc
        (fun z hz h => hasym x hx z (hacc z hz) h)
        (fun b hb c hc h1 h2 => htrans x hx b (hacc b hb) c (hacc c hc) h1 h2)
        hp

theorem goSortBy_pairwise (lt : α → α → Bool) (l : List α)
    (hasym : ∀ a ∈ l, ∀ b ∈ l, lt a b = true → lt b a = false)
    (htrans : ∀ x ∈ l, ∀ a ∈ l, ∀ b ∈ l,
      lt a b = false → lt x a = false → lt x b = false) :
    (goSortBy lt l).Pairwise (fun a b => lt b a = false) := by
  have h := sortFold_pairwise lt l hasym htrans l [] (fun z hz => hz)
    (by simp) (by simp)
  unfold goSortBy
  rw [List.pairwise_reverse]
  exact h

theorem insertRev_getLast? (lt : α → α → Bool) {x y : α} {acc : List α}
    (hyx : lt y x = false) (hacc : acc.getLast? = some x) :
    (insertRev lt y acc).getLast? = some x := by
  induction acc with
  | nil => simp at hacc
  | cons z zs ih =>
    unfold insertRev
    by_cases hyz : lt y z = true
    · rw [if_pos hyz]
      cases zs with
      | nil =>
        simp at hacc
        subst hacc
        rw [hyx] at hyz
        exact absurd hyz (by simp)
      | cons w ws =>
        have hlast : (w :: ws).getLast? = some x := by
          rw [List.getLast?_cons_cons] at hacc
          exact hacc
        have hne : insertRev lt y (w :: ws) ≠ [] := by
          have := (insertRev_perm lt y (w :: ws)).length_eq
          intro hcontra
          rw [hcontra] at this
          simp at this
        obtain ⟨u, us, hu⟩ := List.exists_cons_of_ne_nil hne
        rw [hu]
        rw [List.getLast?_cons_cons]
        rw [← hu]
        exact ih hlast
    · rw [if_neg hyz]
      rw [List.getLast?_cons_cons]
      exact hacc

theorem sortFold_getLast? (lt : α → α → Bool) {x : α} :
    ∀ (l acc : List α), (∀ y ∈ l, lt y x = false) → acc.getLast? = some x →
      (l.foldl (fun acc y => insertRev lt y acc) acc).getLast? = some x := by
  intro l
  induction l with
  | nil => intro acc _ h; simpa using h
  | cons y ys ih =>
    intro acc hl hacc
    rw [List.foldl_cons]
    exact ih (insertRev lt y acc) (fun z hz => hl z (by simp [hz]))
      (insertRev_getLast? lt (hl y (by simp)) hacc)

theorem goSortBy_head_of_max (lt : α → α → Bool) (x : α) (rest : List α)
    (hmax : ∀ y ∈ rest, lt y x = false) :
    (goSortBy lt (x :: rest)).head? = some x := by
  unfold goSortBy
  rw [List.head?_reverse]
  rw [List.foldl_cons]
  exact sortFold_getLast? lt rest (insertRev lt x []) hmax (by simp [insertRev])

theorem insertRev_of_all_false (lt : α → α → Bool) {x : α} {acc : List α}
    (h : ∀ b ∈ acc, lt x b = false) : insertRev lt x acc = x :: acc := by
  cases acc with
  | nil => rfl
  | cons z zs =>
    unfold insertRev
    rw [if_neg]
    simp [h z (by simp)]

theorem sortFold_of_all_false (lt : α → α → Bool) :
    ∀ (l acc : List α), (∀ a ∈ l, ∀ b ∈ l, lt a b = false) →
      (∀ a ∈ l, ∀ b ∈ acc, lt a b = false) →
      l.foldl (fun acc x => insertRev lt x acc) acc = l.reverse ++ acc := by
  intro l
  induction l with
  | nil => intro acc _ _; simp
  | cons hd tl ih =>
    intro acc hll hla
    rw [List.foldl_cons]
    rw [insertRev_of_all_false lt (hla hd (by simp))]
    have hla2 : ∀ a ∈ tl, ∀ b ∈ hd :: acc, lt a b = false := by
      intro a ha b hb
      rcases List.mem_cons.mp hb with hb | hb
      · rw [hb]; exact hll a (by simp [ha]) hd (by simp)
      · exact hla a (by simp [ha]) b hb
    have hll2 : ∀ a ∈ tl, ∀ b ∈ tl, lt a b = false :=
      fun a ha b hb => hll a (by simp [ha]) b (by simp [hb])
    rw [ih (hd :: acc) hll2 hla2]
    simp

theorem goSortBy_of_all_false (lt : α → α → Bool) (l : List α)
    (h : ∀ a ∈ l, ∀ b ∈ l, lt a b = false) : goSortBy lt l = l := by
  unfold goSortBy
  rw [sortFold_of_all_false lt l [] h (by simp)]
  simp

/-- `goSum` is invariant under permutation of its input. -/
theorem goSum_perm {l1 l2 : List GoFloat} (h : List.Perm l1 l2) :
    goSum l1 = goSum l2 := by
  unfold goSum
  exact List.Perm.foldl_eq' h
    (fun x _ y _ b => by
      cases b <;> cases x <;> cases y <;> simp [GoFloat.add] <;> ring)
    (GoFloat.q 0)

/-- Map frame lemmas used by the entity-normalizer theorems. -/
theorem findEntry_map_replace (m : FieldMap) (k v k' : List Char) (h : ¬ k' = k) :
    (m.map (fun p => if p.1 = k then (k, v) else p)).find? (fun p => p.1 = k') =
      m.find? (fun p => p.1 = k') := by
  induction m with
  | nil => rfl
  | cons p ps ih =>
    simp only [List.map_cons]
    by_cases hp : p.1 = k
    · rw [if_pos hp]
      rw [List.find?_cons_of_neg _ (by simp; exact fun hh => h hh.symm),
          List.find?_cons_of_neg _ (by simp [hp]; exact fun hh => h hh.symm)]
      exact ih
    · rw [if_neg hp]
      by_cases hp' : p.1 = k'
      · rw [List.find?_cons_of_pos _ (by simp [hp']), List.find?_cons_of_pos _ (by simp [hp'])]
      · rw [List.find?_cons_of_neg _ (by simp [hp']), List.find?_cons_of_neg _ (by simp [hp'])]
        exact ih

theorem findEntry_append_ne (m : FieldMap) (k v k' : List Char) (h : ¬ k' = k) :
    (m ++ [(k, v)]).find? (fun p => p.1 = k') = m.find? (fun p => p.1 = k') := by
  induction m with
  | nil =>
    simp only [List.nil_append]
    rw [List.find?_cons_of_neg _ (by simp; exact fun hh => h hh.symm)]
  | cons p ps ih =>
    by_cases hp : p.1 = k'
    · rw [List.cons_append, List.find?_cons_of_pos _ (by simp [hp]),
          List.find?_cons_of_pos _ (by simp [hp])]
    · rw [List.cons_append, List.find?_cons_of_neg _ (by simp [hp]),
          List.find?_cons_of_neg _ (by simp [hp])]
      exact ih

theorem mapGet?_mapSet_ne (m : FieldMap) (k v k' : List Char) (h : ¬ k' = k) :
    mapGet? (mapSet m k v) k' = mapGet? m k' := by
  unfold mapSet mapGet?
  split
  · rw [findEntry_map_replace m k v k' h]
  · rw [findEntry_append_ne m k v k' h]

theorem mapHas_mapSet_ne (m : FieldMap) (k v k' : List Char) (h : ¬ k' = k) :
    mapHas (mapSet m k v) k' = mapHas m k' := by
  unfold mapSet mapHas
  split
  · rw [findEntry_map_replace m k v k' h]
  · rw [findEntry_append_ne m k v k' h]

theorem findEntry_map_replace_self (m : FieldMap) (k v : List Char) (p0 : List Char × List Char)
    (h : m.find? (fun p => p.1 = k) = some p0) :
    (m.map (fun p => if p.1 = k then (k, v) else p)).find? (fun p => p.1 = k) = some (k, v) := by
  induction m with
  | nil => simp at h
  | cons p ps ih =>
    by_cases hp : p.1 = k
    · simp only [List.map_cons, if_pos hp]
      rw [List.find?_cons_of_pos _ (by simp)]
    · rw [List.find?_cons_of_neg _ (by simp [hp])] at h
      simp only [List.map_cons, if_neg hp]
      rw [List.find?_cons_of_neg _ (by simp [hp])]
      exact ih h

theorem findEntry_append_self (m : FieldMap) (k v : List Char)
    (h : m.find? (fun p => p.1 = k) = none) :
    (m ++ [(k, v)]).find? (fun p => p.1 = k) = some (k, v) := by
  induction m with
  | nil =>
    simp only [List.nil_append]
    rw [List.find?_cons_of_pos _ (by simp)]
  | cons p ps ih =>
    by_cases hp : p.1 = k
    · rw [List.find?_cons_of_pos _ (by simp [hp])] at h
      exact absurd h (by simp)
    · rw [List.find?_cons_of_neg _ (by simp [hp])] at h
      rw [List.cons_append, List.find?_cons_of_neg _ (by simp [hp])]
      exact ih h

theorem mapHas_mapSet_self (m : FieldMap) (k v : List Char) :
    mapHas (mapSet m k v) k = true := by
  unfold mapSet mapHas
  split
  · rename_i hs
    obtain ⟨p0, hp0⟩ := Option.isSome_iff_exists.mp hs
    rw [findEntry_map_replace_self m k v p0 hp0]
    rfl
  · rename_i hs
    rw [findEntry_append_self m k v (Option.not_isSome_iff_eq_none.mp hs)]
    rfl

theorem mapHas_mapSet_mono (m : FieldMap) (k v k' : List Char)
    (h : mapHas m k' = true) : mapHas (mapSet m k v) k' = true := by
  by_cases hk : k' = k
  · rw [hk]; exact mapHas_mapSet_self m k v
  · rw [mapHas_mapSet_ne m k v k' hk]; exact h

theorem mapHas_mapSet_inv (m : FieldMap) (k v k' : List Char)
    (h : mapHas (mapSet m k v) k' = true) : mapHas m k' = true ∨ k' = k := by
  by_cases hk : k' = k
  · exact Or.inr hk
  · rw [mapHas_mapSet_ne m k v k' hk] at h
    exact Or.inl h

theorem mapGet?_condSet (b : Bool) (m : FieldMap) (key v k : List Char) (h : ¬ k = key) :
    mapGet? (if b then mapSet m key v else m) k = mapGet? m k := by
  cases b
  · rfl
  · simp only [if_pos]
    exact mapGet?_mapSet_ne m key v k h

theorem mapHas_condSet_mono (b : Bool) (m : FieldMap) (key v k : List Char)
    (h : mapHas m k = true) : mapHas (if b then mapSet m key v else m) k = true := by
  cases b
  · exact h
  · simp only [if_pos]
    exact mapHas_mapSet_mono m key v k h

theorem mapHas_condSet_inv (b : Bool) (m : FieldMap) (key v k : List Char)
    (h : mapHas (if b then mapSet m key v else m) k = true) :
    mapHas m k = true ∨ k = key := by
  cases b
  · exact Or.inl h
  · exact mapHas_mapSet_inv m key v k (by simpa using h)

/-- Membership in a filtered-append left fold: exactly the images of the
elements that pass the (negated) test, plus the seed. -/
theorem foldl_append_if_mem {β γ : Type} (p : β → Bool) (f : β → γ) :
    ∀ (l : List β) (acc : List γ) (x : γ),
      (x ∈ l.foldl (fun acc e => if p e then acc else acc ++ [f e]) acc) ↔
        x ∈ acc ∨ ∃ e, e ∈ l ∧ p e = false ∧ x = f e := by
  intro l
  induction l with
  | nil => intro acc x; simp
  | cons e es ih =>
    intro acc x
    rw [List.foldl_cons]
    by_cases hp : p e = true
    · rw [if_pos hp]
      rw [ih acc x]
      constructor
      · rintro (hx | ⟨e1, he1, hpe1, hxe1⟩)
        · exact Or.inl hx
        · exact Or.inr ⟨e1, by simp [he1], hpe1, hxe1⟩
      · rintro (hx | ⟨e1, he1, hpe1, hxe1⟩)
        · exact Or.inl hx
        · rcases List.mem_cons.mp he1 with he1 | he1
          · rw [he1] at hpe1; rw [hp] at hpe1; exact absurd hpe1 (by simp)
          · exact Or.inr ⟨e1, he1, hpe1, hxe1⟩
    · have hp' : p e = false := by
        cases h : p e
        · rfl
        · exact absurd h hp
      rw [if_neg hp]
      rw [ih (acc ++ [f e]) x]
      constructor
      · rintro (hx | ⟨e1, he1, hpe1, hxe1⟩)
        · rcases List.mem_append.mp hx with hx | hx
          · exact Or.inl hx
          · exact Or.inr ⟨e, by simp, hp', by simpa using hx⟩
        · exact Or.inr ⟨e1, by simp [he1], hpe1, hxe1⟩
      · rintro (hx | ⟨e1, he1, hpe1, hxe1⟩)
        · exact Or.inl (List.mem_append.mpr (Or.inl hx))
        · rcases List.mem_cons.mp he1 with he1 | he1
          · rw [he1] at hxe1
            exact Or.inl (List.mem_append.mpr (Or.inr (by simp [hxe1])))
          · exact Or.inr ⟨e1, he1, hpe1, hxe1⟩

/-- Left-fold congruence for functions that agree on the list's members. -/
theorem foldl_congr_mem {β γ : Type} {l : List β} {f g : γ → β → γ}
    (h : ∀ b ∈ l, ∀ acc, f acc b = g acc b) :
    ∀ acc, l.foldl f acc = l.foldl g acc := by
  induction l with
  | nil => intro acc; rfl
  | cons b bs ih =>
    intro acc
    rw [List.foldl_cons, List.foldl_cons, h b (by simp) acc]
    exact ih (fun b1 hb1 acc1 => h b1 (by simp [hb1]) acc1) _

/-- Membership in a two-guard filtered-append left fold. -/
theorem foldl_append_if2_mem {β γ : Type} (P Q : β → Prop) [DecidablePred P]
    [DecidablePred Q] (f : β → γ) :
    ∀ (l : List β) (acc : List γ) (x : γ),
      (x ∈ l.foldl (fun acc e => if P e then acc
        else if Q e then acc else acc ++ [f e]) acc) ↔
        x ∈ acc ∨ ∃ e, e ∈ l ∧ ¬ P e ∧ ¬ Q e ∧ x = f e := by
  intro l
  induction l with
  | nil => intro acc x; simp
  | cons e es ih =>
    intro acc x
    rw [List.foldl_cons]
    by_cases hP : P e
    · rw [if_pos hP, ih acc x]
      constructor
      · rintro (hx | ⟨e1, he1, h1, h2, h3⟩)
        · exact Or.inl hx
        · exact Or.inr ⟨e1, by simp [he1], h1, h2, h3⟩
      · rintro (hx | ⟨e1, he1, h1, h2, h3⟩)
        · exact Or.inl hx
        · rcases List.mem_cons.mp he1 with he1 | he1
          · rw [he1] at h1; exact absurd hP h1
          · exact Or.inr ⟨e1, he1, h1, h2, h3⟩
    · rw [if_neg hP]
      by_cases hQ : Q e
      · rw [if_pos hQ, ih acc x]
        constructor
        · rintro (hx | ⟨e1, he1, h1, h2, h3⟩)
          · exact Or.inl hx
          · exact Or.inr ⟨e1, by simp [he1], h1, h2, h3⟩
        · rintro (hx | ⟨e1, he1, h1, h2, h3⟩)
          · exact Or.inl hx
          · rcases List.mem_cons.mp he1 with he1 | he1
            · rw [he1] at h2; exact absurd hQ h2
            · exact Or.inr ⟨e1, he1, h1, h2, h3⟩
      · rw [if_neg hQ, ih (acc ++ [f e]) x]
        constructor
        · rintro (hx | ⟨e1, he1, h1, h2, h3⟩)
          · rcases List.mem_append.mp hx with hx | hx
            · exact Or.inl hx
            · exact Or.inr ⟨e, by simp, hP, hQ, by simpa using hx⟩
          · exact Or.inr ⟨e1, by simp [he1], h1, h2, h3⟩
        · rintro (hx | ⟨e1, he1, h1, h2, h3⟩)
          · exact Or.inl (List.mem_append.mpr (Or.inl hx))
          · rcases List.mem_cons.mp he1 with he1 | he1
            · rw [he1] at h3
              exact Or.inl (List.mem_append.mpr (Or.inr (by simp [h3])))
            · exact Or.inr ⟨e1, he1, h1, h2, h3⟩

/-- Membership characterization of the filtered candidate conversions. -/
theorem mem_findMatchesPre_iff {cfg : Config} {env : Env} {text : List Char}
    {opts : Options} {r : MatchResult} :
    r ∈ findMatchesPre cfg env text opts ↔
      ∃ e, e ∈ findMatchesSearch cfg env text opts ∧
        (resultScore e).lt (GoFloat.q (effThreshold cfg opts)) = false ∧
        r = candidateResult cfg text opts e := by
  have hshape : findMatchesPre cfg env text opts =
      (findMatchesSearch cfg env text opts).foldl
        (fun acc e =>
          if ((resultScore e).lt (GoFloat.q (effThreshold cfg opts)) : Bool) then acc
          else acc ++ [candidateResult cfg text opts e]) [] := rfl
  rw [hshape]
  rw [foldl_append_if_mem
    (fun e => (resultScore e).lt (GoFloat.q (effThreshold cfg opts)))
    (candidateResult cfg text opts) (findMatchesSearch cfg env text opts) [] r]
  simp

/-- The field-scoring pass leaves the metadata untouched. -/
theorem computeFieldScores_metadata (opts : Options) (r : MatchResult)
    (qf : FieldMap) : (computeFieldScores opts r qf).metadata = r.metadata := by
  unfold computeFieldScores
  dsimp only
  split
  · split <;> rfl
  · split <;> rfl

/-- The per-candidate conversion carries the candidate's metadata, so the
vector score is recoverable from the result. -/
theorem matchVectorScore_candidateResult (cfg : Config) (text : List Char)
    (opts : Options) (e : EntityRecord) :
    matchVectorScore (candidateResult cfg text opts e) = resultScore e := by
  have hmeta : (candidateResult cfg text opts e).metadata = e.metadata := by
    unfold candidateResult
    dsimp only
    split
    · rw [computeFieldScores_metadata]
      rfl
    · rfl
  unfold matchVectorScore resultScore
  rw [hmeta]

/-- Membership through Go's final limit truncation. -/
theorem mem_truncKept {γ : Type} {K : List γ} {lim : Int} {r : γ}
    (hr : r ∈ (if lim < (K.length : Int) then K.take lim.toNat else K)) :
    r ∈ K := by
  split at hr
  · exact List.take_subset _ _ hr
  · exact hr

/-- `>` on Go floats is `<` with the arguments swapped. -/
theorem GoFloat.gt_eq_lt (x y : GoFloat) : GoFloat.gt x y = GoFloat.lt y x := by
  cases x <;> cases y <;> rfl

/-- `>` on rational Go floats, unfolded (false side). -/
theorem GoFloat.gt_q_false_iff (x y : ℚ) :
    (GoFloat.gt (GoFloat.q x) (GoFloat.q y) = false) ↔ x ≤ y := by
  simp [GoFloat.gt]

/-- `>` on rational Go floats, unfolded (true side). -/
theorem GoFloat.gt_q_true_iff (x y : ℚ) :
    (GoFloat.gt (GoFloat.q x) (GoFloat.q y) = true) ↔ y < x := by
  simp [GoFloat.gt]

/-- Projection facts of the candidate conversion. -/
theorem convertToMatchResult_score (e : EntityRecord) (s : GoFloat) :
    (convertToMatchResult e s).score = s := rfl

/-- The conversion starts with no per-field scores. -/
theorem convertToMatchResult_fieldScores (e : EntityRecord) (s : GoFloat) :
    (convertToMatchResult e s).fieldScores = [] := rfl

/-- The score of one kept candidate, in terms of its vector score and the
weighted blend the service applies when field weights and field scores are
both present. -/
theorem candidateResult_score (cfg : Config) (text : List Char) (opts : Options)
    (e : EntityRecord) :
    (candidateResult cfg text opts e).score =
      (if opts.fieldWeights ≠ [] ∧ (candidateResult cfg text opts e).fieldScores ≠ [] then
        ((resultScore e).add
          (computeWeightedScore (candidateResult cfg text opts e).fieldScores
            opts.fieldWeights)).div (GoFloat.q 2)
      else resultScore e) := by
  unfold candidateResult computeFieldScores
  dsimp only
  split
  · split <;> (split <;>
      simp_all [convertToMatchResult_score, convertToMatchResult_fieldScores])
  · simp [convertToMatchResult_score, convertToMatchResult_fieldScores]

/-- Character-level facts for the lowercase pass. -/
theorem Char.toNat_ofNat_valid {n : Nat} (h : n < 55296) :
    (Char.ofNat n).toNat = n := by
  have hv : n.isValidChar := Or.inl h
  simp [Char.ofNat, Char.toNat, Char.ofNatAux, UInt32.ofNat', UInt32.toNat,
    BitVec.toNat_ofNat, hv]

theorem goToLower_idem (c : Char) : goToLower (goToLower c) = goToLower c := by
  unfold goToLower
  by_cases h : 65 ≤ c.toNat ∧ c.toNat ≤ 90
  · rw [if_pos h]
    have ht : (Char.ofNat (c.toNat + 32)).toNat = c.toNat + 32 :=
      Char.toNat_ofNat_valid (by omega)
    rw [if_neg (by rw [ht]; omega)]
  · rw [if_neg h, if_neg h]

theorem goToLower_space : goToLower ' ' = ' ' := by decide

theorem lowerStr_fixed (l : List Char) : ∀ c ∈ lowerStr l, goToLower c = c := by
  intro c hc
  obtain ⟨c0, _, hc0⟩ := List.mem_map.mp hc
  rw [← hc0]
  exact goToLower_idem c0

theorem lowerStr_eq_self (l : List Char) (h : ∀ c ∈ l, goToLower c = c) :
    lowerStr l = l := by
  unfold lowerStr
  induction l with
  | nil => rfl
  | cons c cs ih =>
    rw [List.map_cons, h c (by simp), ih (fun c1 hc1 => h c1 (by simp [hc1]))]

theorem mem_goTrimSpace {c : Char} {l : List Char} (h : c ∈ goTrimSpace l) :
    c ∈ l := by
  unfold goTrimSpace at h
  rw [List.mem_reverse] at h
  have h2 := (List.dropWhile_sublist _).mem h
  rw [List.mem_reverse] at h2
  exact (List.dropWhile_sublist _).mem h2

theorem mem_collapseAux {c : Char} : ∀ {b : Bool} {l : List Char},
    c ∈ collapseAux b l → c ∈ l ∨ c = ' ' := by
  intro b l
  induction l generalizing b with
  | nil => intro h; simp [collapseAux] at h
  | cons d ds ih =>
    intro h
    unfold collapseAux at h
    by_cases hd : isGoRegexSpace d = true
    · rw [if_pos hd] at h
      by_cases hb : b = true
      · rw [if_pos hb] at h
        rcases ih h with h | h
        · exact Or.inl (by simp [h])
        · exact Or.inr h
      · rw [if_neg hb] at h
        rcases List.mem_cons.mp h with h | h
        · exact Or.inr h
        · rcases ih h with h | h
          · exact Or.inl (by simp [h])
          · exact Or.inr h
    · rw [if_neg hd] at h
      rcases List.mem_cons.mp h with h | h
      · exact Or.inl (by simp [h])
      · rcases ih h with h | h
        · exact Or.inl (by simp [h])
        · exact Or.inr h

theorem mem_goFieldsAux {c : Char} : ∀ {acc l : List Char} {w : List Char},
    w ∈ goFieldsAux acc l → c ∈ w → c ∈ acc ∨ c ∈ l := by
  intro acc l
  induction l generalizing acc with
  | nil =>
    intro w hw hc
    unfold goFieldsAux at hw
    by_cases ha : acc.isEmpty
    · rw [if_pos ha] at hw; simp at hw
    · rw [if_neg ha] at hw
      rcases List.mem_singleton.mp hw with hw
      rw [hw] at hc
      exact Or.inl (List.mem_reverse.mp hc)
  | cons d ds ih =>
    intro w hw hc
    unfold goFieldsAux at hw
    by_cases hd : isGoSpace d = true
    · rw [if_pos hd] at hw
      by_cases ha : acc.isEmpty
      · rw [if_pos ha] at hw
        rcases ih hw hc with h | h
        · simp at h
        · exact Or.inr (by simp [h])
      · rw [if_neg ha] at hw
        rcases List.mem_cons.mp hw with hw | hw
        · rw [hw] at hc
          exact Or.inl (List.mem_reverse.mp hc)
        · rcases ih hw hc with h | h
          · simp at h
          · exact Or.inr (by simp [h])
    · rw [if_neg hd] at hw
      rcases ih hw hc with h | h
      · rcases List.mem_cons.mp h with h | h
        · exact Or.inr (by simp [h])
        · exact Or.inl h
      · exact Or.inr (by simp [h])

theorem mem_joinSpace {c : Char} : ∀ {ws : List (List Char)},
    c ∈ joinSpace ws → (∃ w ∈ ws, c ∈ w) ∨ c = ' ' := by
  intro ws
  induction ws with
  | nil => intro h; simp [joinSpace] at h
  | cons w rest ih =>
    intro h
    cases rest with
    | nil =>
      exact Or.inl ⟨w, by simp, by simpa [joinSpace] using h⟩
    | cons w2 rest2 =>
      rw [show joinSpace (w :: w2 :: rest2) = w ++ ' ' :: joinSpace (w2 :: rest2) from rfl] at h
      rcases List.mem_append.mp h with h | h
      · exact Or.inl ⟨w, by simp, h⟩
      · rcases List.mem_cons.mp h with h | h
        · exact Or.inr h
        · rcases ih h with ⟨w1, hw1, hcw⟩ | h
          · exact Or.inl ⟨w1, by simp [hw1], hcw⟩
          · exact Or.inr h

theorem goFieldsAux_words : ∀ {acc l : List Char} {w : List Char},
    (∀ c ∈ acc, isGoSpace c = false) →
    w ∈ goFieldsAux acc l →
    (acc.isEmpty = false ∨ l ≠ []) →
    w ≠ [] ∧ ∀ c ∈ w, isGoSpace c = false := by
  intro acc l
  induction l generalizing acc with
  | nil =>
    intro w hacc hw hne
    unfold goFieldsAux at hw
    by_cases ha : acc.isEmpty
    · rw [if_pos ha] at hw; simp at hw
    · rw [if_neg ha] at hw
      rw [List.mem_singleton.mp hw]
      refine ⟨?_, ?_⟩
      · intro hrev
        exact ha (by rw [List.isEmpty_iff, ← List.reverse_eq_nil_iff]; exact hrev)
      · intro c hc
        exact hacc c (List.mem_reverse.mp hc)
  | cons d ds ih =>
    intro w hacc hw hne
    unfold goFieldsAux at hw
    by_cases hd : isGoSpace d = true
    · rw [if_pos hd] at hw
      by_cases ha : acc.isEmpty
      · rw [if_pos ha] at hw
        cases ds with
        | nil => unfold goFieldsAux at hw; simp at hw
        | cons e es => exact ih (by simp) hw (Or.inr (by simp))
      · rw [if_neg ha] at hw
        rcases List.mem_cons.mp hw with hw | hw
        · rw [hw]
          refine ⟨?_, ?_⟩
          · intro hrev
            exact ha (by rw [List.isEmpty_iff, ← List.reverse_eq_nil_iff]; exact hrev)
          · intro c hc
            exact hacc c (List.mem_reverse.mp hc)
        · cases ds with
          | nil => unfold goFieldsAux at hw; simp at hw
          | cons e es => exact ih (by simp) hw (Or.inr (by simp))
    · rw [if_neg hd] at hw
      refine ih ?_ hw (Or.inl (by simp))
      intro c hc
      rcases List.mem_cons.mp hc with hc | hc
      · rw [hc]
        cases he : isGoSpace d
        · rfl
        · exact absurd he hd
      · exact hacc c hc

theorem goFields_words {l : List Char} {w : List Char} (hw : w ∈ goFields l) :
    w ≠ [] ∧ ∀ c ∈ w, isGoSpace c = false := by
  unfold goFields at hw
  cases l with
  | nil => unfold goFieldsAux at hw; simp at hw
  | cons d ds => exact goFieldsAux_words (by simp) hw (Or.inr (by simp))

theorem regexSpace_of_goSpace_false {c : Char} (h : isGoSpace c = false) :
    isGoRegexSpace c = false := by
  unfold isGoSpace at h
  unfold isGoRegexSpace
  simp only [decide_eq_false_iff_not] at h ⊢
  omega

theorem goFieldsAux_cons_nonspace {c : Char} (acc l : List Char)
    (h : isGoSpace c = false) :
    goFieldsAux acc (c :: l) = goFieldsAux (c :: acc) l := by
  unfold goFieldsAux
  rw [if_neg (by rw [h]; simp)]
  cases l <;> rfl

theorem goFieldsAux_append_word : ∀ {w : List Char} (acc l : List Char),
    (∀ c ∈ w, isGoSpace c = false) →
    goFieldsAux acc (w ++ l) = goFieldsAux (w.reverse ++ acc) l := by
  intro w
  induction w with
  | nil => intro acc l _; simp
  | cons c cs ih =>
    intro acc l hw
    rw [List.cons_append]
    rw [goFieldsAux_cons_nonspace acc (cs ++ l) (hw c (by simp))]
    rw [ih (c :: acc) l (fun c1 hc1 => hw c1 (by simp [hc1]))]
    congr 1
    simp

theorem goFields_joinSpace : ∀ {ws : List (List Char)},
    (∀ w ∈ ws, w ≠ [] ∧ ∀ c ∈ w, isGoSpace c = false) →
    goFields (joinSpace ws) = ws := by
  intro ws
  induction ws with
  | nil => intro _; rfl
  | cons w rest ih =>
    intro h
    obtain ⟨hne, hfree⟩ := h w (by simp)
    cases rest with
    | nil =>
      show goFieldsAux [] (joinSpace [w]) = [w]
      rw [show joinSpace [w] = w from rfl]
      rw [show (w : List Char) = w ++ [] by simp]
      rw [goFieldsAux_append_word [] [] (by simpa using hfree)]
      unfold goFieldsAux
      rw [if_neg (by simpa using hne)]
      simp
    | cons w2 rest2 =>
      show goFieldsAux [] (joinSpace (w :: w2 :: rest2)) = w :: w2 :: rest2
      rw [show joinSpace (w :: w2 :: rest2) = w ++ ' ' :: joinSpace (w2 :: rest2) from rfl]
      rw [goFieldsAux_append_word [] _ hfree]
      unfold goFieldsAux
      rw [if_pos (by decide)]
      rw [if_neg (by simpa using hne)]
      rw [show (w.reverse ++ [] : List Char).reverse = w by simp]
      rw [show goFieldsAux [] (joinSpace (w2 :: rest2)) = goFields (joinSpace (w2 :: rest2)) from rfl]
      rw [ih (fun w1 hw1 => h w1 (by simp [hw1]))]

theorem collapseAux_cons_nonspace {c : Char} (b : Bool) (l : List Char)
    (h : isGoRegexSpace c = false) :
    collapseAux b (c :: l) = c :: collapseAux false l := by
  unfold collapseAux
  rw [if_neg (by rw [h]; simp)]
  cases l <;> rfl

theorem collapseAux_append_word : ∀ {w : List Char} (b : Bool) (l : List Char),
    (∀ c ∈ w, isGoRegexSpace c = false) →
    collapseAux b (w ++ l) = w ++ collapseAux (if w = [] then b else false) l := by
  intro w
  induction w with
  | nil => intro b l _; simp
  | cons c cs ih =>
    intro b l hw
    rw [List.cons_append,
      collapseAux_cons_nonspace b (cs ++ l) (hw c (by simp)),
      ih false l (fun c1 hc1 => hw c1 (by simp [hc1]))]
    cases cs <;> simp

theorem collapseAux_joinSpace : ∀ {ws : List (List Char)} (b : Bool),
    (∀ w ∈ ws, w ≠ [] ∧ ∀ c ∈ w, isGoRegexSpace c = false) →
    collapseAux b (joinSpace ws) = joinSpace ws := by
  intro ws
  induction ws with
  | nil => intro b _; rfl
  | cons w rest ih =>
    intro b h
    obtain ⟨hne, hfree⟩ := h w (by simp)
    cases rest with
    | nil =>
      show collapseAux b w = w
      conv_lhs => rw [show (w : List Char) = w ++ [] by simp]
      rw [collapseAux_append_word b [] hfree,
        show collapseAux (if w = [] then b else false) [] = [] from rfl]
      simp
    | cons w2 rest2 =>
      rw [show joinSpace (w :: w2 :: rest2) = w ++ ' ' :: joinSpace (w2 :: rest2) from rfl]
      rw [collapseAux_append_word b _ hfree]
      rw [if_neg hne]
      rw [show collapseAux false (' ' :: joinSpace (w2 :: rest2)) =
        ' ' :: collapseAux true (joinSpace (w2 :: rest2)) from rfl]
      rw [ih true (fun w1 hw1 => h w1 (by simp [hw1]))]

theorem collapseAux_idem : ∀ (l : List Char),
    (collapseAux false (collapseAux true l) = collapseAux true l) ∧
    (collapseAux false (collapseAux false l) = collapseAux false l) ∧
    (collapseAux true (collapseAux true l) = collapseAux true l) := by
  intro l
  induction l with
  | nil => exact ⟨rfl, rfl, rfl⟩
  | cons c cs ih =>
    obtain ⟨ih1, ih2, ih3⟩ := ih
    by_cases hc : isGoRegexSpace c = true
    · have e1 : collapseAux true (c :: cs) = collapseAux true cs := by
        unfold collapseAux
        rw [if_pos hc, if_pos rfl]
        cases cs <;> rfl
      have e2 : collapseAux false (c :: cs) = ' ' :: collapseAux true cs := by
        unfold collapseAux
        rw [if_pos hc, if_neg (by simp)]
        cases cs <;> rfl
      refine ⟨?_, ?_, ?_⟩
      · rw [e1]; exact ih1
      · rw [e2]
        rw [show collapseAux false (' ' :: collapseAux true cs) =
          ' ' :: collapseAux true (collapseAux true cs) from rfl]
        rw [ih3]
      · rw [e1]; exact ih3
    · have hc' : isGoRegexSpace c = false := by
        cases he : isGoRegexSpace c
        · rfl
        · exact absurd he hc
      have e1 : collapseAux true (c :: cs) = c :: collapseAux false cs :=
        collapseAux_cons_nonspace true cs hc'
      have e2 : collapseAux false (c :: cs) = c :: collapseAux false cs :=
        collapseAux_cons_nonspace false cs hc'
      refine ⟨?_, ?_, ?_⟩
      · rw [e1, collapseAux_cons_nonspace false _ hc', ih2]
      · rw [e2, collapseAux_cons_nonspace false _ hc', ih2]
      · rw [e1, collapseAux_cons_nonspace true _ hc', ih2]

theorem collapseSpaces_idem (l : List Char) :
    collapseSpaces (collapseSpaces l) = collapseSpaces l :=
  (collapseAux_idem l).2.1

theorem dropWhile_eq_self_of_head {p : Char → Bool} : ∀ {l : List Char},
    (∀ c, l.head? = some c → p c = false) → l.dropWhile p = l := by
  intro l h
  cases l with
  | nil => rfl
  | cons c cs =>
    rw [List.dropWhile_cons_of_neg]
    rw [h c rfl]
    simp

theorem goTrimSpace_eq_self {l : List Char}
    (hh : ∀ c, l.head? = some c → isGoSpace c = false)
    (hl : ∀ c, l.getLast? = some c → isGoSpace c = false) :
    goTrimSpace l = l := by
  unfold goTrimSpace
  rw [dropWhile_eq_self_of_head hh]
  rw [dropWhile_eq_self_of_head (fun c hc => hl c (by rwa [← List.head?_reverse]))]
  simp

theorem head?_dropWhile_not {p : Char → Bool} : ∀ {l : List Char} {c : Char},
    (l.dropWhile p).head? = some c → p c = false := by
  intro l
  induction l with
  | nil => intro c h; simp at h
  | cons d ds ih =>
    intro c h
    by_cases hd : p d = true
    · rw [List.dropWhile_cons_of_pos hd] at h
      exact ih h
    · rw [List.dropWhile_cons_of_neg hd] at h
      rw [(by simpa using h : d = c)] at hd
      cases he : p c
      · rfl
      · exact absurd he hd

theorem goTrimSpace_head {l : List Char} {c : Char}
    (h : (goTrimSpace l).head? = some c) : isGoSpace c = false := by
  unfold goTrimSpace at h
  rw [List.head?_reverse] at h
  have hne : (List.dropWhile (fun c => isGoSpace c)
      ((l.dropWhile (fun c => isGoSpace c)).reverse)) ≠ [] := by
    intro hnil
    rw [hnil] at h
    simp at h
  obtain ⟨t, ht⟩ := List.dropWhile_suffix
    (l := (l.dropWhile (fun c => isGoSpace c)).reverse) (p := fun c => isGoSpace c)
  have hlast : ((l.dropWhile (fun c => isGoSpace c)).reverse).getLast? = some c := by
    rw [← ht, List.getLast?_append_of_ne_nil _ hne]
    exact h
  rw [List.getLast?_reverse] at hlast
  exact head?_dropWhile_not hlast

theorem goTrimSpace_getLast {l : List Char} {c : Char}
    (h : (goTrimSpace l).getLast? = some c) : isGoSpace c = false := by
  unfold goTrimSpace at h
  rw [List.getLast?_reverse] at h
  exact head?_dropWhile_not h

theorem getLast?_cons_ne_nil {α : Type} {l : List α} (a : α) (h : l ≠ []) :
    (a :: l).getLast? = l.getLast? := by
  obtain ⟨b, t, rfl⟩ := List.exists_cons_of_ne_nil h
  exact List.getLast?_cons_cons

theorem collapseAux_head {b : Bool} {l : List Char} {c : Char}
    (hc : isGoRegexSpace c = false) (h : l.head? = some c) :
    (collapseAux b l).head? = some c := by
  cases l with
  | nil => simp at h
  | cons d ds =>
    rw [(by simpa using h : d = c)] at *
    rw [collapseAux_cons_nonspace b ds hc]
    rfl

theorem collapseAux_getLast : ∀ {l : List Char} {c : Char} (b : Bool),
    l.getLast? = some c → isGoRegexSpace c = false →
    (collapseAux b l).getLast? = some c := by
  intro l
  induction l with
  | nil => intro c b h _; simp at h
  | cons d ds ih =>
    intro c b h hc
    cases ds with
    | nil =>
      have hdc : d = c := by simpa using h
      rw [hdc]
      rw [collapseAux_cons_nonspace b [] hc]
      rfl
    | cons e es =>
      rw [List.getLast?_cons_cons] at h
      have htail : (collapseAux true (e :: es)).getLast? = some c := ih true h hc
      have htail' : (collapseAux false (e :: es)).getLast? = some c := ih false h hc
      have hne : collapseAux true (e :: es) ≠ [] := by
        intro hnil; rw [hnil] at htail; simp at htail
      have hne' : collapseAux false (e :: es) ≠ [] := by
        intro hnil; rw [hnil] at htail'; simp at htail'
      by_cases hd : isGoRegexSpace d = true
      · unfold collapseAux
        rw [if_pos hd]
        by_cases hb : b = true
        · rw [if_pos hb]
          exact htail
        · rw [if_neg hb]
          rw [getLast?_cons_ne_nil _ hne]
          exact htail
      · have hd' : isGoRegexSpace d = false := by
          cases he : isGoRegexSpace d
          · rfl
          · exact absurd he hd
        rw [collapseAux_cons_nonspace b (e :: es) hd']
        rw [getLast?_cons_ne_nil _ hne']
        exact htail'

theorem joinSpace_head : ∀ {ws : List (List Char)} {w : List Char},
    ws.head? = some w → w ≠ [] → (joinSpace ws).head? = w.head? := by
  intro ws w hw hne
  cases ws with
  | nil => simp at hw
  | cons w0 rest =>
    have hw0 : w0 = w := by simpa using hw
    subst hw0
    cases rest with
    | nil => rfl
    | cons w2 rest2 =>
      rw [show joinSpace (w0 :: w2 :: rest2) = w0 ++ ' ' :: joinSpace (w2 :: rest2) from rfl]
      cases w0 with
      | nil => exact absurd rfl hne
      | cons c cs => rfl

theorem joinSpace_getLast : ∀ {ws : List (List Char)},
    (∀ w ∈ ws, w ≠ []) → ws ≠ [] →
    ∃ w ∈ ws, (joinSpace ws).getLast? = w.getLast? := by
  intro ws
  induction ws with
  | nil => intro _ h; exact absurd rfl h
  | cons w rest ih =>
    intro hne _
    cases rest with
    | nil => exact ⟨w, by simp, rfl⟩
    | cons w2 rest2 =>
      obtain ⟨wl, hwl, hlast⟩ := ih (fun w1 hw1 => hne w1 (by simp [hw1])) (by simp)
      refine ⟨wl, by simp [hwl], ?_⟩
      rw [show joinSpace (w :: w2 :: rest2) = w ++ ' ' :: joinSpace (w2 :: rest2) from rfl]
      rw [List.getLast?_append_of_ne_nil _ (by simp)]
      rw [getLast?_cons_ne_nil _ ?hne2]
      case hne2 =>
        intro hnil
        have hw2 : w2 ≠ [] := hne w2 (by simp)
        cases w2 with
        | nil => exact hw2 rfl
        | cons c cs =>
          rw [show joinSpace ((c :: cs) :: rest2) = (match rest2 with
            | [] => c :: cs
            | _ :: _ => (c :: cs) ++ ' ' :: joinSpace rest2) from by cases rest2 <;> rfl] at hnil
          cases rest2 <;> simp at hnil
      exact hlast

theorem mem_of_getLast?_eq {α : Type} {l : List α} {c : α}
    (h : l.getLast? = some c) : c ∈ l := by
  have hx : c ∈ l.getLast? := by rw [h]; rfl
  obtain ⟨hne, hc⟩ := List.mem_getLast?_eq_getLast hx
  rw [hc]
  exact List.getLast_mem hne

theorem idem_words (ws : List (List Char))
    (h : ∀ w ∈ ws, w ≠ [] ∧ ∀ c ∈ w, isGoSpace c = false) :
    goTrimSpace (joinSpace ws) = joinSpace ws ∧
    collapseSpaces (joinSpace ws) = joinSpace ws ∧
    goFields (joinSpace ws) = ws := by
  refine ⟨?_, ?_, goFields_joinSpace h⟩
  · cases ws with
    | nil => rfl
    | cons w rest =>
      have hw := h w (by simp)
      refine goTrimSpace_eq_self ?_ ?_
      · intro c hc
        rw [joinSpace_head (by rfl) hw.1] at hc
        cases w with
        | nil => exact absurd rfl hw.1
        | cons d ds =>
          exact hw.2 c (by simp [(by simpa using hc : d = c)])
      · intro c hc
        obtain ⟨wl, hwl, hlast⟩ := joinSpace_getLast
          (fun w1 hw1 => (h w1 hw1).1) (by simp)
        rw [hlast] at hc
        exact (h wl hwl).2 c (mem_of_getLast?_eq hc)
  · refine collapseAux_joinSpace false ?_
    intro w hw
    exact ⟨(h w hw).1, fun c hc => regexSpace_of_goSpace_false ((h w hw).2 c hc)⟩

theorem idem_collapse_trim (x : List Char) :
    goTrimSpace (collapseSpaces (goTrimSpace x)) = collapseSpaces (goTrimSpace x) ∧
    collapseSpaces (collapseSpaces (goTrimSpace x)) = collapseSpaces (goTrimSpace x) := by
  refine ⟨?_, collapseSpaces_idem _⟩
  by_cases hnil : goTrimSpace x = []
  · rw [hnil]; rfl
  obtain ⟨c0, t0, ht0⟩ := List.exists_cons_of_ne_nil hnil
  refine goTrimSpace_eq_self ?_ ?_
  · intro c hc
    have hh0 : (goTrimSpace x).head? = some c0 := by rw [ht0]; rfl
    have hc0 : isGoSpace c0 = false := goTrimSpace_head hh0
    have := collapseAux_head (b := false) (regexSpace_of_goSpace_false hc0) hh0
    rw [show collapseSpaces (goTrimSpace x) = collapseAux false (goTrimSpace x) from rfl] at hc
    rw [this] at hc
    rw [(by simpa using hc : c0 = c)] at hc0
    exact hc0
  · intro c hc
    have hlast0 : ∃ cl, (goTrimSpace x).getLast? = some cl := by
      cases hgl : (goTrimSpace x).getLast? with
      | none => rw [List.getLast?_eq_none_iff] at hgl; exact absurd hgl hnil
      | some cl => exact ⟨cl, rfl⟩
    obtain ⟨cl, hcl⟩ := hlast0
    have hclns : isGoSpace cl = false := goTrimSpace_getLast hcl
    have := collapseAux_getLast false hcl (regexSpace_of_goSpace_false hclns)
    rw [show collapseSpaces (goTrimSpace x) = collapseAux false (goTrimSpace x) from rfl] at hc
    rw [this] at hc
    rw [(by simpa using hc : cl = c)] at hclns
    exact hclns

theorem NormalizeText_idem (cfg : NormalizationConfig) (t : List Char) :
    NormalizeText cfg (NormalizeText cfg t) = NormalizeText cfg t := by
  by_cases ht : t = []
  · rw [ht]; rfl
  by_cases hye : NormalizeText cfg t = []
  · rw [hye]; rfl
  have hyexp : NormalizeText cfg t =
      (if t = [] then [] else
        (if cfg.enableStopwords then
          joinSpace ((goFields (collapseSpaces (goTrimSpace
            (if cfg.enableLowercase then lowerStr t else t)))).filter
            (fun w => ¬ isStopword (lowerStr w)))
        else collapseSpaces (goTrimSpace
          (if cfg.enableLowercase then lowerStr t else t)))) := rfl
  rw [if_neg ht] at hyexp
  have hfinal : NormalizeText cfg (NormalizeText cfg t) =
      (if NormalizeText cfg t = [] then [] else
        (if cfg.enableStopwords then
          joinSpace ((goFields (collapseSpaces (goTrimSpace
            (if cfg.enableLowercase then lowerStr (NormalizeText cfg t)
             else NormalizeText cfg t)))).filter
            (fun w => ¬ isStopword (lowerStr w)))
        else collapseSpaces (goTrimSpace
          (if cfg.enableLowercase then lowerStr (NormalizeText cfg t)
           else NormalizeText cfg t)))) := rfl
  rw [hfinal, if_neg hye]
  by_cases hsw : cfg.enableStopwords = true
  · rw [if_pos hsw] at hyexp ⊢
    have hFWprops : ∀ w ∈ ((goFields (collapseSpaces (goTrimSpace
        (if cfg.enableLowercase then lowerStr t else t)))).filter
        (fun w => ¬ isStopword (lowerStr w))),
        w ≠ [] ∧ ∀ c ∈ w, isGoSpace c = false :=
      fun w hw => goFields_words (List.mem_filter.mp hw).1
    obtain ⟨htr, hco, hfi⟩ := idem_words _ hFWprops
    have h1 : (if cfg.enableLowercase then lowerStr (NormalizeText cfg t)
        else NormalizeText cfg t) = NormalizeText cfg t := by
      by_cases hl : cfg.enableLowercase = true
      · rw [if_pos hl]
        apply lowerStr_eq_self
        intro c hc
        rw [hyexp] at hc
        rcases mem_joinSpace hc with ⟨w, hw, hcw⟩ | hsp
        · have hw2 := (List.mem_filter.mp hw).1
          have hct2 : c ∈ collapseSpaces (goTrimSpace
              (if cfg.enableLowercase then lowerStr t else t)) := by
            rcases mem_goFieldsAux hw2 hcw with h | h
            · simp at h
            · exact h
          rcases mem_collapseAux hct2 with h | hsp
          · have hct1 := mem_goTrimSpace h
            rw [if_pos hl] at hct1
            exact lowerStr_fixed t c hct1
          · rw [hsp]; exact goToLower_space
        · rw [hsp]; exact goToLower_space
      · rw [if_neg hl]
    rw [h1]
    have htrim : goTrimSpace (NormalizeText cfg t) = NormalizeText cfg t := by
      rw [hyexp]; exact htr
    have hcollapse : collapseSpaces (NormalizeText cfg t) = NormalizeText cfg t := by
      rw [hyexp]; exact hco
    rw [htrim, hcollapse]
    conv_lhs => rw [hyexp]
    rw [hfi]
    rw [List.filter_eq_self.mpr (fun w hw => (List.mem_filter.mp hw).2)]
    rw [← hyexp]
  · rw [if_neg hsw] at hyexp ⊢
    obtain ⟨htr2, hco2⟩ := idem_collapse_trim
      (if cfg.enableLowercase then lowerStr t else t)
    have h1 : (if cfg.enableLowercase then lowerStr (NormalizeText cfg t)
        else NormalizeText cfg t) = NormalizeText cfg t := by
      by_cases hl : cfg.enableLowercase = true
      · rw [if_pos hl]
        apply lowerStr_eq_self
        intro c hc
        rw [hyexp] at hc
        rcases mem_collapseAux hc with h | hsp
        · have hct1 := mem_goTrimSpace h
          rw [if_pos hl] at hct1
          exact lowerStr_fixed t c hct1
        · rw [hsp]; exact goToLower_space
      · rw [if_neg hl]
    rw [h1]
    have htrim : goTrimSpace (NormalizeText cfg t) = NormalizeText cfg t := by
      rw [hyexp]; exact htr2
    have hcollapse : collapseSpaces (NormalizeText cfg t) = NormalizeText cfg t := by
      rw [hyexp]; exact hco2
    rw [htrim, hcollapse]

/-- Token-based comparator facts. -/
theorem jaccard_nil_nil : Jaccard.Compare [] [] = GoFloat.q 1 := rfl

theorem jaccard_nil_left {x : List Char} (h : x ≠ []) :
    Jaccard.Compare [] x = GoFloat.q 0 := by
  unfold Jaccard.Compare
  rw [if_neg (by rintro ⟨-, hx⟩; exact h hx), if_pos (Or.inl rfl)]

theorem jaccard_nil_right {x : List Char} (h : x ≠ []) :
    Jaccard.Compare x [] = GoFloat.q 0 := by
  unfold Jaccard.Compare
  rw [if_neg (by rintro ⟨hx, -⟩; exact h hx), if_pos (Or.inr rfl)]

theorem jaccard_self_tokenfree {a : List Char} (ha : a ≠ [])
    (ht : tokenize a = []) : Jaccard.Compare a a = GoFloat.nan := by
  unfold Jaccard.Compare
  rw [if_neg (by rintro ⟨hx, -⟩; exact ha hx),
      if_neg (by rintro (hx | hx) <;> exact ha hx)]
  dsimp only
  rw [ht]
  rfl

theorem dedup_append_self_length {α : Type} [DecidableEq α] (l : List α) :
    (l ++ l).dedup.length = l.dedup.length := by
  have h1 := List.card_toFinset (l ++ l)
  have h2 := List.card_toFinset l
  rw [List.toFinset_append, Finset.union_self] at h1
  omega

theorem jaccard_self_tokens {a : List Char} (ha : a ≠ [])
    (ht : tokenize a ≠ []) : Jaccard.Compare a a = GoFloat.q 1 := by
  unfold Jaccard.Compare
  rw [if_neg (by rintro ⟨hx, -⟩; exact ha hx),
      if_neg (by rintro (hx | hx) <;> exact ha hx)]
  dsimp only
  have hfilter : ((tokenize a).dedup.filter
      (fun t => (tokenize a).dedup.contains t)).length = (tokenize a).dedup.length := by
    rw [List.filter_eq_self.mpr]
    intro t htmem
    simpa using htmem
  rw [hfilter, dedup_append_self_length]
  have hn : (((tokenize a).dedup.length : ℚ)) ≠ 0 := by
    have hne : (tokenize a).dedup ≠ [] := by
      intro hd
      exact ht (by simpa using hd)
    have hpos : 0 < (tokenize a).dedup.length := List.length_pos.mpr hne
    exact_mod_cast Nat.pos_iff_ne_zero.mp hpos
  show GoFloat.div (GoFloat.q ((tokenize a).dedup.length : ℚ))
    (GoFloat.q ((tokenize a).dedup.length : ℚ)) = GoFloat.q 1
  unfold GoFloat.div
  dsimp only
  rw [if_neg hn, div_self hn]

theorem nodup_subset_length {α : Type} [DecidableEq α] {l1 l2 : List α}
    (h1 : l1.Nodup) (h2 : l2.Nodup) (hsub : ∀ x ∈ l1, x ∈ l2) :
    l1.length ≤ l2.length := by
  have hc1 : l1.toFinset.card = l1.length := by
    rw [List.card_toFinset, h1.dedup]
  have hc2 : l2.toFinset.card = l2.length := by
    rw [List.card_toFinset, h2.dedup]
  rw [← hc1, ← hc2]
  exact Finset.card_le_card (fun x hx => by
    rw [List.mem_toFinset] at hx ⊢
    exact hsub x hx)

theorem jaccard_range (a b : List Char) :
    Jaccard.Compare a b = GoFloat.nan ∨
    ∃ x : ℚ, Jaccard.Compare a b = GoFloat.q x ∧ 0 ≤ x ∧ x ≤ 1 := by
  unfold Jaccard.Compare
  by_cases hab : a = [] ∧ b = []
  · rw [if_pos hab]
    exact Or.inr ⟨1, rfl, by norm_num⟩
  rw [if_neg hab]
  by_cases hor : a = [] ∨ b = []
  · rw [if_pos hor]
    exact Or.inr ⟨0, rfl, by norm_num⟩
  rw [if_neg hor]
  dsimp only
  by_cases hu : ((tokenize a ++ tokenize b).dedup.length : ℚ) = 0
  · left
    unfold GoFloat.div
    dsimp only
    rw [if_pos hu]
  · right
    have hle : ((tokenize a).dedup.filter
        (fun t => (tokenize b).dedup.contains t)).length ≤
        (tokenize a ++ tokenize b).dedup.length := by
      refine nodup_subset_length ((List.nodup_dedup _).filter _)
        (List.nodup_dedup _) ?_
      intro t htm
      have hta : t ∈ (tokenize a).dedup := (List.mem_filter.mp htm).1
      rw [List.mem_dedup] at hta ⊢
      exact List.mem_append.mpr (Or.inl hta)
    refine ⟨((((tokenize a).dedup.filter
        (fun t => (tokenize b).dedup.contains t)).length : ℚ) /
        ((tokenize a ++ tokenize b).dedup.length : ℚ)), ?_, ?_, ?_⟩
    · unfold GoFloat.div
      dsimp only
      rw [if_neg hu]
    · positivity
    · rw [div_le_one (lt_of_le_of_ne (by positivity) (Ne.symm hu))]
      exact_mod_cast hle

theorem findEntry_map_key {α β : Type} [DecidableEq α] (f : α → β) :
    ∀ {l : List α} {t : α}, t ∈ l →
      ((l.map (fun t => (t, f t))).find? (fun q' => q'.1 = t)) = some (t, f t) := by
  intro l
  induction l with
  | nil => intro t ht; simp at ht
  | cons a as ih =>
    intro t ht
    rw [List.map_cons]
    by_cases hat : a = t
    · rw [List.find?_cons_of_pos _ (by simp [hat])]
      rw [hat]
    · rw [List.find?_cons_of_neg _ (by simp [hat])]
      exact ih (by
        rcases List.mem_cons.mp ht with h | h
        · exact absurd h.symm hat
        · exact h)

theorem findEntry_map_key_none {α β : Type} [DecidableEq α] (f : α → β) :
    ∀ {l : List α} {t : α}, t ∉ l →
      ((l.map (fun t => (t, f t))).find? (fun q' => q'.1 = t)) = none := by
  intro l
  induction l with
  | nil => intro t _; rfl
  | cons a as ih =>
    intro t ht
    rw [List.map_cons]
    rw [List.find?_cons_of_neg _ (by simp; intro h; exact ht (by simp [h]))]
    exact ih (fun h => ht (by simp [h]))

theorem cosDot_eq (a b : List Char) :
    cosDot a b = (((tokenize a).dedup).map
      (fun t => ((tokenize a).count t : ℚ) * ((tokenize b).count t : ℚ))).sum := by
  unfold cosDot freqVec
  dsimp only
  rw [List.map_map]
  refine congrArg List.sum (List.map_congr_left ?_)
  intro t ht
  dsimp only [Function.comp]
  by_cases htb : t ∈ (tokenize b).dedup
  · rw [findEntry_map_key _ htb]
  · rw [findEntry_map_key_none _ htb]
    rw [List.count_eq_zero.mpr (fun hmem => htb (List.mem_dedup.mpr hmem))]
    simp

theorem cosMagSq_eq (a : List Char) :
    cosMagSq a = (((tokenize a).dedup).map
      (fun t => ((tokenize a).count t : ℚ) * ((tokenize a).count t : ℚ))).sum := by
  unfold cosMagSq freqVec
  dsimp only
  rw [List.map_map]
  rfl

theorem cosDot_self (a : List Char) : cosDot a a = cosMagSq a := by
  rw [cosDot_eq, cosMagSq_eq]

theorem cosDot_nonneg (a b : List Char) : 0 ≤ cosDot a b := by
  rw [cosDot_eq]
  apply List.sum_nonneg
  intro x hx
  obtain ⟨t, _, hxe⟩ := List.mem_map.mp hx
  rw [← hxe]
  positivity

theorem cosMagSq_nonneg (a : List Char) : 0 ≤ cosMagSq a := by
  rw [cosMagSq_eq]
  apply List.sum_nonneg
  intro x hx
  obtain ⟨t, _, hxe⟩ := List.mem_map.mp hx
  rw [← hxe]
  positivity

theorem cosMagSq_tokenfree {a : List Char} (ht : tokenize a = []) :
    cosMagSq a = 0 := by
  unfold cosMagSq freqVec
  dsimp only
  rw [ht]
  rfl

theorem cosMagSq_pos {a : List Char} (ht : tokenize a ≠ []) :
    0 < cosMagSq a := by
  rw [cosMagSq_eq]
  obtain ⟨t0, ts, hts⟩ := List.exists_cons_of_ne_nil
    (fun hd => ht (by simpa using hd) : (tokenize a).dedup ≠ [])
  have ht0 : t0 ∈ (tokenize a).dedup := by rw [hts]; simp
  have hcnt : 1 ≤ (tokenize a).count t0 := by
    have hm : t0 ∈ tokenize a := List.mem_dedup.mp ht0
    rcases Nat.eq_zero_or_pos ((tokenize a).count t0) with h0 | hpos
    · exact absurd hm (by simpa using List.count_eq_zero.mp h0)
    · omega
  have hterm : (1 : ℚ) ≤ ((tokenize a).count t0 : ℚ) * ((tokenize a).count t0 : ℚ) := by
    have h1 : (1 : ℚ) ≤ ((tokenize a).count t0 : ℚ) := by exact_mod_cast hcnt
    nlinarith
  have hmem : ((tokenize a).count t0 : ℚ) * ((tokenize a).count t0 : ℚ) ∈
      (((tokenize a).dedup).map
      (fun t => ((tokenize a).count t : ℚ) * ((tokenize a).count t : ℚ))) :=
    List.mem_map.mpr ⟨t0, ht0, rfl⟩
  have hle := List.single_le_sum (fun x hx => by
    obtain ⟨t, _, hxe⟩ := List.mem_map.mp hx
    rw [← hxe]
    positivity) _ hmem
  linarith

theorem cosDot_sq_le (a b : List Char) :
    (cosDot a b) * (cosDot a b) ≤ cosMagSq a * cosMagSq b := by
  classical
  have hza : ∀ t : List Char, t ∉ (tokenize a).dedup.toFinset →
      ((tokenize a).count t : ℚ) = 0 := by
    intro t htn
    rw [List.count_eq_zero.mpr (fun hmem => htn (by
      rw [List.mem_toFinset, List.mem_dedup]
      exact hmem))]
    rfl
  have hzb : ∀ t : List Char, t ∉ (tokenize b).dedup.toFinset →
      ((tokenize b).count t : ℚ) = 0 := by
    intro t htn
    rw [List.count_eq_zero.mpr (fun hmem => htn (by
      rw [List.mem_toFinset, List.mem_dedup]
      exact hmem))]
    rfl
  have hdot : cosDot a b =
      ∑ t ∈ ((tokenize a).dedup.toFinset ∪ (tokenize b).dedup.toFinset),
        ((tokenize a).count t : ℚ) * ((tokenize b).count t : ℚ) := by
    rw [cosDot_eq, ← List.sum_toFinset _ (List.nodup_dedup _)]
    exact Finset.sum_subset Finset.subset_union_left
      (fun t _ htn => by rw [hza t htn, zero_mul])
  have hA : cosMagSq a =
      ∑ t ∈ ((tokenize a).dedup.toFinset ∪ (tokenize b).dedup.toFinset),
        ((tokenize a).count t : ℚ) * ((tokenize a).count t : ℚ) := by
    rw [cosMagSq_eq, ← List.sum_toFinset _ (List.nodup_dedup _)]
    exact Finset.sum_subset Finset.subset_union_left
      (fun t _ htn => by rw [hza t htn, zero_mul])
  have hB : cosMagSq b =
      ∑ t ∈ ((tokenize a).dedup.toFinset ∪ (tokenize b).dedup.toFinset),
        ((tokenize b).count t : ℚ) * ((tokenize b).count t : ℚ) := by
    rw [cosMagSq_eq, ← List.sum_toFinset _ (List.nodup_dedup _)]
    exact Finset.sum_subset Finset.subset_union_right
      (fun t _ htn => by rw [hzb t htn, zero_mul])
  rw [hdot, hA, hB]
  have hcs := Finset.sum_mul_sq_le_sq_mul_sq
    ((tokenize a).dedup.toFinset ∪ (tokenize b).dedup.toFinset)
    (fun t => ((tokenize a).count t : ℚ)) (fun t => ((tokenize b).count t : ℚ))
  calc (∑ t ∈ ((tokenize a).dedup.toFinset ∪ (tokenize b).dedup.toFinset),
        ((tokenize a).count t : ℚ) * ((tokenize b).count t : ℚ)) *
      (∑ t ∈ ((tokenize a).dedup.toFinset ∪ (tokenize b).dedup.toFinset),
        ((tokenize a).count t : ℚ) * ((tokenize b).count t : ℚ))
      = (∑ t ∈ ((tokenize a).dedup.toFinset ∪ (tokenize b).dedup.toFinset),
        ((tokenize a).count t : ℚ) * ((tokenize b).count t : ℚ)) ^ 2 := by ring
    _ ≤ (∑ t ∈ ((tokenize a).dedup.toFinset ∪ (tokenize b).dedup.toFinset),
        ((tokenize a).count t : ℚ) ^ 2) *
        (∑ t ∈ ((tokenize a).dedup.toFinset ∪ (tokenize b).dedup.toFinset),
        ((tokenize b).count t : ℚ) ^ 2) := hcs
    _ = (∑ t ∈ ((tokenize a).dedup.toFinset ∪ (tokenize b).dedup.toFinset),
        ((tokenize a).count t : ℚ) * ((tokenize a).count t : ℚ)) *
        (∑ t ∈ ((tokenize a).dedup.toFinset ∪ (tokenize b).dedup.toFinset),
        ((tokenize b).count t : ℚ) * ((tokenize b).count t : ℚ)) := by
        congr 1 <;> exact Finset.sum_congr rfl (fun t _ => by ring)

theorem cosine_nil_nil {r : ℝ} (h : Cosine.CompareRel [] [] r) : r = 1 := by
  unfold Cosine.CompareRel at h
  rwa [if_pos ⟨rfl, rfl⟩] at h

theorem cosine_nil_left {x : List Char} {r : ℝ} (hx : x ≠ [])
    (h : Cosine.CompareRel [] x r) : r = 0 := by
  unfold Cosine.CompareRel at h
  rwa [if_neg (by rintro ⟨-, h2⟩; exact hx h2), if_pos (Or.inl rfl)] at h

theorem cosine_nil_right {x : List Char} {r : ℝ} (hx : x ≠ [])
    (h : Cosine.CompareRel x [] r) : r = 0 := by
  unfold Cosine.CompareRel at h
  rwa [if_neg (by rintro ⟨h2, -⟩; exact hx h2), if_pos (Or.inr rfl)] at h

theorem cosine_self_tokenfree {a : List Char} {r : ℝ} (ha : a ≠ [])
    (ht : tokenize a = []) (h : Cosine.CompareRel a a r) : r = 0 := by
  unfold Cosine.CompareRel at h
  rw [if_neg (by rintro ⟨h2, -⟩; exact ha h2),
      if_neg (by rintro (h2 | h2) <;> exact ha h2)] at h
  have hz : Real.sqrt ((cosMagSq a : ℚ) : ℝ) = 0 := by
    rw [cosMagSq_tokenfree ht]
    simp
  rcases h with ⟨-, hr⟩ | ⟨habs, -⟩
  · exact hr
  · exact absurd (Or.inl hz) habs

theorem cosine_self_one {a : List Char} {r : ℝ} (ha : a ≠ [])
    (ht : tokenize a ≠ []) (h : Cosine.CompareRel a a r) : r = 1 := by
  unfold Cosine.CompareRel at h
  rw [if_neg (by rintro ⟨h2, -⟩; exact ha h2),
      if_neg (by rintro (h2 | h2) <;> exact ha h2)] at h
  have hpos : 0 < cosMagSq a := cosMagSq_pos ht
  have hposR : (0 : ℝ) < ((cosMagSq a : ℚ) : ℝ) := by exact_mod_cast hpos
  have hsq : Real.sqrt ((cosMagSq a : ℚ) : ℝ) ≠ 0 := by
    rw [Real.sqrt_ne_zero' ]
    exact hposR
  rcases h with ⟨habs, -⟩ | ⟨-, hr⟩
  · rcases habs with h0 | h0 <;> exact absurd h0 hsq
  · rw [hr, cosDot_self]
    rw [Real.mul_self_sqrt (le_of_lt hposR)]
    exact div_self (ne_of_gt hposR)

theorem cosine_range {a b : List Char} {r : ℝ}
    (h : Cosine.CompareRel a b r) : 0 ≤ r ∧ r ≤ 1 := by
  unfold Cosine.CompareRel at h
  by_cases hab : a = [] ∧ b = []
  · rw [if_pos hab] at h
    rw [h]
    norm_num
  rw [if_neg hab] at h
  by_cases hor : a = [] ∨ b = []
  · rw [if_pos hor] at h
    rw [h]
    norm_num
  rw [if_neg hor] at h
  rcases h with ⟨-, hr⟩ | ⟨habs, hr⟩
  · rw [hr]; norm_num
  push_neg at habs
  obtain ⟨hga, hgb⟩ := habs
  have hsa : (0 : ℝ) < Real.sqrt ((cosMagSq a : ℚ) : ℝ) :=
    lt_of_le_of_ne (Real.sqrt_nonneg _) (Ne.symm hga)
  have hsb : (0 : ℝ) < Real.sqrt ((cosMagSq b : ℚ) : ℝ) :=
    lt_of_le_of_ne (Real.sqrt_nonneg _) (Ne.symm hgb)
  have hdenom : (0 : ℝ) < Real.sqrt ((cosMagSq a : ℚ) : ℝ) *
      Real.sqrt ((cosMagSq b : ℚ) : ℝ) := mul_pos hsa hsb
  have hdotR : (0 : ℝ) ≤ ((cosDot a b : ℚ) : ℝ) := by exact_mod_cast cosDot_nonneg a b
  constructor
  · rw [hr]
    exact div_nonneg hdotR (le_of_lt hdenom)
  · rw [hr, div_le_one hdenom]
    have hAR : (0 : ℝ) ≤ ((cosMagSq a : ℚ) : ℝ) := by exact_mod_cast cosMagSq_nonneg a
    have hBR : (0 : ℝ) ≤ ((cosMagSq b : ℚ) : ℝ) := by exact_mod_cast cosMagSq_nonneg b
    have hcsR : ((cosDot a b : ℚ) : ℝ) ^ 2 ≤
        ((cosMagSq a : ℚ) : ℝ) * ((cosMagSq b : ℚ) : ℝ) := by
      have := cosDot_sq_le a b
      have h2 : ((cosDot a b * cosDot a b : ℚ) : ℝ) ≤
          ((cosMagSq a * cosMagSq b : ℚ) : ℝ) := by exact_mod_cast this
      push_cast at h2
      nlinarith [h2]
    have hle : ((cosDot a b : ℚ) : ℝ) ≤
        Real.sqrt (((cosMagSq a : ℚ) : ℝ) * ((cosMagSq b : ℚ) : ℝ)) := by
      rw [show ((cosDot a b : ℚ) : ℝ) =
        Real.sqrt (((cosDot a b : ℚ) : ℝ) ^ 2) from
        (Real.sqrt_sq hdotR).symm]
      exact Real.sqrt_le_sqrt hcsR
    rwa [Real.sqrt_mul hAR] at hle

theorem weightedLe_nan {b : ℚ} : WeightedLe GoFloat.nan b := Or.inl rfl

theorem weightedLe_q {x b : ℚ} (h : x ≤ b) : WeightedLe (GoFloat.q x) b :=
  Or.inr ⟨x, rfl, h⟩

theorem weightedLe_mono {g : GoFloat} {b b' : ℚ} (h : WeightedLe g b)
    (hb : b ≤ b') : WeightedLe g b' := by
  rcases h with h | ⟨x, hx, hxb⟩
  · exact Or.inl h
  · exact Or.inr ⟨x, hx, le_trans hxb hb⟩

theorem weightedLe_mul {g : GoFloat} {c : ℚ} (h : WeightedLe g 1) (hc : 0 ≤ c) :
    WeightedLe (g.mul (GoFloat.q c)) c := by
  rcases h with h | ⟨x, hx, hxb⟩
  · rw [h]; exact Or.inl rfl
  · rw [hx]
    exact Or.inr ⟨x * c, rfl, by nlinarith⟩

theorem weightedLe_add {g h : GoFloat} {α β : ℚ} (hg : WeightedLe g α)
    (hh : WeightedLe h β) : WeightedLe (g.add h) (α + β) := by
  rcases hg with hg | ⟨x, hx, hxb⟩
  · rw [hg]; exact Or.inl rfl
  rcases hh with hh | ⟨y, hy, hyb⟩
  · rw [hx, hh]; exact Or.inl rfl
  · rw [hx, hy]
    exact Or.inr ⟨x + y, rfl, by linarith⟩

theorem exactMatch_le (a b : List Char) : WeightedLe (ExactMatch.Compare a b) 1 := by
  unfold ExactMatch.Compare
  split
  · exact weightedLe_q le_rfl
  · exact weightedLe_q (by norm_num)

theorem caseInsensitive_le (a b : List Char) :
    WeightedLe (CaseInsensitiveMatch.Compare a b) 1 := by
  unfold CaseInsensitiveMatch.Compare
  split
  · exact weightedLe_q le_rfl
  · exact weightedLe_q (by norm_num)

theorem containedIn_le (ic : Bool) (a b : List Char) :
    WeightedLe (ContainedIn.Compare ic a b) 1 := by
  unfold ContainedIn.Compare
  split
  · exact weightedLe_q le_rfl
  split
  · exact weightedLe_q (by norm_num)
  rename_i hand hor
  rcases not_or.mp hor with ⟨ha, hb⟩
  have key : ∀ aa bb : List Char, aa ≠ [] →
      WeightedLe (if (goContains bb aa || goContains aa bb) = true then
        GoFloat.q (((aa.length : ℚ) ⊓ (bb.length : ℚ)) /
          ((aa.length : ℚ) ⊔ (bb.length : ℚ)))
      else GoFloat.q 0) 1 := by
    intro aa bb hne
    split
    · refine weightedLe_q ?_
      have hal : ((aa.length : ℚ)) ≠ 0 := by
        simpa using fun h => hne (List.length_eq_zero.mp h)
      have hpos : (0 : ℚ) < (aa.length : ℚ) ⊔ (bb.length : ℚ) :=
        lt_sup_of_lt_left (lt_of_le_of_ne (by positivity) (Ne.symm hal))
      rw [div_le_one hpos]
      exact inf_le_sup
    · exact weightedLe_q (by norm_num)
  cases ic
  · simpa using key a b ha
  · have hlow := key (lowerStr a) (lowerStr b)
      (fun h => ha (List.map_eq_nil_iff.mp h))
    simpa using hlow

theorem phone_le (a b : List Char) : WeightedLe (PhoneSimilarity.Compare a b) 1 := by
  unfold PhoneSimilarity.Compare
  split
  · exact weightedLe_q le_rfl
  split
  · exact weightedLe_q (by norm_num)
  dsimp only
  split
  · exact weightedLe_q le_rfl
  split
  · exact weightedLe_q (by norm_num)
  split
  · exact weightedLe_q le_rfl
  split
  · exact weightedLe_q (by norm_num)
  split
  · exact weightedLe_q (by norm_num)
  split
  · exact weightedLe_q (by norm_num)
  rename_i h4
  refine weightedLe_q ?_
  push_neg at h4
  rw [div_le_one (by norm_num : (0 : ℚ) < 10)]
  exact_mod_cast Nat.le_of_lt (lt_of_lt_of_le h4 (by norm_num))

theorem zip_le (a b : List Char) : WeightedLe (ZipCodeSimilarity.Compare a b) 1 := by
  unfold ZipCodeSimilarity.Compare
  split
  · exact weightedLe_q le_rfl
  split
  · exact weightedLe_q (by norm_num)
  dsimp only
  split
  · exact weightedLe_q le_rfl
  split
  · exact weightedLe_q (by norm_num)
  split
  · exact weightedLe_q le_rfl
  split
  · exact weightedLe_q (by norm_num)
  split
  · exact weightedLe_q (by norm_num)
  split
  · exact weightedLe_q (by norm_num)
  split
  · exact weightedLe_q (by norm_num)
  exact weightedLe_q (by norm_num)

theorem foldl_inv {σ α : Type} (f : σ → α → σ) (P : σ → Prop)
    (step : ∀ s a, P s → P (f s a)) :
    ∀ (l : List α) (s : σ), P s → P (l.foldl f s) := by
  intro l
  induction l with
  | nil => intro s hs; exact hs
  | cons a as ih =>
    intro s hs
    exact ih (f s a) (step s a hs)

theorem foldl_snd_le {σ α : Type} (f : σ → α → σ) (meas : σ → Nat)
    (hstep : ∀ s a, meas (f s a) ≤ meas s + 1) :
    ∀ (l : List α) (s : σ), meas (l.foldl f s) ≤ meas s + l.length := by
  intro l
  induction l with
  | nil => intro s; simp
  | cons a as ih =>
    intro s
    calc meas ((a :: as).foldl f s) = meas (as.foldl f (f s a)) := rfl
      _ ≤ meas (f s a) + as.length := ih (f s a)
      _ ≤ meas s + 1 + as.length := by
          have := hstep s a
          omega
      _ = meas s + (a :: as).length := by simp; omega

theorem count_set_true {l : List Bool} : ∀ {j : Nat}, l.get? j = some false →
    (l.set j true).count true = l.count true + 1 := by
  induction l with
  | nil => intro j h; simp at h
  | cons c cs ih =>
    intro j h
    cases j with
    | zero =>
      have hc : c = false := by simpa using h
      rw [hc]
      rw [List.set_cons_zero]
      simp [List.count_cons]
    | succ j0 =>
      have h0 : cs.get? j0 = some false := by simpa using h
      rw [List.set_cons_succ]
      simp only [List.count_cons]
      rw [ih h0]
      omega

theorem jaroScan_inv (a b : List Char) (md : Nat) :
    (jaroScan a b md).2.1.length = b.length ∧
    (jaroScan a b md).2.1.count true = (jaroScan a b md).2.2 := by
  have key : ∀ (l : List Nat) (st : List Bool × List Bool × Nat),
      st.2.1.length = b.length → st.2.1.count true = st.2.2 →
      ((l.foldl (fun (st : List Bool × List Bool × Nat) (i : Nat) =>
        match a.get? i with
        | none => (st.1 ++ [false], st.2.1, st.2.2)
        | some ai =>
          match (List.range' (i - md) (min (i + md + 1) b.length - (i - md))).find?
              (fun j => (st.2.1.get? j = some false) && (b.get? j = some ai)) with
          | some j => (st.1 ++ [true], st.2.1.set j true, st.2.2 + 1)
          | none => (st.1 ++ [false], st.2.1, st.2.2)) st).2.1.length = b.length ∧
       (l.foldl (fun (st : List Bool × List Bool × Nat) (i : Nat) =>
        match a.get? i with
        | none => (st.1 ++ [false], st.2.1, st.2.2)
        | some ai =>
          match (List.range' (i - md) (min (i + md + 1) b.length - (i - md))).find?
              (fun j => (st.2.1.get? j = some false) && (b.get? j = some ai)) with
          | some j => (st.1 ++ [true], st.2.1.set j true, st.2.2 + 1)
          | none => (st.1 ++ [false], st.2.1, st.2.2)) st).2.1.count true =
       (l.foldl (fun (st : List Bool × List Bool × Nat) (i : Nat) =>
        match a.get? i with
        | none => (st.1 ++ [false], st.2.1, st.2.2)
        | some ai =>
          match (List.range' (i - md) (min (i + md + 1) b.length - (i - md))).find?
              (fun j => (st.2.1.get? j = some false) && (b.get? j = some ai)) with
          | some j => (st.1 ++ [true], st.2.1.set j true, st.2.2 + 1)
          | none => (st.1 ++ [false], st.2.1, st.2.2)) st).2.2) := by
    intro l
    induction l with
    | nil => intro st h1 h2; exact ⟨h1, h2⟩
    | cons i is ih =>
      intro st h1 h2
      rw [List.foldl_cons]
      cases hai : a.get? i with
      | none =>
        refine ih _ ?_ ?_ <;> simp only [hai] <;> try dsimp only
        · exact h1
        · exact h2
      | some ai =>
        cases hfind : (List.range' (i - md) (min (i + md + 1) b.length - (i - md))).find?
            (fun j => (st.2.1.get? j = some false) && (b.get? j = some ai)) with
        | none =>
          refine ih _ ?_ ?_ <;> simp only [hai, hfind] <;> try dsimp only
          · exact h1
          · exact h2
        | some j =>
          have hj : st.2.1.get? j = some false := by
            have hp := List.find?_some hfind
            rw [Bool.and_eq_true] at hp
            exact of_decide_eq_true hp.1
          refine ih _ ?_ ?_ <;> simp only [hai, hfind] <;> try dsimp only
          · rw [List.length_set]
            exact h1
          · rw [count_set_true hj, h2]
  exact key (List.range a.length) ([], List.replicate b.length false, 0)
    (by simp) (by simp [List.count_replicate])

theorem jaroScan_cnt_le_b (a b : List Char) (md : Nat) :
    (jaroScan a b md).2.2 ≤ b.length := by
  obtain ⟨hlen, hcnt⟩ := jaroScan_inv a b md
  calc (jaroScan a b md).2.2 = (jaroScan a b md).2.1.count true := hcnt.symm
    _ ≤ (jaroScan a b md).2.1.length := List.count_le_length _ _
    _ = b.length := hlen

theorem jaroScan_cnt_le_a (a b : List Char) (md : Nat) :
    (jaroScan a b md).2.2 ≤ a.length := by
  have key := foldl_snd_le
    (fun (st : List Bool × List Bool × Nat) (i : Nat) =>
        match a.get? i with
        | none => (st.1 ++ [false], st.2.1, st.2.2)
        | some ai =>
          match (List.range' (i - md) (min (i + md + 1) b.length - (i - md))).find?
              (fun j => (st.2.1.get? j = some false) && (b.get? j = some ai)) with
          | some j => (st.1 ++ [true], st.2.1.set j true, st.2.2 + 1)
          | none => (st.1 ++ [false], st.2.1, st.2.2))
    (fun st => st.2.2)
    (by
      intro st i
      cases hai : a.get? i with
      | none => simp only [hai]; omega
      | some ai =>
        cases hfind : (List.range' (i - md) (min (i + md + 1) b.length - (i - md))).find?
            (fun j => (st.2.1.get? j = some false) && (b.get? j = some ai)) with
        | none => simp only [hai, hfind]; omega
        | some j => simp only [hai, hfind]; omega)
    (List.range a.length) ([], List.replicate b.length false, 0)
  have key2 : (jaroScan a b md).2.2 ≤ 0 + (List.range a.length).length := key
  simpa using key2

theorem jaro_le_one (a0 b0 : List Char) : JaroWinkler.jaro a0 b0 ≤ 1 := by
  unfold JaroWinkler.jaro
  split
  · exact le_rfl
  dsimp only
  set A := if b0.length < a0.length then b0 else a0 with hA
  set B := if b0.length < a0.length then a0 else b0 with hB
  split
  · exact zero_le_one
  set md := A.length ⊔ B.length / 2 - 1 with hmd
  split
  · exact zero_le_one
  rename_i hAlen hm
  set m := (jaroScan A B ((A.length ⊔ B.length) / 2 - 1)).2.2 with hm2
  set t := jaroTranspositions A B (jaroScan A B ((A.length ⊔ B.length) / 2 - 1)).1
    (jaroScan A B ((A.length ⊔ B.length) / 2 - 1)).2.1 with ht
  have hmpos : 0 < m := Nat.pos_of_ne_zero hm
  have hma : m ≤ A.length := jaroScan_cnt_le_a A B _
  have hmb : m ≤ B.length := jaroScan_cnt_le_b A B _
  have halen : 0 < A.length := lt_of_lt_of_le hmpos hma
  have hblen : 0 < B.length := lt_of_lt_of_le hmpos hmb
  have h1 : (m : ℚ) / (A.length : ℚ) ≤ 1 := by
    rw [div_le_one (by exact_mod_cast halen)]
    exact_mod_cast hma
  have h2 : (m : ℚ) / (B.length : ℚ) ≤ 1 := by
    rw [div_le_one (by exact_mod_cast hblen)]
    exact_mod_cast hmb
  have h3 : ((m : ℚ) - (t : ℚ) / 2) / (m : ℚ) ≤ 1 := by
    rw [div_le_one (by exact_mod_cast hmpos)]
    have hnn : (0 : ℚ) ≤ (t : ℚ) / 2 := by positivity
    linarith
  linarith

theorem commonPrefixLen_le : ∀ (a b : List Char) (n : Nat),
    commonPrefixLen a b n ≤ n := by
  intro a
  induction a with
  | nil => intro b n; cases b <;> cases n <;> simp [commonPrefixLen]
  | cons c cs ih =>
    intro b n
    cases b with
    | nil => cases n <;> simp [commonPrefixLen]
    | cons d ds =>
      cases n with
      | zero => simp [commonPrefixLen]
      | succ n0 =>
        unfold commonPrefixLen
        split
        · have := ih ds n0
          omega
        · omega

theorem jw_le (a b : List Char) : WeightedLe (JaroWinkler.Compare a b) 1 := by
  unfold JaroWinkler.Compare
  split
  · exact weightedLe_q le_rfl
  split
  · exact weightedLe_q (by norm_num)
  dsimp only
  refine weightedLe_q ?_
  have hj : JaroWinkler.jaro a b ≤ 1 := jaro_le_one a b
  have hp : (commonPrefixLen a b (min 4 (min a.length b.length)) : ℚ) ≤ 4 := by
    have h1 := commonPrefixLen_le a b (min 4 (min a.length b.length))
    have h2 : min 4 (min a.length b.length) ≤ 4 := min_le_left _ _
    exact_mod_cast le_trans h1 h2
  have hp0 : (0 : ℚ) ≤ (commonPrefixLen a b (min 4 (min a.length b.length)) : ℚ) := by
    positivity
  nlinarith

theorem email_le (a b : List Char) : WeightedLe (EmailSimilarity.Compare a b) 1 := by
  unfold EmailSimilarity.Compare
  split
  · exact weightedLe_q le_rfl
  split
  · exact weightedLe_q (by norm_num)
  split
  · exact weightedLe_q le_rfl
  split
  · exact weightedLe_q (by norm_num)
  split
  · rename_i pa pb hpa hpb
    dsimp only
    split
    · rename_i hlt
      have hd := caseInsensitive_le pa.2 pb.2
      rcases hd with hd | ⟨x, hx, hxb⟩
      · rw [hd]; exact weightedLe_nan
      · rw [hx]
        refine weightedLe_mono (weightedLe_mul (weightedLe_q hxb) (by norm_num)) ?_
        norm_num
    · have hu := jw_le pa.1 pb.1
      have hd := caseInsensitive_le pa.2 pb.2
      have h1 := weightedLe_mul hu (by norm_num : (0 : ℚ) ≤ 4 / 10)
      have h2 := weightedLe_mul hd (by norm_num : (0 : ℚ) ≤ 6 / 10)
      have h3 := weightedLe_add h1 h2
      refine weightedLe_mono h3 ?_
      norm_num
  · exact jw_le a b

theorem jaccard_le (a b : List Char) : WeightedLe (Jaccard.Compare a b) 1 := by
  rcases jaccard_range a b with h | ⟨x, hx, -, hx1⟩
  · exact Or.inl h
  · exact Or.inr ⟨x, hx, hx1⟩

theorem name_le (a b : List Char) : WeightedLe (NameSimilarity.Compare a b) 1 := by
  unfold NameSimilarity.Compare
  split
  · exact weightedLe_q le_rfl
  split
  · exact weightedLe_q (by norm_num)
  split
  · exact weightedLe_q le_rfl
  dsimp only
  split
  · exact weightedLe_q le_rfl
  have h1 := weightedLe_mul (jw_le (NameSimilarity.preprocess a) (NameSimilarity.preprocess b))
    (by norm_num : (0 : ℚ) ≤ 6 / 10)
  have h2 := weightedLe_mul (jaccard_le (NameSimilarity.preprocess a) (NameSimilarity.preprocess b))
    (by norm_num : (0 : ℚ) ≤ 3 / 10)
  have h3 := weightedLe_mul (containedIn_le true (NameSimilarity.preprocess a) (NameSimilarity.preprocess b))
    (by norm_num : (0 : ℚ) ≤ 1 / 10)
  refine weightedLe_mono (weightedLe_add h1 (weightedLe_add h2 h3)) ?_
  norm_num

theorem address_le (a b : List Char) : WeightedLe (AddressSimilarity.Compare a b) 1 := by
  unfold AddressSimilarity.Compare
  split
  · exact weightedLe_q le_rfl
  split
  · exact weightedLe_q (by norm_num)
  split
  · exact weightedLe_q le_rfl
  dsimp only
  split
  · exact weightedLe_q le_rfl
  have h1 := weightedLe_mul (jaccard_le (AddressSimilarity.preprocess a) (AddressSimilarity.preprocess b))
    (by norm_num : (0 : ℚ) ≤ 5 / 10)
  have h2 := weightedLe_mul (jw_le (AddressSimilarity.preprocess a) (AddressSimilarity.preprocess b))
    (by norm_num : (0 : ℚ) ≤ 2 / 10)
  have h3 := weightedLe_mul (containedIn_le true (AddressSimilarity.preprocess a) (AddressSimilarity.preprocess b))
    (by norm_num : (0 : ℚ) ≤ 3 / 10)
  have hcomb := weightedLe_mono (weightedLe_add h1 (weightedLe_add h2 h3))
    (by norm_num : (5 / 10 + (2 / 10 + 3 / 10) : ℚ) ≤ 1)
  split
  · refine weightedLe_mono (weightedLe_mul hcomb (by norm_num : (0 : ℚ) ≤ 3 / 10)) ?_
    norm_num
  · refine weightedLe_mono (weightedLe_mul hcomb (by norm_num : (0 : ℚ) ≤ 1)) ?_
    norm_num

theorem simFn_le (fn : SimFn) (a b : List Char) : WeightedLe (fn.Compare a b) 1 := by
  cases fn with
  | name => exact name_le a b
  | address => exact address_le a b
  | phone => exact phone_le a b
  | email => exact email_le a b
  | zipCode => exact zip_le a b
  | text => exact jw_le a b
  | exactMatch => exact exactMatch_le a b

theorem weightedLe_div2 {g : GoFloat} (h : WeightedLe g 2) :
    WeightedLe (g.div (GoFloat.q 2)) 1 := by
  rcases h with h | ⟨x, hx, hxb⟩
  · rw [h]; exact Or.inl rfl
  · rw [hx]
    unfold GoFloat.div
    dsimp only
    rw [if_neg (by norm_num : ¬ (2 : ℚ) = 0)]
    exact Or.inr ⟨x / 2, rfl, by linarith⟩

theorem computeWeightedScore_le (fieldScores : List (List Char × FieldScore))
    (fieldWeights : List (List Char × ℚ))
    (hs : ∀ p ∈ fieldScores, WeightedLe p.2.score 1)
    (hw : ∀ w ∈ fieldWeights, 0 ≤ w.2) :
    WeightedLe (computeWeightedScore fieldScores fieldWeights) 1 := by
  unfold computeWeightedScore
  have key : ∀ (l : List (List Char × FieldScore)) (st : GoFloat × ℚ),
      (∀ p ∈ l, WeightedLe p.2.score 1) → 0 ≤ st.2 → WeightedLe st.1 st.2 →
      0 ≤ (l.foldl (fun (st : GoFloat × ℚ) p =>
        (st.1.add ((p.2.score).mul (GoFloat.q
          (((fieldWeights.find? (fun w => w.1 = p.1)).map (fun w => w.2)).getD 1))),
         st.2 + (((fieldWeights.find? (fun w => w.1 = p.1)).map (fun w => w.2)).getD 1))) st).2 ∧
      WeightedLe ((l.foldl (fun (st : GoFloat × ℚ) p =>
        (st.1.add ((p.2.score).mul (GoFloat.q
          (((fieldWeights.find? (fun w => w.1 = p.1)).map (fun w => w.2)).getD 1))),
         st.2 + (((fieldWeights.find? (fun w => w.1 = p.1)).map (fun w => w.2)).getD 1))) st).1)
        ((l.foldl (fun (st : GoFloat × ℚ) p =>
        (st.1.add ((p.2.score).mul (GoFloat.q
          (((fieldWeights.find? (fun w => w.1 = p.1)).map (fun w => w.2)).getD 1))),
         st.2 + (((fieldWeights.find? (fun w => w.1 = p.1)).map (fun w => w.2)).getD 1))) st).2) := by
    intro l
    induction l with
    | nil => intro st _ h0 h1; exact ⟨h0, h1⟩
    | cons p ps ih =>
      intro st hl h0 h1
      rw [List.foldl_cons]
      have hwnn : 0 ≤ (((fieldWeights.find? (fun w => w.1 = p.1)).map
          (fun w => w.2)).getD 1) := by
        cases hf : fieldWeights.find? (fun w => w.1 = p.1) with
        | none => simp
        | some wp =>
          have hmem := List.mem_of_find?_eq_some hf
          simpa using hw wp hmem
      refine ih _ (fun p1 hp1 => hl p1 (by simp [hp1])) ?_ ?_
      · dsimp only
        linarith
      · dsimp only
        exact weightedLe_add h1 (weightedLe_mul (hl p (by simp)) hwnn)
  obtain ⟨ht2, hacc⟩ := key fieldScores (GoFloat.q 0, 0) hs le_rfl
    (weightedLe_q le_rfl)
  dsimp only
  split
  · exact weightedLe_q (by norm_num)
  rename_i hne
  rcases hacc with hnan | ⟨x, hx, hxb⟩
  · rw [hnan]
    exact Or.inl rfl
  · rw [hx]
    unfold GoFloat.div
    dsimp only
    rw [if_neg hne]
    refine Or.inr ⟨_, rfl, ?_⟩
    have hpos : 0 < (fieldScores.foldl (fun (st : GoFloat × ℚ) p =>
        (st.1.add ((p.2.score).mul (GoFloat.q
          (((fieldWeights.find? (fun w => w.1 = p.1)).map (fun w => w.2)).getD 1))),
         st.2 + (((fieldWeights.find? (fun w => w.1 = p.1)).map (fun w => w.2)).getD 1)))
        (GoFloat.q 0, 0)).2 := lt_of_le_of_ne ht2 (Ne.symm hne)
    rw [div_le_one hpos]
    exact hxb

theorem computeFieldScores_entries (opts : Options) (r : MatchResult) (qf : FieldMap)
    (hr : ∀ p ∈ r.fieldScores, WeightedLe p.2.score 1) :
    ∀ p ∈ (computeFieldScores opts r qf).fieldScores, WeightedLe p.2.score 1 := by
  have keyA : ∀ (flds : FieldMap) (acc : List (List Char × FieldScore)),
      (∀ p ∈ acc, WeightedLe p.2.score 1) →
      ∀ p ∈ flds.foldl (fun acc p =>
        if p.2 = [] then acc
        else acc ++ [(p.1, { score := (resolveSimFn opts p.1).Compare p.2 p.2,
                             matchedValue := p.2,
                             similarityFn := (resolveSimFn opts p.1).fnName,
                             normalized := true : FieldScore })]) acc,
        WeightedLe p.2.score 1 := by
    intro flds
    induction flds with
    | nil => intro acc hacc p hp; exact hacc p hp
    | cons f fs ih =>
      intro acc hacc p hp
      rw [List.foldl_cons] at hp
      refine ih _ ?_ p hp
      intro p1 hp1
      by_cases hf : f.2 = []
      · rw [if_pos hf] at hp1
        exact hacc p1 hp1
      · rw [if_neg hf] at hp1
        rcases List.mem_append.mp hp1 with h | h
        · exact hacc p1 h
        · have hpe : p1 = (f.1, { score := (resolveSimFn opts f.1).Compare f.2 f.2, matchedValue := f.2, similarityFn := (resolveSimFn opts f.1).fnName, normalized := true : FieldScore }) := by simpa using h
          rw [hpe]
          exact simFn_le _ _ _
  have keyB : ∀ (flds : FieldMap) (acc : List (List Char × FieldScore)),
      (∀ p ∈ acc, WeightedLe p.2.score 1) →
      ∀ p ∈ flds.foldl (fun acc p =>
        if p.2 = [] then acc
        else
          match mapGet? r.fields p.1 with
          | none => acc
          | some matchValue =>
            acc ++ [(p.1, { score := (resolveSimFn opts p.1).Compare p.2 matchValue,
                            queryValue := p.2,
                            matchedValue := matchValue,
                            similarityFn := (resolveSimFn opts p.1).fnName,
                            normalized := true : FieldScore })]) acc,
        WeightedLe p.2.score 1 := by
    intro flds
    induction flds with
    | nil => intro acc hacc p hp; exact hacc p hp
    | cons f fs ih =>
      intro acc hacc p hp
      rw [List.foldl_cons] at hp
      refine ih _ ?_ p hp
      intro p1 hp1
      by_cases hf : f.2 = []
      · rw [if_pos hf] at hp1
        exact hacc p1 hp1
      · rw [if_neg hf] at hp1
        cases hm : mapGet? r.fields f.1 with
        | none =>
          rw [hm] at hp1
          exact hacc p1 hp1
        | some mv =>
          rw [hm] at hp1
          rcases List.mem_append.mp hp1 with h | h
          · exact hacc p1 h
          · have hpe : p1 = (f.1, { score := (resolveSimFn opts f.1).Compare f.2 mv, queryValue := f.2, matchedValue := mv, similarityFn := (resolveSimFn opts f.1).fnName, normalized := true : FieldScore }) := by simpa using h
            rw [hpe]
            exact simFn_le _ _ _
  intro p hp
  unfold computeFieldScores at hp
  dsimp only at hp
  by_cases hq : qf = []
  · rw [if_pos hq] at hp
    split at hp
    · exact keyA r.fields r.fieldScores hr p hp
    · exact keyA r.fields r.fieldScores hr p hp
  · rw [if_neg hq] at hp
    split at hp
    · exact keyB qf r.fieldScores hr p hp
    · exact keyB qf r.fieldScores hr p hp

theorem resultScore_le (e : EntityRecord)
    (hd : ∀ d : ℚ, metaGet e.metadata (str "distance") = some (MetaVal.num d) → 0 ≤ d) :
    WeightedLe (resultScore e) 1 := by
  unfold resultScore
  cases hm : metaGet e.metadata (str "distance") with
  | none => exact weightedLe_q le_rfl
  | some v =>
    cases v with
    | num d =>
      refine weightedLe_q ?_
      have := hd d hm
      linarith
    | strv s => exact weightedLe_q le_rfl
    | intv n => exact weightedLe_q le_rfl

theorem candidateResult_score_le (cfg : Config) (text : List Char) (opts : Options)
    (e : EntityRecord)
    (hd : ∀ d : ℚ, metaGet e.metadata (str "distance") = some (MetaVal.num d) → 0 ≤ d)
    (hw : ∀ w ∈ opts.fieldWeights, 0 ≤ w.2) :
    WeightedLe (candidateResult cfg text opts e).score 1 := by
  rw [candidateResult_score]
  have hv : WeightedLe (resultScore e) 1 := resultScore_le e hd
  split
  · rename_i hcond
    have hfs : ∀ p ∈ (candidateResult cfg text opts e).fieldScores,
        WeightedLe p.2.score 1 := by
      have hshape : (candidateResult cfg text opts e).fieldScores =
          (computeFieldScores opts (convertToMatchResult e (resultScore e))
            (parseQueryFields text)).fieldScores ∨
          (candidateResult cfg text opts e).fieldScores = [] := by
        unfold candidateResult
        dsimp only
        split
        · exact Or.inl rfl
        · exact Or.inr (convertToMatchResult_fieldScores e _)
      rcases hshape with hsh | hsh
      · rw [hsh]
        refine computeFieldScores_entries opts _ _ ?_
        rw [convertToMatchResult_fieldScores]
        intro p hp
        simp at hp
      · rw [hsh]
        intro p hp
        simp at hp
    have hwsc := computeWeightedScore_le _ opts.fieldWeights hfs hw
    exact weightedLe_div2 (weightedLe_mono (weightedLe_add hv hwsc) (by norm_num))
  · exact hv

theorem mem_findMatchesSearch {cfg : Config} {env : Env} {text : List Char}
    {opts : Options} {e : EntityRecord}
    (h : e ∈ findMatchesSearch cfg env text opts) :
    ∃ v n f, e ∈ env.search v n f := by
  unfold findMatchesSearch at h
  dsimp only at h
  repeat' split at h
  all_goals exact ⟨_, _, _, h⟩

theorem mem_FindMatches_pre {cfg : Config} {env : Env} {text : List Char}
    {opts : Options} {r : MatchResult} (hr : r ∈ FindMatches cfg env text opts) :
    r ∈ findMatchesPre cfg env text opts := by
  have hK : r ∈ goSortBy (fun a b => MatchResult.score a |>.gt (MatchResult.score b))
      (findMatchesPre cfg env text opts) := mem_truncKept hr
  exact mem_goSortBy.mp hK

theorem findMatches_mem_score_le (cfg : Config) (env : Env) (text : List Char)
    (opts : Options)
    (hd : ∀ (v : List ℚ) (n : Int) (f : Option (List (List Char × List Char))),
      ∀ e ∈ env.search v n f, ∀ d : ℚ,
        metaGet e.metadata (str "distance") = some (MetaVal.num d) → 0 ≤ d)
    (hw : ∀ w ∈ opts.fieldWeights, 0 ≤ w.2) :
    ∀ r ∈ FindMatches cfg env text opts, WeightedLe r.score 1 := by
  intro r hr
  obtain ⟨e, hsearch, _, hre⟩ := mem_findMatchesPre_iff.mp (mem_FindMatches_pre hr)
  obtain ⟨v, n, f, hmem⟩ := mem_findMatchesSearch hsearch
  rw [hre]
  exact candidateResult_score_le cfg text opts e
    (fun d hd2 => hd v n f e hmem d hd2) hw

theorem computeFieldScores_id (opts : Options) (r : MatchResult) (qf : FieldMap) :
    (computeFieldScores opts r qf).id = r.id := by
  unfold computeFieldScores
  dsimp only
  split
  · split <;> rfl
  · split <;> rfl

theorem candidateResult_id (cfg : Config) (text : List Char) (opts : Options)
    (e : EntityRecord) : (candidateResult cfg text opts e).id = e.id := by
  unfold candidateResult
  dsimp only
  split
  · rw [computeFieldScores_id]
    rfl
  · rfl

theorem foldl_append_if_map {β γ δ : Type} (p : β → Bool) (f : β → γ) (g : γ → δ) :
    ∀ (l : List β) (acc : List γ),
      ((l.foldl (fun acc e => if p e then acc else acc ++ [f e]) acc).map g).Sublist
        (acc.map g ++ l.map (fun e => g (f e))) := by
  intro l
  induction l with
  | nil => intro acc; simp
  | cons e es ih =>
    intro acc
    rw [List.foldl_cons]
    by_cases hp : p e = true
    · rw [if_pos hp]
      refine (ih acc).trans ?_
      rw [List.map_cons]
      refine List.Sublist.append_left ?_ _
      exact List.sublist_cons_self _ _
    · rw [if_neg hp]
      refine (ih (acc ++ [f e])).trans ?_
      rw [List.map_append, List.map_cons]
      simp

theorem findMatchesPre_ids_sublist (cfg : Config) (env : Env) (text : List Char)
    (opts : Options) :
    ((findMatchesPre cfg env text opts).map (fun r => r.id)).Sublist
      ((findMatchesSearch cfg env text opts).map (fun e => e.id)) := by
  have hshape := foldl_append_if_map
    (fun e => (resultScore e).lt (GoFloat.q (effThreshold cfg opts)))
    (candidateResult cfg text opts) (fun r => MatchResult.id r)
    (findMatchesSearch cfg env text opts) []
  have hfun : (findMatchesSearch cfg env text opts).map
      (fun e => (candidateResult cfg text opts e).id) =
      (findMatchesSearch cfg env text opts).map (fun e => e.id) :=
    List.map_congr_left (fun e _ => candidateResult_id cfg text opts e)
  rw [hfun] at hshape
  simpa using hshape

theorem findMatches_ids_nodup (cfg : Config) (env : Env) (text : List Char)
    (opts : Options)
    (hnodup : ∀ v n f, ((env.search v n f).map (fun e => e.id)).Nodup) :
    ((FindMatches cfg env text opts).map (fun r => r.id)).Nodup := by
  have hsearch : ((findMatchesSearch cfg env text opts).map (fun e => e.id)).Nodup := by
    unfold findMatchesSearch
    dsimp only
    repeat' split
    all_goals apply hnodup
  have hpre : ((findMatchesPre cfg env text opts).map (fun r => r.id)).Nodup :=
    (findMatchesPre_ids_sublist cfg env text opts).nodup hsearch
  have hsortp := (goSortBy_perm
    (fun a b => MatchResult.score a |>.gt (MatchResult.score b))
    (findMatchesPre cfg env text opts)).map (fun r => MatchResult.id r)
  have hsort : ((goSortBy (fun a b => MatchResult.score a |>.gt (MatchResult.score b))
      (findMatchesPre cfg env text opts)).map (fun r => r.id)).Nodup :=
    hsortp.nodup_iff.mpr hpre
  have hfm : FindMatches cfg env text opts =
      (if (effLimit cfg opts) <
        ((goSortBy (fun a b => MatchResult.score a |>.gt (MatchResult.score b))
          (findMatchesPre cfg env text opts)).length : Int)
      then (goSortBy (fun a b => MatchResult.score a |>.gt (MatchResult.score b))
        (findMatchesPre cfg env text opts)).take (effLimit cfg opts).toNat
      else goSortBy (fun a b => MatchResult.score a |>.gt (MatchResult.score b))
        (findMatchesPre cfg env text opts)) := rfl
  rw [hfm]
  split
  · rw [List.map_take]
    exact (List.take_sublist _ _).nodup hsort
  · exact hsort

theorem fme_mem_score_le (cfg : Config) (env : Env) (data : EntityData)
    (opts : Options)
    (hd : ∀ (v : List ℚ) (n : Int) (f : Option (List (List Char × List Char))),
      ∀ e ∈ env.search v n f, ∀ d : ℚ,
        metaGet e.metadata (str "distance") = some (MetaVal.num d) → 0 ≤ d)
    (hw : ∀ w ∈ opts.fieldWeights, 0 ≤ w.2) :
    ∀ r ∈ FindMatchesForEntity cfg env data opts, WeightedLe r.score 1 :=
  findMatches_mem_score_le cfg env _ opts hd hw

theorem fme_ids_nodup (cfg : Config) (env : Env) (data : EntityData)
    (opts : Options)
    (hnodup : ∀ v n f, ((env.search v n f).map (fun e => e.id)).Nodup) :
    ((FindMatchesForEntity cfg env data opts).map (fun r => r.id)).Nodup :=
  findMatches_ids_nodup cfg env _ opts hnodup

theorem direct_inv (cfg : Config) (env : Env) (opts : MatchGroupOptions)
    (entity : EntityRecord) (primary : MatchResult)
    (hnodup : ∀ v n f, ((env.search v n f).map (fun e => e.id)).Nodup)
    (hd : ∀ (v : List ℚ) (n : Int) (f : Option (List (List Char × List Char))),
      ∀ e ∈ env.search v n f, ∀ d : ℚ,
        metaGet e.metadata (str "distance") = some (MetaVal.num d) → 0 ≤ d)
    (hw : ∀ w ∈ opts.fieldWeights, 0 ≤ w.2)
    (hpid : primary.id = entity.id) (hps : primary.score = GoFloat.q 1) :
    (∃ rest, getDirectMatchGroup cfg env opts [primary] entity = primary :: rest) ∧
    ((getDirectMatchGroup cfg env opts [primary] entity).map (fun r => r.id)).Nodup ∧
    (∀ y ∈ getDirectMatchGroup cfg env opts [primary] entity,
      WeightedLe y.score 1) := by
  have hms : ∀ y ∈ (FindMatchesForEntity cfg env (groupEntityData entity)
      (groupMatchOptions cfg opts)), WeightedLe y.score 1 := by
    refine fme_mem_score_le cfg env _ _ hd ?_
    intro w hwm
    exact hw w hwm
  have hmn : ((FindMatchesForEntity cfg env (groupEntityData entity)
      (groupMatchOptions cfg opts)).map (fun r => r.id)).Nodup :=
    fme_ids_nodup cfg env _ _ hnodup
  unfold getDirectMatchGroup
  refine ⟨⟨_, rfl⟩, ?_, ?_⟩
  · rw [show (([primary] : List MatchResult) ++
      (FindMatchesForEntity cfg env (groupEntityData entity)
        (groupMatchOptions cfg opts)).filter (fun m => m.id ≠ entity.id)) =
      primary :: (FindMatchesForEntity cfg env (groupEntityData entity)
        (groupMatchOptions cfg opts)).filter (fun m => m.id ≠ entity.id) from rfl]
    rw [List.map_cons]
    rw [List.nodup_cons]
    constructor
    · intro hmem
      obtain ⟨y, hy, hyid⟩ := List.mem_map.mp hmem
      have hyne : y.id ≠ entity.id := by
        have h2 := (List.mem_filter.mp hy).2
        simpa using h2
      exact hyne (by rw [hyid, hpid])
    · refine List.Sublist.nodup ?_ hmn
      exact List.Sublist.map _ (List.filter_sublist _)
  · intro y hy
    rcases List.mem_append.mp hy with hy | hy
    · rw [List.mem_singleton.mp hy, hps]
      exact weightedLe_q le_rfl
    · exact hms y (List.mem_filter.mp hy).1

theorem foldl_entities_extends {β : Type} (f : TransState → β → TransState)
    (hstep : ∀ s a, ∃ t, (f s a).entities = s.entities ++ t) :
    ∀ (l : List β) (s : TransState),
      ∃ tail, (l.foldl f s).entities = s.entities ++ tail := by
  intro l
  induction l with
  | nil => intro s; exact ⟨[], by simp⟩
  | cons a as ih =>
    intro s
    rw [List.foldl_cons]
    obtain ⟨t1, ht1⟩ := hstep s a
    obtain ⟨t2, ht2⟩ := ih (f s a)
    exact ⟨t1 ++ t2, by rw [ht2, ht1, List.append_assoc]⟩

theorem processMatches_extends (env : Env) (mgs hops : Int) (ms : List MatchResult)
    (st0 : TransState) :
    ∃ tail, (processMatches env mgs hops ms st0).entities = st0.entities ++ tail := by
  unfold processMatches
  refine foldl_entities_extends _ ?_ ms st0
  intro s m
  by_cases h1 : s.stopped = true
  · rw [if_pos h1]
    exact ⟨[], by simp⟩
  rw [if_neg h1]
  by_cases h2 : s.visited.contains m.id = true
  · rw [if_pos h2]
    exact ⟨[], by simp⟩
  rw [if_neg h2]
  dsimp only
  split
  · exact ⟨_, rfl⟩
  split
  · exact ⟨_, rfl⟩
  · exact ⟨_, rfl⟩

theorem foldl_inv_mem {σ β : Type} (f : σ → β → σ) (P : σ → Prop) :
    ∀ (l : List β) (s : σ), (∀ s a, a ∈ l → P s → P (f s a)) → P s →
      P (l.foldl f s) := by
  intro l
  induction l with
  | nil => intro s _ hs; exact hs
  | cons a as ih =>
    intro s hstep hs
    rw [List.foldl_cons]
    exact ih (f s a) (fun s1 a1 ha1 => hstep s1 a1 (by simp [ha1]))
      (hstep s a (by simp) hs)

theorem processMatches_inv (env : Env) (mgs hops : Int) (ms : List MatchResult)
    (st0 : TransState)
    (hms : ∀ m ∈ ms, WeightedLe m.score 1)
    (h1 : (st0.entities.map (fun r => r.id)).Nodup)
    (h2 : ∀ i ∈ st0.entities.map (fun r => r.id), i ∈ st0.visited)
    (h3 : ∀ y ∈ st0.entities, WeightedLe y.score 1) :
    ((processMatches env mgs hops ms st0).entities.map (fun r => r.id)).Nodup ∧
    (∀ i ∈ (processMatches env mgs hops ms st0).entities.map (fun r => r.id),
      i ∈ (processMatches env mgs hops ms st0).visited) ∧
    (∀ y ∈ (processMatches env mgs hops ms st0).entities, WeightedLe y.score 1) := by
  unfold processMatches
  refine foldl_inv_mem _ (fun st =>
    ((st.entities.map (fun r => r.id)).Nodup ∧
     (∀ i ∈ st.entities.map (fun r => r.id), i ∈ st.visited) ∧
     (∀ y ∈ st.entities, WeightedLe y.score 1))) ms st0 ?_ ⟨h1, h2, h3⟩
  intro s m hm ⟨hs1, hs2, hs3⟩
  by_cases hb1 : s.stopped = true
  · rw [if_pos hb1]
    exact ⟨hs1, hs2, hs3⟩
  rw [if_neg hb1]
  by_cases hb2 : s.visited.contains m.id = true
  · rw [if_pos hb2]
    exact ⟨hs1, hs2, hs3⟩
  rw [if_neg hb2]
  have hnv : m.id ∉ s.visited := by simpa using hb2
  have hnid : m.id ∉ s.entities.map (fun r => r.id) := fun hmem => hnv (hs2 _ hmem)
  have hkey1 : ((s.entities ++ ([{ m with metadata := metaSet m.metadata (str "hop_distance") (MetaVal.intv (hops + 1)) }] : List MatchResult)).map (fun r => r.id)).Nodup := by
    rw [List.map_append]
    rw [List.nodup_append]
    refine ⟨hs1, by simp, ?_⟩
    intro i hi
    simp only [List.map_cons, List.map_nil, List.mem_singleton]
    intro hie
    rw [hie] at hi
    exact hnid hi
  have hkey2 : ∀ i ∈ (s.entities ++ ([{ m with metadata := metaSet m.metadata (str "hop_distance") (MetaVal.intv (hops + 1)) }] : List MatchResult)).map (fun r => r.id), i ∈ s.visited ++ [m.id] := by
    intro i hi
    rw [List.map_append] at hi
    rcases List.mem_append.mp hi with hi | hi
    · exact List.mem_append.mpr (Or.inl (hs2 i hi))
    · refine List.mem_append.mpr (Or.inr ?_)
      simpa using hi
  have hkey3 : ∀ y ∈ s.entities ++ ([{ m with metadata := metaSet m.metadata (str "hop_distance") (MetaVal.intv (hops + 1)) }] : List MatchResult), WeightedLe y.score 1 := by
    intro y hy
    rcases List.mem_append.mp hy with hy | hy
    · exact hs3 y hy
    · have hye : y = { m with metadata := metaSet m.metadata (str "hop_distance") (MetaVal.intv (hops + 1)) } := by simpa using hy
      rw [hye]
      exact hms m hm
  dsimp only
  split
  · exact ⟨hkey1, hkey2, hkey3⟩
  split
  · exact ⟨hkey1, hkey2, hkey3⟩
  · exact ⟨hkey1, hkey2, hkey3⟩

theorem transLoop_step (cfg : Config) (env : Env) (opts : MatchGroupOptions)
    (fuel : Nat) (current : EntityRecord) (rest : List EntityRecord)
    (entities : List MatchResult) (visited : List (List Char))
    (hop : List (List Char × Int)) :
    transLoop cfg env opts (fuel + 1) (current :: rest) entities visited hop =
      if opts.hopsLimit ≤ transHops hop current then
        transLoop cfg env opts fuel rest entities visited hop
      else if (transStepState cfg env opts current entities visited hop).stopped then
        (transStepState cfg env opts current entities visited hop).entities
      else
        transLoop cfg env opts fuel
          (rest ++ (transStepState cfg env opts current entities visited hop).queueAdds)
          (transStepState cfg env opts current entities visited hop).entities
          (transStepState cfg env opts current entities visited hop).visited
          (transStepState cfg env opts current entities visited hop).hop := rfl

theorem transLoop_inv (cfg : Config) (env : Env) (opts : MatchGroupOptions)
    (hd : ∀ (v : List ℚ) (n : Int) (f : Option (List (List Char × List Char))),
      ∀ e ∈ env.search v n f, ∀ d : ℚ,
        metaGet e.metadata (str "distance") = some (MetaVal.num d) → 0 ≤ d)
    (hw : ∀ w ∈ opts.fieldWeights, 0 ≤ w.2) :
    ∀ (fuel : Nat) (queue : List EntityRecord) (entities : List MatchResult)
      (visited : List (List Char)) (hop : List (List Char × Int)),
      (entities.map (fun r => r.id)).Nodup →
      (∀ i ∈ entities.map (fun r => r.id), i ∈ visited) →
      (∀ y ∈ entities, WeightedLe y.score 1) →
      (∃ tail, transLoop cfg env opts fuel queue entities visited hop =
        entities ++ tail) ∧
      ((transLoop cfg env opts fuel queue entities visited hop).map
        (fun r => r.id)).Nodup ∧
      (∀ y ∈ transLoop cfg env opts fuel queue entities visited hop,
        WeightedLe y.score 1) := by
  intro fuel
  induction fuel with
  | zero =>
    intro queue entities visited hop h1 h2 h3
    exact ⟨⟨[], by simp [transLoop]⟩, by simpa [transLoop] using h1,
      by simpa [transLoop] using h3⟩
  | succ fuel ih =>
    intro queue entities visited hop h1 h2 h3
    cases queue with
    | nil =>
      exact ⟨⟨[], by simp [transLoop]⟩, by simpa [transLoop] using h1,
        by simpa [transLoop] using h3⟩
    | cons current rest =>
      rw [transLoop_step]
      by_cases hhl : opts.hopsLimit ≤ transHops hop current
      · rw [if_pos hhl]
        exact ih rest entities visited hop h1 h2 h3
      · rw [if_neg hhl]
        have hms : ∀ m ∈ FindMatchesForEntity cfg env (groupEntityData current)
            (groupMatchOptions cfg opts), WeightedLe m.score 1 := by
          refine fme_mem_score_le cfg env _ _ hd ?_
          intro w hwm
          exact hw w hwm
        have hst := processMatches_inv env opts.maxGroupSize (transHops hop current)
          (FindMatchesForEntity cfg env (groupEntityData current) (groupMatchOptions cfg opts))
          { entities := entities, visited := visited, hop := hop, queueAdds := [], stopped := false }
          hms h1 h2 h3
        obtain ⟨hst1, hst2, hst3⟩ := hst
        have hext := processMatches_extends env opts.maxGroupSize (transHops hop current)
          (FindMatchesForEntity cfg env (groupEntityData current) (groupMatchOptions cfg opts))
          { entities := entities, visited := visited, hop := hop, queueAdds := [], stopped := false }
        by_cases hs : (transStepState cfg env opts current entities visited hop).stopped = true
        · rw [if_pos hs]
          exact ⟨hext, hst1, hst3⟩
        · rw [if_neg hs]
          have hrec := ih
            (rest ++ (transStepState cfg env opts current entities visited hop).queueAdds)
            (transStepState cfg env opts current entities visited hop).entities
            (transStepState cfg env opts current entities visited hop).visited
            (transStepState cfg env opts current entities visited hop).hop
            hst1 hst2 hst3
          obtain ⟨⟨t2, ht2⟩, hn, hb⟩ := hrec
          refine ⟨?_, hn, hb⟩
          obtain ⟨t1, ht1⟩ := hext
          refine ⟨t1 ++ t2, ?_⟩
          rw [ht2]
          have ht1s : (transStepState cfg env opts current entities visited hop).entities =
              entities ++ t1 := ht1
          rw [ht1s, List.append_assoc]

theorem hybrid_unfold (cfg : Config) (env : Env) (opts : MatchGroupOptions)
    (entities0 : List MatchResult) (entity : EntityRecord) :
    getHybridMatchGroup cfg env opts entities0 entity =
      if 1 < opts.hopsLimit then
        ((getDirectMatchGroup cfg env (hybridDirectOpts opts) entities0 entity).foldl
          (hybridStep cfg env opts entity)
          (getDirectMatchGroup cfg env (hybridDirectOpts opts) entities0 entity,
           (getDirectMatchGroup cfg env (hybridDirectOpts opts) entities0 entity).map (fun m => m.id),
           false)).1
      else getDirectMatchGroup cfg env (hybridDirectOpts opts) entities0 entity := rfl

theorem transitive_inv (cfg : Config) (env : Env) (opts : MatchGroupOptions)
    (entity : EntityRecord) (primary : MatchResult)
    (hd : ∀ (v : List ℚ) (n : Int) (f : Option (List (List Char × List Char))),
      ∀ e ∈ env.search v n f, ∀ d : ℚ,
        metaGet e.metadata (str "distance") = some (MetaVal.num d) → 0 ≤ d)
    (hw : ∀ w ∈ opts.fieldWeights, 0 ≤ w.2)
    (hpid : primary.id = entity.id) (hps : primary.score = GoFloat.q 1) :
    (∃ rest, getTransitiveMatchGroup cfg env opts [primary] entity = primary :: rest) ∧
    ((getTransitiveMatchGroup cfg env opts [primary] entity).map (fun r => r.id)).Nodup ∧
    (∀ y ∈ getTransitiveMatchGroup cfg env opts [primary] entity,
      WeightedLe y.score 1) := by
  have h := transLoop_inv cfg env opts hd hw (opts.maxGroupSize.toNat + 2)
    [entity] [primary] [entity.id] [(entity.id, 0)]
    (by simp)
    (by
      intro i hi
      simp only [List.map_cons, List.map_nil, List.mem_singleton] at hi
      rw [hi, hpid]
      simp)
    (by
      intro y hy
      have hyp : y = primary := by simpa using hy
      rw [hyp, hps]
      exact Or.inr ⟨1, rfl, le_refl 1⟩)
  obtain ⟨⟨tail, htail⟩, hn, hb⟩ := h
  unfold getTransitiveMatchGroup
  exact ⟨⟨tail, htail⟩, hn, hb⟩

theorem hybrid_inv (cfg : Config) (env : Env) (opts : MatchGroupOptions)
    (entity : EntityRecord) (primary : MatchResult)
    (hnodup : ∀ v n f, ((env.search v n f).map (fun e => e.id)).Nodup)
    (hd : ∀ (v : List ℚ) (n : Int) (f : Option (List (List Char × List Char))),
      ∀ e ∈ env.search v n f, ∀ d : ℚ,
        metaGet e.metadata (str "distance") = some (MetaVal.num d) → 0 ≤ d)
    (hw : ∀ w ∈ opts.fieldWeights, 0 ≤ w.2)
    (hpid : primary.id = entity.id) (hps : primary.score = GoFloat.q 1) :
    (∃ rest, getHybridMatchGroup cfg env opts [primary] entity = primary :: rest) ∧
    ((getHybridMatchGroup cfg env opts [primary] entity).map (fun r => r.id)).Nodup ∧
    (∀ y ∈ getHybridMatchGroup cfg env opts [primary] entity,
      WeightedLe y.score 1) := by
  obtain ⟨⟨rest1, hrest1⟩, hn1, hb1⟩ :=
    direct_inv cfg env (hybridDirectOpts opts) entity primary hnodup hd
      (by intro w hwm; exact hw w hwm) hpid hps
  rw [hybrid_unfold]
  by_cases hhl : 1 < opts.hopsLimit
  · rw [if_pos hhl]
    have hP := foldl_inv_mem (hybridStep cfg env opts entity)
      (fun st : List MatchResult × List (List Char) × Bool =>
        (∃ tail, st.1 = getDirectMatchGroup cfg env (hybridDirectOpts opts) [primary] entity ++ tail) ∧
        (st.1.map (fun r => r.id)).Nodup ∧
        (∀ i ∈ st.1.map (fun r => r.id), i ∈ st.2.1) ∧
        (∀ y ∈ st.1, WeightedLe y.score 1))
      (getDirectMatchGroup cfg env (hybridDirectOpts opts) [primary] entity)
      (getDirectMatchGroup cfg env (hybridDirectOpts opts) [primary] entity,
       (getDirectMatchGroup cfg env (hybridDirectOpts opts) [primary] entity).map (fun m => m.id),
       false)
      ?_ ⟨⟨[], by simp⟩, hn1, (by intro i hi; exact hi), hb1⟩
    · obtain ⟨⟨tail, htail⟩, hn, _, hb⟩ := hP
      refine ⟨⟨rest1 ++ tail, ?_⟩, hn, hb⟩
      rw [htail, hrest1]
      rfl
    · intro s dm hdm hPs
      obtain ⟨hex, hnd, hsub, hbd⟩ := hPs
      unfold hybridStep
      by_cases hstop : s.2.2 = true
      · rw [if_pos hstop]
        exact ⟨hex, hnd, hsub, hbd⟩
      rw [if_neg hstop]
      by_cases hdid : dm.id = entity.id
      · rw [if_pos hdid]
        exact ⟨hex, hnd, hsub, hbd⟩
      rw [if_neg hdid]
      cases henv : env.getEntity dm.id with
      | none => exact ⟨hex, hnd, hsub, hbd⟩
      | some me =>
        have htemp : ∀ y ∈ getTransitiveMatchGroup cfg env
            { opts with hopsLimit := opts.hopsLimit - 1 } [] me,
            WeightedLe y.score 1 := by
          have h := transLoop_inv cfg env { opts with hopsLimit := opts.hopsLimit - 1 }
            hd (by intro w hwm; exact hw w hwm)
            (opts.maxGroupSize.toNat + 2) [me] [] [me.id] [(me.id, 0)]
            (by simp) (by simp) (by simp)
          unfold getTransitiveMatchGroup
          exact h.2.2
        refine foldl_inv_mem _
          (fun st : List MatchResult × List (List Char) × Bool =>
            (∃ tail, st.1 = getDirectMatchGroup cfg env (hybridDirectOpts opts) [primary] entity ++ tail) ∧
            (st.1.map (fun r => r.id)).Nodup ∧
            (∀ i ∈ st.1.map (fun r => r.id), i ∈ st.2.1) ∧
            (∀ y ∈ st.1, WeightedLe y.score 1)) _ s ?_ ⟨hex, hnd, hsub, hbd⟩
        intro t tm htm hPt
        obtain ⟨f1, f2, f3, f4⟩ := hPt
        by_cases hb1' : t.2.2 = true
        · rw [if_pos hb1']
          exact ⟨f1, f2, f3, f4⟩
        rw [if_neg hb1']
        by_cases hb2' : t.2.1.contains tm.id = true
        · rw [if_pos hb2']
          exact ⟨f1, f2, f3, f4⟩
        rw [if_neg hb2']
        have hnv : tm.id ∉ t.2.1 := by simpa using hb2'
        have hnid : tm.id ∉ t.1.map (fun r => r.id) := fun hmem => hnv (f3 _ hmem)
        have k0 : ∃ tail, t.1 ++ [tm] = getDirectMatchGroup cfg env (hybridDirectOpts opts) [primary] entity ++ tail := by
          obtain ⟨tl, htl⟩ := f1
          exact ⟨tl ++ [tm], by rw [htl, List.append_assoc]⟩
        have k1 : ((t.1 ++ [tm]).map (fun r => r.id)).Nodup := by
          rw [List.map_append, List.nodup_append]
          refine ⟨f2, by simp, ?_⟩
          intro i hi
          simp only [List.map_cons, List.map_nil, List.mem_singleton]
          intro hie
          rw [hie] at hi
          exact hnid hi
        have k2 : ∀ i ∈ (t.1 ++ [tm]).map (fun r => r.id), i ∈ t.2.1 ++ [tm.id] := by
          intro i hi
          rw [List.map_append] at hi
          rcases List.mem_append.mp hi with hi | hi
          · exact List.mem_append.mpr (Or.inl (f3 i hi))
          · refine List.mem_append.mpr (Or.inr ?_)
            simpa using hi
        have k3 : ∀ y ∈ t.1 ++ [tm], WeightedLe y.score 1 := by
          intro y hy
          rcases List.mem_append.mp hy with hy | hy
          · exact f4 y hy
          · have hye : y = tm := by simpa using hy
            rw [hye]
            exact htemp tm htm
        split
        · exact ⟨k0, k1, k2, k3⟩
        · exact ⟨k0, k1, k2, k3⟩
  · rw [if_neg hhl]
    exact ⟨⟨rest1, hrest1⟩, hn1, hb1⟩

theorem GetMatchGroup_none (cfg : Config) (env : Env) (entityID : List Char)
    (opts0 : MatchGroupOptions) (h : env.getEntity entityID = none) :
    GetMatchGroup cfg env entityID opts0 =
      Except.error (str "failed to retrieve entity") := by
  unfold GetMatchGroup
  rw [h]

theorem GetMatchGroup_some (cfg : Config) (env : Env) (entityID : List Char)
    (opts0 : MatchGroupOptions) (entity : EntityRecord)
    (h : env.getEntity entityID = some entity) :
    GetMatchGroup cfg env entityID opts0 =
      match (if (gmOpts cfg opts0).strategy = str "direct" then
          Except.ok (getDirectMatchGroup cfg env (gmOpts cfg opts0)
            [convertToMatchResult entity (GoFloat.q 1)] entity)
        else if (gmOpts cfg opts0).strategy = str "transitive" then
          Except.ok (getTransitiveMatchGroup cfg env (gmOpts cfg opts0)
            [convertToMatchResult entity (GoFloat.q 1)] entity)
        else if (gmOpts cfg opts0).strategy = str "hybrid" then
          Except.ok (getHybridMatchGroup cfg env (gmOpts cfg opts0)
            [convertToMatchResult entity (GoFloat.q 1)] entity)
        else Except.error (str "unknown match group strategy") :
          Except (List Char) (List MatchResult)) with
      | Except.error e => Except.error e
      | Except.ok entities =>
        Except.ok (calculateGroupStatistics { id := entityID, primaryID := entityID, entities := entities, sampleFields := [] }) := by
  unfold GetMatchGroup
  rw [h]
  rfl

theorem calcStats_entities (G : MatchGroup) (hne : ¬ G.entities = []) :
    (calculateGroupStatistics G).entities =
      goSortBy (fun a b => MatchResult.score a |>.gt (MatchResult.score b))
        G.entities := by
  unfold calculateGroupStatistics
  rw [if_neg hne]

theorem calcStats_score (G : MatchGroup) (hne : ¬ G.entities = []) :
    (calculateGroupStatistics G).score =
      (goSum (G.entities.map (fun e => e.score))).div
        (GoFloat.q ((G.entities.length : ℚ))) := by
  unfold calculateGroupStatistics
  rw [if_neg hne]

theorem calcStats_size (G : MatchGroup) (hne : ¬ G.entities = []) :
    (calculateGroupStatistics G).size = ((G.entities.length : Int)) := by
  unfold calculateGroupStatistics
  rw [if_neg hne]

theorem calcStats_inv (G : MatchGroup) (primary : MatchResult)
    (rest : List MatchResult)
    (hGE : G.entities = primary :: rest)
    (hn : ((primary :: rest).map (fun r => r.id)).Nodup)
    (hb : ∀ y ∈ primary :: rest, WeightedLe y.score 1)
    (hps : primary.score = GoFloat.q 1)
    (hnn : ∀ y ∈ (calculateGroupStatistics G).entities, ¬ y.score = GoFloat.nan) :
    ((calculateGroupStatistics G).entities.map (fun r => r.id)).Nodup ∧
    (calculateGroupStatistics G).entities.Pairwise
      (fun a b => GoFloat.lt a.score b.score = false) ∧
    (calculateGroupStatistics G).entities.head? = some primary ∧
    (calculateGroupStatistics G).score =
      (goSum ((calculateGroupStatistics G).entities.map (fun r => r.score))).div
        (GoFloat.q (((calculateGroupStatistics G).entities.length : ℚ))) ∧
    (calculateGroupStatistics G).size =
      (((calculateGroupStatistics G).entities.length : Int)) := by
  have hne : ¬ G.entities = [] := by rw [hGE]; simp
  have hE := calcStats_entities G hne
  have hnn2 : ∀ y ∈ G.entities, ¬ y.score = GoFloat.nan := by
    intro y hy
    apply hnn
    rw [hE]
    exact mem_goSortBy.mpr hy
  have hq : ∀ y ∈ G.entities, ∃ x : ℚ, y.score = GoFloat.q x ∧ x ≤ 1 := by
    intro y hy
    have hy2 : y ∈ primary :: rest := by rw [← hGE]; exact hy
    rcases hb y hy2 with hnan | ⟨x, hx, hx1⟩
    · exact absurd hnan (hnn2 y hy)
    · exact ⟨x, hx, hx1⟩
  have hn2 : (G.entities.map (fun r => r.id)).Nodup := by rw [hGE]; exact hn
  refine ⟨?_, ?_, ?_, ?_, ?_⟩
  · rw [hE]
    have hperm : List.Perm
        ((goSortBy (fun a b => MatchResult.score a |>.gt (MatchResult.score b))
          G.entities).map (fun r => r.id)) (G.entities.map (fun r => r.id)) :=
      (goSortBy_perm _ _).map _
    exact hperm.nodup_iff.mpr hn2
  · rw [hE]
    have hpw := goSortBy_pairwise
      (fun a b => MatchResult.score a |>.gt (MatchResult.score b)) G.entities
      ?hasym ?htrans
    case hasym =>
      intro a ha b hb2 hab
      dsimp only at hab ⊢
      obtain ⟨x, hx, _⟩ := hq a ha
      obtain ⟨y, hy, _⟩ := hq b hb2
      rw [hx, hy] at hab ⊢
      rw [GoFloat.gt_q_true_iff] at hab
      rw [GoFloat.gt_q_false_iff]
      linarith
    case htrans =>
      intro z hz a ha b hb2 h1 h2
      dsimp only at h1 h2 ⊢
      obtain ⟨x, hx, _⟩ := hq a ha
      obtain ⟨y, hy, _⟩ := hq b hb2
      obtain ⟨u, hu, _⟩ := hq z hz
      rw [hx, hy] at h1
      rw [hu, hx] at h2
      rw [hu, hy]
      rw [GoFloat.gt_q_false_iff] at h1 h2
      rw [GoFloat.gt_q_false_iff]
      linarith
    refine hpw.imp ?_
    intro a b hab
    rw [GoFloat.gt_eq_lt] at hab
    exact hab
  · rw [hE, hGE]
    apply goSortBy_head_of_max
    intro y hy
    dsimp only
    rw [hps]
    rcases hb y (by simp [hy]) with hnan | ⟨x, hx, hx1⟩
    · rw [hnan]; rfl
    · rw [hx]
      rw [GoFloat.gt_q_false_iff]
      exact hx1
  · rw [calcStats_score G hne, hE]
    have hperm : List.Perm
        ((goSortBy (fun a b => MatchResult.score a |>.gt (MatchResult.score b))
          G.entities).map (fun e => e.score)) (G.entities.map (fun e => e.score)) :=
      (goSortBy_perm _ _).map _
    rw [goSum_perm hperm, length_goSortBy]
  · rw [calcStats_size G hne, hE, length_goSortBy]

theorem clusterKeyConcat_congr (cfg : ClusterConfig) (f1 f2 : FieldMap)
    (h : ∀ fld ∈ cfg.fields,
      mapHas f1 fld = mapHas f2 fld ∧
      mapGet f1 fld = mapGet f2 fld ∧
      mapGet f1 (fld ++ str "_normalized") = mapGet f2 (fld ++ str "_normalized")) :
    clusterKeyConcat cfg f1 = clusterKeyConcat cfg f2 := by
  unfold clusterKeyConcat
  have hfilter : cfg.fields.filter (fun f => mapHas f1 f) =
      cfg.fields.filter (fun f => mapHas f2 f) :=
    List.filter_congr (fun x hx => by rw [(h x hx).1])
  rw [hfilter]
  refine foldl_congr_mem ?_ []
  intro fld hfld acc
  have hmem : fld ∈ cfg.fields :=
    (List.mem_filter.mp (mem_goSortBy.mp hfld)).1
  obtain ⟨-, hget, hgetn⟩ := h fld hmem
  dsimp only
  rw [hget, hgetn]

theorem clusterCacheKey_congr (cfg : ClusterConfig) (f1 f2 : FieldMap)
    (h : ∀ fld ∈ cfg.fields,
      mapHas f1 fld = mapHas f2 fld ∧ mapGet f1 fld = mapGet f2 fld) :
    clusterCacheKey cfg f1 = clusterCacheKey cfg f2 := by
  unfold clusterCacheKey
  have hfilter : cfg.fields.filter (fun f => mapHas f1 f) =
      cfg.fields.filter (fun f => mapHas f2 f) :=
    List.filter_congr (fun x hx => by rw [(h x hx).1])
  rw [hfilter]
  refine foldl_congr_mem ?_ []
  intro fld hfld acc
  have hmem : fld ∈ cfg.fields :=
    (List.mem_filter.mp (mem_goSortBy.mp hfld)).1
  rw [(h fld hmem).2]

theorem generateClusterKeyMemo_hit (cfg : ClusterConfig)
    (cache : List (List Char × List Char)) (fields : FieldMap)
    (p : List Char × List Char)
    (hcond : ¬ (¬ cfg.enabled = true ∨ cfg.fields = []))
    (hfind : cache.find? (fun q' => q'.1 = clusterCacheKey cfg fields) = some p) :
    GenerateClusterKeyMemo cfg cache fields = (p.2, cache) := by
  unfold GenerateClusterKeyMemo
  rw [if_neg hcond, hfind]

theorem generateClusterKeyMemo_cold_fst (cfg : ClusterConfig) (fields : FieldMap) :
    (GenerateClusterKeyMemo cfg [] fields).1 = GenerateClusterKey cfg fields := by
  unfold GenerateClusterKeyMemo GenerateClusterKey
  by_cases hcond : ¬ cfg.enabled = true ∨ cfg.fields = []
  · rw [if_pos hcond, if_pos hcond]
  · rw [if_neg hcond, if_neg hcond]
    rw [show (List.find? (fun q' => q'.1 = clusterCacheKey cfg fields)
      ([] : List (List Char × List Char))) = none from rfl]
    dsimp only
    split
    · rfl
    · rfl

theorem generateClusterKeyMemo_cold_store (cfg : ClusterConfig) (f1 : FieldMap)
    (hcond : ¬ (¬ cfg.enabled = true ∨ cfg.fields = []))
    (hk1 : GenerateClusterKey cfg f1 ≠ str "default") :
    GenerateClusterKeyMemo cfg [] f1 =
      (GenerateClusterKey cfg f1,
       [(clusterCacheKey cfg f1, GenerateClusterKey cfg f1)]) := by
  have hkc : ¬ (clusterKeyConcat cfg f1 = [] ∨ clusterKeyConcat cfg f1 = str "|") := by
    intro hkc
    apply hk1
    unfold GenerateClusterKey
    rw [if_neg hcond]
    rw [if_pos hkc]
  have hgen : GenerateClusterKey cfg f1 = (md5Hex (clusterKeyConcat cfg f1)).take 16 := by
    unfold GenerateClusterKey
    rw [if_neg hcond]
    rw [if_neg hkc]
  unfold GenerateClusterKeyMemo
  rw [if_neg hcond]
  rw [show (List.find? (fun q' => q'.1 = clusterCacheKey cfg f1)
    ([] : List (List Char × List Char))) = none from rfl]
  dsimp only
  rw [if_neg hkc, hgen]
  rfl

theorem GetMatchGroupRel_none (cfg : Config) (env : Env) (entityID : List Char)
    (opts0 : MatchGroupOptions) (out : Except (List Char) MatchGroup)
    (h : env.getEntity entityID = none) :
    GetMatchGroupRel cfg env entityID opts0 out =
      (out = Except.error (str "failed to retrieve entity")) := by
  unfold GetMatchGroupRel
  rw [h]

theorem GetMatchGroupRel_some (cfg : Config) (env : Env) (entityID : List Char)
    (opts0 : MatchGroupOptions) (out : Except (List Char) MatchGroup)
    (entity : EntityRecord) (h : env.getEntity entityID = some entity) :
    GetMatchGroupRel cfg env entityID opts0 out =
      (if (gmOpts cfg opts0).strategy = str "direct" then
        ∃ g, calculateGroupStatisticsRel { id := entityID, primaryID := entityID, entities := getDirectMatchGroup cfg env (gmOpts cfg opts0) [convertToMatchResult entity (GoFloat.q 1)] entity, sampleFields := [] } g ∧ out = Except.ok g
      else if (gmOpts cfg opts0).strategy = str "transitive" then
        ∃ g, calculateGroupStatisticsRel { id := entityID, primaryID := entityID, entities := getTransitiveMatchGroup cfg env (gmOpts cfg opts0) [convertToMatchResult entity (GoFloat.q 1)] entity, sampleFields := [] } g ∧ out = Except.ok g
      else if (gmOpts cfg opts0).strategy = str "hybrid" then
        ∃ g, calculateGroupStatisticsRel { id := entityID, primaryID := entityID, entities := getHybridMatchGroup cfg env (gmOpts cfg opts0) [convertToMatchResult entity (GoFloat.q 1)] entity, sampleFields := [] } g ∧ out = Except.ok g
      else out = Except.error (str "unknown match group strategy")) := by
  unfold GetMatchGroupRel
  rw [h]

theorem calcStatsRel_inv (G : MatchGroup) (g : MatchGroup) (primary : MatchResult)
    (rest : List MatchResult)
    (hGE : G.entities = primary :: rest)
    (hn : ((primary :: rest).map (fun r => r.id)).Nodup)
    (hb : ∀ y ∈ primary :: rest, WeightedLe y.score 1)
    (hps : primary.score = GoFloat.q 1)
    (hrel : calculateGroupStatisticsRel G g)
    (hnn : ∀ y ∈ g.entities, ¬ y.score = GoFloat.nan) :
    ((g.entities.map (fun r => r.id)).Nodup) ∧
    (g.entities.Pairwise (fun a b => GoFloat.lt a.score b.score = false)) ∧
    (∃ r0, g.entities.head? = some r0 ∧ r0.score = GoFloat.q 1) ∧
    (primary ∈ g.entities) ∧
    (g.score = (goSum (g.entities.map (fun r => r.score))).div
      (GoFloat.q ((g.entities.length : ℚ)))) ∧
    (g.size = ((g.entities.length : Int))) := by
  have hne : ¬ G.entities = [] := by rw [hGE]; simp
  unfold calculateGroupStatisticsRel at hrel
  rw [if_neg hne] at hrel
  obtain ⟨sorted, ⟨hperm, hpw⟩, hg⟩ := hrel
  have hgE : g.entities = sorted := by rw [hg]
  have hgScore : g.score = (calculateGroupStatistics G).score := by rw [hg]
  have hgSize : g.size = (calculateGroupStatistics G).size := by rw [hg]
  have hmemG : ∀ y ∈ g.entities, y ∈ primary :: rest := by
    intro y hy
    rw [hgE] at hy
    rw [← hGE]
    exact hperm.mem_iff.mp hy
  have hq : ∀ y ∈ g.entities, ∃ x : ℚ, y.score = GoFloat.q x ∧ x ≤ 1 := by
    intro y hy
    rcases hb y (hmemG y hy) with hnan | ⟨x, hx, hx1⟩
    · exact absurd hnan (hnn y hy)
    · exact ⟨x, hx, hx1⟩
  have hpmem : primary ∈ g.entities := by
    rw [hgE]
    exact hperm.mem_iff.mpr (by rw [hGE]; simp)
  refine ⟨?_, ?_, ?_, hpmem, ?_, ?_⟩
  · rw [hgE]
    have hidperm : List.Perm (sorted.map (fun r => r.id))
        (G.entities.map (fun r => r.id)) := hperm.map _
    refine hidperm.nodup_iff.mpr ?_
    rw [hGE]
    exact hn
  · have hpw2 : g.entities.Pairwise
        (fun a b => ((fun x y => MatchResult.score x |>.gt (MatchResult.score y)) b a) = false) := by
      rw [hgE]
      exact hpw
    refine hpw2.imp ?_
    intro a b hab
    dsimp only at hab
    rwa [GoFloat.gt_eq_lt] at hab
  · cases hcs : g.entities with
    | nil =>
      have hlen := hperm.length_eq
      rw [← hgE, hcs, hGE] at hlen
      simp at hlen
    | cons r0 ts =>
      refine ⟨r0, rfl, ?_⟩
      have hr0mem : r0 ∈ g.entities := by rw [hcs]; simp
      obtain ⟨x0, hx0, hx0le⟩ := hq r0 hr0mem
      have hple : x0 = 1 := by
        rcases List.mem_cons.mp (by rw [← hcs]; exact hpmem) with hpr | hpt
        · rw [← hpr] at hx0
          rw [hps] at hx0
          injection hx0 with h1
          exact h1.symm
        · have hpw3 : g.entities.Pairwise
              (fun a b => GoFloat.lt a.score b.score = false) := by
            have hpw2 : g.entities.Pairwise
                (fun a b => ((fun x y => MatchResult.score x |>.gt (MatchResult.score y)) b a) = false) := by
              rw [hgE]
              exact hpw
            refine hpw2.imp ?_
            intro a b hab
            dsimp only at hab
            rwa [GoFloat.gt_eq_lt] at hab
          rw [hcs] at hpw3
          have hhead := (List.pairwise_cons.mp hpw3).1 primary hpt
          rw [hx0, hps] at hhead
          have hlt : ¬ (x0 < 1) := by
            intro hcon
            rw [show (GoFloat.lt (GoFloat.q x0) (GoFloat.q 1)) = true by
              simp [GoFloat.lt, hcon]] at hhead
            exact absurd hhead (by simp)
          linarith [not_lt.mp hlt]
      rw [hx0, hple]
  · rw [hgScore, calcStats_score G hne]
    have hscperm : List.Perm (g.entities.map (fun r => r.score))
        (G.entities.map (fun e => e.score)) := by
      rw [hgE]
      exact hperm.map _
    rw [goSum_perm hscperm]
    have hlen : g.entities.length = G.entities.length := by
      rw [hgE]
      exact hperm.length_eq
    rw [hlen]
  · rw [hgSize, calcStats_size G hne]
    have hlen : g.entities.length = G.entities.length := by
      rw [hgE]
      exact hperm.length_eq
    rw [hlen]

/-! ## Claim theorems -/

unseal Rat.mul Rat.inv Rat.add Rat.sub in
/-- Claim C1, counterexample: with a field weight on `name`, the service
threshold-filters the raw vector score (`1 - 0.1 = 0.9 ≥ 0.85`) and only
then blends, so the returned final score `0.45` is below the effective
threshold `0.85` — refuting "all returned scores are ≥ the effective
threshold". -/
theorem C1_counterexample :
    ((FindMatches baseConfig envBlend (str "name=Bob") optsBlend).map
      (fun r => (r.id, r.score)) = [(str "x", GoFloat.q (45 / 100))]) ∧
    GoFloat.lt (GoFloat.q (45 / 100))
      (GoFloat.q (effThreshold baseConfig optsBlend)) = true := by
  refine ⟨by decide, by decide⟩

unseal Rat.mul Rat.inv Rat.add Rat.sub in
/-- Claim C2, counterexample: the current `FindMatchesForEntity` delegates
to the text matcher without any self-ID skip, so a stored candidate whose
ID equals the query entity's ID is returned — refuting the claimed
self-exclusion in the entity form. -/
theorem C2_counterexample :
    (FindMatchesForEntity baseConfig envSelf
      { id := str "x", fields := [(str "name", str "Acme")] }
      { threshold := 1 / 2, limit := 10 }).map (fun r => r.id) = [str "x"] := by
  decide

unseal Rat.mul Rat.inv Rat.add Rat.sub in
/-- Claim C3, counterexample: the legal-suffix regex is anchored at `$`, so
one application of `NormalizeName` strips a single trailing suffix;
`"acme inc corp"` normalizes to `"acme inc"`, and normalizing again gives
`"acme"` — refuting idempotence for `NormalizeName`. -/
theorem C3_counterexample :
    NormalizeName defaultNorm (NormalizeName defaultNorm (str "acme inc corp")) ≠
      NormalizeName defaultNorm (str "acme inc corp") := by decide

unseal Rat.mul Rat.inv Rat.add Rat.sub in
/-- Claim C4, counterexample: a blocking field contributes to the key only
when its raw key is present in the map, so two maps agreeing on every
normalized blocking value can produce different keys — refuting "equal
normalized blocking-field values yield equal keys". -/
theorem C4_counterexample :
    mapGet fieldsWithRaw (str "name_normalized") =
      mapGet fieldsNormOnly (str "name_normalized") ∧
    GenerateClusterKey clusterNameCfg fieldsWithRaw ≠
      GenerateClusterKey clusterNameCfg fieldsNormOnly := by
  refine ⟨by decide, by decide⟩

unseal Rat.mul Rat.inv Rat.add Rat.sub in
/-- Claim C6, counterexample: `Jaccard.Compare` on a non-empty string with
no alphanumeric tokens divides `0` by `0`, yielding Go's `NaN` — so
`Compare(a,a)` is neither `1` nor inside `[0,1]` for `a = "!!!"`. -/
theorem C6_counterexample :
    Jaccard.Compare (str "!!!") (str "!!!") = GoFloat.nan := by decide

unseal Rat.mul Rat.inv Rat.add Rat.sub in
/-- Claim C7: the statistics pass tallies `*_normalized` field entries even
though the code comments say normalized fields are skipped — the guard only
rejects empty names and values.  On a concrete direct group whose members
carry `name_normalized`, the sample-field keys include `name_normalized`. -/
theorem C7_normalized_fields_tallied :
    (GetMatchGroup baseConfig envGroup (str "p") groupOptsDirect).toOption.map
      (fun g => g.sampleFields.map (fun p => p.1)) =
      some [str "name", str "name_normalized"] := by decide

unseal Rat.mul Rat.inv Rat.add Rat.sub in
/-- Claim C8, counterexample: two candidates with equal final scores are
returned in the store's order `b`, `a`, not in ascending ID order —
refuting the claimed lexicographic tie-break. -/
theorem C8_counterexample :
    ((FindMatches baseConfig envTie (str "q")
      { threshold := 3 / 10, limit := 10 }).map (fun r => (r.id, r.score)) =
      [(str "b", GoFloat.q (1 / 2)), (str "a", GoFloat.q (1 / 2))]) ∧
    strLt (str "a") (str "b") = true := by
  refine ⟨by decide, by decide⟩

unseal Rat.mul Rat.inv Rat.add Rat.sub in
/-- Claim C9, counterexample: the current (weaviate-generation)
`FindMatches` has no empty-input guard: called with empty text it performs
the store search and returns its candidates — refuting the validation-error
claim for this service. -/
theorem C9_counterexample :
    (FindMatches baseConfig envTie []
      { threshold := 3 / 10, limit := 10 }).map (fun r => r.id) =
      [str "b", str "a"] := by decide

/-- Claim C9, amended: the qdrant-generation `FindMatches` rejects empty
input text with the validation error `"empty input text"` uniformly in the
configuration, the environment and the options — in particular the result
does not depend on the store, so no search is performed. -/
theorem C9_qdrant_empty_guard (thr : ℚ) (env : QdrantEnv) (opts : QdrantOptions) :
    qdrantFindMatches thr env [] opts = Except.error (str "empty input text") := rfl

unseal Rat.mul Rat.inv Rat.add Rat.sub in
/-- Claim C10, counterexample: when the raw field is present, its
`_normalized` variant is overwritten with the recomputed normalization, so
an input key (`name_normalized` here) does not keep its original value —
refuting "every input key is bound to its original, unchanged value". -/
theorem C10_counterexample :
    mapGet? (NormalizeEntity defaultNorm entityStaleNorm) (str "name_normalized") ≠
      mapGet? entityStaleNorm (str "name_normalized") := by decide

/-- Claim C10, amended: `NormalizeEntity` changes no binding outside the
seven `_normalized` variant keys, keeps every input key present, and adds
no key beyond those variants. -/
theorem C10_amended (cfg : NormalizationConfig) (entity : FieldMap) (k : List Char) :
    (k ∉ normalizedVariantKeys →
      mapGet? (NormalizeEntity cfg entity) k = mapGet? entity k) ∧
    (mapHas entity k = true → mapHas (NormalizeEntity cfg entity) k = true) ∧
    (mapHas (NormalizeEntity cfg entity) k = true →
      mapHas entity k = true ∨ k ∈ normalizedVariantKeys) :=
  by
  refine ⟨?_, ?_, ?_⟩
  · intro hk
    simp only [normalizedVariantKeys, List.mem_cons, List.mem_singleton] at hk
    push_neg at hk
    obtain ⟨h1, h2, h3, h4, h5, h6, h7, _⟩ := hk
    unfold NormalizeEntity
    rw [mapGet?_condSet _ _ _ _ _ h7, mapGet?_condSet _ _ _ _ _ h6,
        mapGet?_condSet _ _ _ _ _ h5, mapGet?_condSet _ _ _ _ _ h4,
        mapGet?_condSet _ _ _ _ _ h3, mapGet?_condSet _ _ _ _ _ h2,
        mapGet?_condSet _ _ _ _ _ h1]
  · intro hk
    unfold NormalizeEntity
    exact mapHas_condSet_mono _ _ _ _ _ (mapHas_condSet_mono _ _ _ _ _
      (mapHas_condSet_mono _ _ _ _ _ (mapHas_condSet_mono _ _ _ _ _
        (mapHas_condSet_mono _ _ _ _ _ (mapHas_condSet_mono _ _ _ _ _
          (mapHas_condSet_mono _ _ _ _ _ hk))))))
  · intro hk
    unfold NormalizeEntity at hk
    rcases mapHas_condSet_inv _ _ _ _ _ hk with hk | hcity
    rotate_left
    · exact Or.inr (by rw [hcity]; simp [normalizedVariantKeys])
    rcases mapHas_condSet_inv _ _ _ _ _ hk with hk | hzip
    rotate_left
    · exact Or.inr (by rw [hzip]; simp [normalizedVariantKeys])
    rcases mapHas_condSet_inv _ _ _ _ _ hk with hk | hstate
    rotate_left
    · exact Or.inr (by rw [hstate]; simp [normalizedVariantKeys])
    rcases mapHas_condSet_inv _ _ _ _ _ hk with hk | hemail
    rotate_left
    · exact Or.inr (by rw [hemail]; simp [normalizedVariantKeys])
    rcases mapHas_condSet_inv _ _ _ _ _ hk with hk | hphone
    rotate_left
    · exact Or.inr (by rw [hphone]; simp [normalizedVariantKeys])
    rcases mapHas_condSet_inv _ _ _ _ _ hk with hk | haddr
    rotate_left
    · exact Or.inr (by rw [haddr]; simp [normalizedVariantKeys])
    rcases mapHas_condSet_inv _ _ _ _ _ hk with hk | hname
    rotate_left
    · exact Or.inr (by rw [hname]; simp [normalizedVariantKeys])
    exact Or.inl hk

/-- Witness for `C10_amended` at a concrete configuration, entity and key. -/
theorem C10_amended_witness :
    mapGet? (NormalizeEntity defaultNorm entityStaleNorm) (str "name") =
      mapGet? entityStaleNorm (str "name") ∧
    mapHas (NormalizeEntity defaultNorm entityStaleNorm) (str "name") = true :=
  ⟨(C10_amended defaultNorm entityStaleNorm (str "name")).1 (by decide),
   (C10_amended defaultNorm entityStaleNorm (str "name")).2.1 (by decide)⟩

/-- Claim C2, amended: every kept candidate's vector score (`1 - distance`
when a numeric distance is attached, else the default `1`, with no
clamping) is not below the effective threshold; the *earlier* in-tree
revision of `FindMatchesForEntity` never returns the query entity's own ID
and scores every candidate `1.0`; the current revision simply delegates to
the text matcher over the combined normalized fields, with no self-skip. -/
theorem C2_amended :
    (∀ (cfg : Config) (env : Env) (text : List Char) (opts : Options),
      ∀ r ∈ findMatchesPre cfg env text opts,
        (matchVectorScore r).lt (GoFloat.q (effThreshold cfg opts)) = false) ∧
    (∀ (cfg : Config) (env : Env) (data : EntityData) (opts : Options),
      data.id ≠ [] →
      ∀ r ∈ FindMatchesForEntityV1 cfg env data opts, ¬ r.id = data.id) ∧
    (∀ (cfg : Config) (env : Env) (data : EntityData) (opts : Options),
      ∀ r ∈ FindMatchesForEntityV1 cfg env data opts, r.score = GoFloat.q 1) ∧
    (∀ (cfg : Config) (env : Env) (data : EntityData) (opts : Options),
      FindMatchesForEntity cfg env data opts =
        FindMatches cfg env
          (combineFields (NormalizeEntity cfg.normalization data.fields)) opts) := by
  have hV1 : ∀ (cfg : Config) (env : Env) (data : EntityData) (opts : Options),
      ∀ r ∈ FindMatchesForEntityV1 cfg env data opts,
        ∃ e : EntityRecord, ¬ (data.id ≠ [] ∧ data.id = e.id) ∧
          r = convertToMatchResultV1 e (GoFloat.q 1) opts.includeDetails := by
    intro cfg env data opts r hr
    have hshape : ∀ results : List EntityRecord,
        ∀ x ∈ results.foldl (fun acc e =>
          if data.id ≠ [] ∧ data.id = e.id then acc
          else if (GoFloat.q 1).lt (GoFloat.q (effThreshold cfg opts)) then acc
          else acc ++ [convertToMatchResultV1 e (GoFloat.q 1) opts.includeDetails]) [],
        ∃ e : EntityRecord, ¬ (data.id ≠ [] ∧ data.id = e.id) ∧
          x = convertToMatchResultV1 e (GoFloat.q 1) opts.includeDetails := by
      intro results x hx
      rw [foldl_append_if2_mem (fun e => data.id ≠ [] ∧ data.id = e.id)
        (fun _ => ((GoFloat.q 1).lt (GoFloat.q (effThreshold cfg opts)) : Bool) = true)
        (fun e => convertToMatchResultV1 e (GoFloat.q 1) opts.includeDetails)
        results [] x] at hx
      rcases hx with hx | ⟨e, _, h1, _, h3⟩
      · simp at hx
      · exact ⟨e, h1, h3⟩
    unfold FindMatchesForEntityV1 at hr
    dsimp only at hr
    exact hshape _ r (mem_truncKept hr)
  refine ⟨?_, ?_, ?_, fun _ _ _ _ => rfl⟩
  · intro cfg env text opts r hr
    obtain ⟨e, _, hpass, hre⟩ := mem_findMatchesPre_iff.mp hr
    rw [hre, matchVectorScore_candidateResult]
    exact hpass
  · intro cfg env data opts hne r hr
    obtain ⟨e, hskip, hre⟩ := hV1 cfg env data opts r hr
    intro hid
    exact hskip ⟨hne, by rw [← hid, hre]; rfl⟩
  · intro cfg env data opts r hr
    obtain ⟨e, _, hre⟩ := hV1 cfg env data opts r hr
    rw [hre]
    rfl

unseal Rat.mul Rat.inv Rat.add Rat.sub in
/-- Witness for `C2_amended` on concrete stores: a kept candidate's vector
score clears the threshold, and the earlier revision excludes the query ID
on a store echoing a different entity. -/
theorem C2_amended_witness :
    ((matchVectorScore (candidateResult baseConfig (str "name=Bob") optsBlend entBlend)).lt
      (GoFloat.q (effThreshold baseConfig optsBlend)) = false) ∧
    ¬ (convertToMatchResultV1 entSelf (GoFloat.q 1) false).id = str "y" :=
  ⟨C2_amended.1 baseConfig envBlend (str "name=Bob") optsBlend
      (candidateResult baseConfig (str "name=Bob") optsBlend entBlend) (by decide),
   C2_amended.2.1 baseConfig envSelf
      { id := str "y", fields := [(str "name", str "Acme")] }
      { threshold := 1 / 2, limit := 10 } (by decide)
      (convertToMatchResultV1 entSelf (GoFloat.q 1) false) (by decide)⟩

/-- Claim C8, amended: there is no ID tie-break — equal-score results are
*not* reordered into ascending lexicographic ID order.  Tie order is
whatever `sort.Slice` leaves: for fewer than 12 kept candidates Go runs its
insertion sort, which never moves an element past an equal score (the
length hypothesis below confines the statement to that path — for 12 or
more, pdqsort leaves tie order unspecified), so when all kept candidates
carry equal scores the output is exactly the converted candidate list in
store order truncated to the effective limit. -/
theorem C8_amended (cfg : Config) (env : Env) (text : List Char) (opts : Options)
    (hlen : (findMatchesPre cfg env text opts).length < 12)
    (h : ∀ r1 ∈ findMatchesPre cfg env text opts,
      ∀ r2 ∈ findMatchesPre cfg env text opts, r1.score = r2.score) :
    FindMatches cfg env text opts =
      (findMatchesPre cfg env text opts).take (effLimit cfg opts).toNat := by
  unfold FindMatches
  have hsort : goSortBy (fun a b => MatchResult.score a |>.gt (MatchResult.score b))
      (findMatchesPre cfg env text opts) = findMatchesPre cfg env text opts := by
    refine goSortBy_of_all_false _ _ ?_
    intro a ha b hb
    rw [h a ha b hb]
    cases hs : b.score <;> simp [GoFloat.gt]
  dsimp only
  rw [hsort]
  by_cases hlim : effLimit cfg opts < ((findMatchesPre cfg env text opts).length : Int)
  · rw [if_pos hlim]
  · rw [if_neg hlim]
    have hle : (findMatchesPre cfg env text opts).length ≤ (effLimit cfg opts).toNat := by
      omega
    rw [List.take_of_length_le hle]

unseal Rat.mul Rat.inv Rat.add Rat.sub in
/-- Witness for `C8_amended`: two equal-scored candidates in store order. -/
theorem C8_amended_witness :
    FindMatches baseConfig envTie (str "q") { threshold := 3 / 10, limit := 10 } =
      (findMatchesPre baseConfig envTie (str "q")
        { threshold := 3 / 10, limit := 10 }).take
        ((effLimit baseConfig { threshold := 3 / 10, limit := 10 }).toNat) :=
  C8_amended baseConfig envTie (str "q") { threshold := 3 / 10, limit := 10 }
    (by decide) (by decide)

unseal Rat.mul Rat.inv Rat.add Rat.sub in
/-- Claim C4, amended: the cache-miss derivation of the cluster key is a
deterministic function of the configured blocking-field list together with,
for each configured field, its raw presence, its raw value and its
`_normalized` value (presence is keyed on the *raw* field name; the
normalized value is used for the component, falling back to the raw value
when it is empty); each non-empty component is appended *followed by* `"|"`
— so the hashed concatenation carries a trailing separator — and an empty
concatenation yields `"default"`.  The service memoizes on a cache key
built from raw presence and raw values only: a warm cache returns the
cached key unchanged, so after one map populates the cache, any map with
the same raw blocking values receives that key even when its normalized
values differ. -/
theorem C4_amended :
    (∀ (cfg : ClusterConfig) (f1 f2 : FieldMap),
      (∀ fld ∈ cfg.fields,
        mapHas f1 fld = mapHas f2 fld ∧
        mapGet f1 fld = mapGet f2 fld ∧
        mapGet f1 (fld ++ str "_normalized") = mapGet f2 (fld ++ str "_normalized")) →
      GenerateClusterKey cfg f1 = GenerateClusterKey cfg f2) ∧
    (GenerateClusterKey clusterNameCfg fieldsWithRaw =
      (md5Hex (str "acm" ++ str "|")).take 16) ∧
    (GenerateClusterKey clusterNameCfg [] = str "default") ∧
    (∀ (cfg : ClusterConfig) (fields : FieldMap),
      (GenerateClusterKeyMemo cfg [] fields).1 = GenerateClusterKey cfg fields) ∧
    (∀ (cfg : ClusterConfig) (cache : List (List Char × List Char))
        (fields : FieldMap) (p : List Char × List Char),
      cfg.enabled = true → cfg.fields ≠ [] →
      cache.find? (fun q' => q'.1 = clusterCacheKey cfg fields) = some p →
      GenerateClusterKeyMemo cfg cache fields = (p.2, cache)) ∧
    (∀ (cfg : ClusterConfig) (f1 f2 : FieldMap),
      cfg.enabled = true → cfg.fields ≠ [] →
      (∀ fld ∈ cfg.fields,
        mapHas f1 fld = mapHas f2 fld ∧ mapGet f1 fld = mapGet f2 fld) →
      GenerateClusterKey cfg f1 ≠ str "default" →
      (GenerateClusterKeyMemo cfg (GenerateClusterKeyMemo cfg [] f1).2 f2).1 =
        GenerateClusterKey cfg f1) := by
  refine ⟨?_, by decide, by decide, ?_, ?_, ?_⟩
  · intro cfg f1 f2 h
    unfold GenerateClusterKey
    by_cases hcfg : ¬ cfg.enabled ∨ cfg.fields = []
    · rw [if_pos hcfg, if_pos hcfg]
    · rw [if_neg hcfg, if_neg hcfg]
      rw [clusterKeyConcat_congr cfg f1 f2 h]
  · intro cfg fields
    exact generateClusterKeyMemo_cold_fst cfg fields
  · intro cfg cache fields p hen hne hfind
    exact generateClusterKeyMemo_hit cfg cache fields p
      (by simp [hen, hne]) hfind
  · intro cfg f1 f2 hen hne h hk1
    have hcond : ¬ (¬ cfg.enabled = true ∨ cfg.fields = []) := by simp [hen, hne]
    have hck : clusterCacheKey cfg f1 = clusterCacheKey cfg f2 :=
      clusterCacheKey_congr cfg f1 f2 h
    rw [generateClusterKeyMemo_cold_store cfg f1 hcond hk1]
    have hfind : ([(clusterCacheKey cfg f1, GenerateClusterKey cfg f1)] :
        List (List Char × List Char)).find?
        (fun q' => q'.1 = clusterCacheKey cfg f2) =
        some (clusterCacheKey cfg f1, GenerateClusterKey cfg f1) := by
      refine List.find?_cons_of_pos _ ?_
      simp [hck]
    rw [generateClusterKeyMemo_hit cfg _ f2 _ hcond hfind]

unseal Rat.mul Rat.inv Rat.add Rat.sub in
/-- Witness for `C4_amended`: key-equality of two maps agreeing on the
projections, and the stale warm-cache key for a map whose normalized value
differs from the cached one. -/
theorem C4_amended_witness :
    (GenerateClusterKey clusterNameCfg fieldsWithRaw =
      GenerateClusterKey clusterNameCfg
        [(str "name_normalized", str "acme"), (str "name", str "Acme")]) ∧
    ((GenerateClusterKeyMemo clusterNameCfg
        (GenerateClusterKeyMemo clusterNameCfg [] fieldsWithRaw).2
        fieldsOtherNorm).1 =
      GenerateClusterKey clusterNameCfg fieldsWithRaw) :=
  ⟨C4_amended.1 clusterNameCfg fieldsWithRaw
      [(str "name_normalized", str "acme"), (str "name", str "Acme")] (by decide),
   C4_amended.2.2.2.2.2 clusterNameCfg fieldsWithRaw fieldsOtherNorm
      (by decide) (by decide) (by decide) (by decide)⟩

/-- Claim C1, amended: provided no kept candidate's final score is `NaN`,
`FindMatches` returns a list sorted by descending final score whose length
is at most the effective limit, in which every result's *vector* score
(not its final score) clears the effective threshold and whose final score
is the blend `(vectorScore + weighted)/2` exactly when field weights and
per-field scores are both present (missing weights defaulting to `1` and a
zero weight total yielding `0` inside `computeWeightedScore`). -/
theorem C1_amended (cfg : Config) (env : Env) (text : List Char) (opts : Options)
    (hnn : ∀ r ∈ findMatchesPre cfg env text opts, r.score.isNaN = false) :
    ((FindMatches cfg env text opts).Pairwise
      (fun a b => GoFloat.lt a.score b.score = false)) ∧
    (FindMatches cfg env text opts).length ≤ (effLimit cfg opts).toNat ∧
    (∀ r ∈ FindMatches cfg env text opts,
      (matchVectorScore r).lt (GoFloat.q (effThreshold cfg opts)) = false ∧
      r.score =
        (if opts.fieldWeights ≠ [] ∧ r.fieldScores ≠ [] then
          ((matchVectorScore r).add
            (computeWeightedScore r.fieldScores opts.fieldWeights)).div (GoFloat.q 2)
        else matchVectorScore r)) := by
  have hq : ∀ r ∈ findMatchesPre cfg env text opts, ∃ x : ℚ, r.score = GoFloat.q x := by
    intro r hr
    cases hs : r.score with
    | nan =>
      have hcontra := hnn r hr
      rw [hs] at hcontra
      exact absurd hcontra (by simp [GoFloat.isNaN])
    | q x => exact ⟨x, rfl⟩
  have hpair : (goSortBy (fun a b => MatchResult.score a |>.gt (MatchResult.score b))
      (findMatchesPre cfg env text opts)).Pairwise
      (fun a b => GoFloat.lt a.score b.score = false) := by
    have h0 := goSortBy_pairwise
      (fun a b => MatchResult.score a |>.gt (MatchResult.score b))
      (findMatchesPre cfg env text opts)
      (by
        intro a _ b _ hab
        dsimp only at hab ⊢
        cases ha : a.score with
        | nan => rw [ha] at hab; exact absurd hab (by simp [GoFloat.gt])
        | q xa =>
          cases hb : b.score with
          | nan => rw [ha, hb] at hab; exact absurd hab (by simp [GoFloat.gt])
          | q xb =>
            rw [ha, hb] at hab
            rw [GoFloat.gt_q_false_iff]
            exact le_of_lt ((GoFloat.gt_q_true_iff xa xb).mp hab))
      (by
        intro x hx a ha b hb h1 h2
        obtain ⟨xa, hxa⟩ := hq a ha
        obtain ⟨xb, hxb⟩ := hq b hb
        obtain ⟨xx, hxx⟩ := hq x hx
        dsimp only at h1 h2 ⊢
        rw [hxa, hxb, GoFloat.gt_q_false_iff] at h1
        rw [hxx, hxa, GoFloat.gt_q_false_iff] at h2
        rw [hxx, hxb, GoFloat.gt_q_false_iff]
        exact le_trans h2 h1)
    exact h0.imp (fun hgt => by dsimp only at hgt; rwa [GoFloat.gt_eq_lt] at hgt)
  have hmemPre : ∀ r ∈ goSortBy (fun a b => MatchResult.score a |>.gt (MatchResult.score b))
      (findMatchesPre cfg env text opts), r ∈ findMatchesPre cfg env text opts :=
    fun r hr => mem_goSortBy.mp hr
  have hprop : ∀ r ∈ findMatchesPre cfg env text opts,
      (matchVectorScore r).lt (GoFloat.q (effThreshold cfg opts)) = false ∧
      r.score =
        (if opts.fieldWeights ≠ [] ∧ r.fieldScores ≠ [] then
          ((matchVectorScore r).add
            (computeWeightedScore r.fieldScores opts.fieldWeights)).div (GoFloat.q 2)
        else matchVectorScore r) := by
    intro r hr
    obtain ⟨e, _, hpass, hre⟩ := mem_findMatchesPre_iff.mp hr
    subst hre
    refine ⟨by rw [matchVectorScore_candidateResult]; exact hpass, ?_⟩
    rw [matchVectorScore_candidateResult]
    exact candidateResult_score cfg text opts e
  have hfm : FindMatches cfg env text opts =
      (if (effLimit cfg opts) <
        ((goSortBy (fun a b => MatchResult.score a |>.gt (MatchResult.score b))
          (findMatchesPre cfg env text opts)).length : Int)
      then (goSortBy (fun a b => MatchResult.score a |>.gt (MatchResult.score b))
        (findMatchesPre cfg env text opts)).take (effLimit cfg opts).toNat
      else goSortBy (fun a b => MatchResult.score a |>.gt (MatchResult.score b))
        (findMatchesPre cfg env text opts)) := rfl
  rw [hfm]
  split
  · rename_i hlim
    refine ⟨hpair.sublist (List.take_sublist _ _), ?_, ?_⟩
    · rw [List.length_take]
      exact min_le_left _ _
    · intro r hr
      exact hprop r (hmemPre r (List.take_subset _ _ hr))
  · rename_i hlim
    refine ⟨hpair, ?_, ?_⟩
    · rw [length_goSortBy] at hlim ⊢
      omega
    · intro r hr
      exact hprop r (hmemPre r hr)

unseal Rat.mul Rat.inv Rat.add Rat.sub in
/-- Witness for `C1_amended` on the concrete blend scenario. -/
theorem C1_amended_witness :
    (FindMatches baseConfig envBlend (str "name=Bob") optsBlend).length ≤
      (effLimit baseConfig optsBlend).toNat :=
  (C1_amended baseConfig envBlend (str "name=Bob") optsBlend (by decide)).2.1

/-- Claim C3, amended: for every fixed configuration `NormalizeText` is
idempotent — one pass yields a fixed point of lowercasing, trimming,
whitespace collapsing and stop-word removal.  (The per-field operation
`NormalizeName` is *not* idempotent: its anchored legal-suffix regex strips
one trailing suffix per application.) -/
theorem C3_amended (cfg : NormalizationConfig) (t : List Char) :
    NormalizeText cfg (NormalizeText cfg t) = NormalizeText cfg t :=
  NormalizeText_idem cfg t

/-- Claim C6, amended: the comparator contract holds in the token-based
comparators only away from token-free inputs.  `Jaccard` and `Cosine`
return `1` on `("","")`, `0` against one empty side, `1` on self-compare
when the input has at least one alphanumeric token, and stay within
`[0,1]` whenever they return a number at all — but a non-empty, token-free
input self-compares to `NaN` (Jaccard, via `0/0`) or `0` (Cosine, via its
zero-magnitude guard). -/
theorem C6_amended :
    (Jaccard.Compare [] [] = GoFloat.q 1) ∧
    (∀ x, x ≠ [] → Jaccard.Compare [] x = GoFloat.q 0 ∧
      Jaccard.Compare x [] = GoFloat.q 0) ∧
    (∀ a, a ≠ [] → tokenize a ≠ [] → Jaccard.Compare a a = GoFloat.q 1) ∧
    (∀ a, a ≠ [] → tokenize a = [] → Jaccard.Compare a a = GoFloat.nan) ∧
    (∀ a b, Jaccard.Compare a b = GoFloat.nan ∨
      ∃ x : ℚ, Jaccard.Compare a b = GoFloat.q x ∧ 0 ≤ x ∧ x ≤ 1) ∧
    (∀ r : ℝ, Cosine.CompareRel [] [] r → r = 1) ∧
    (∀ (x : List Char) (r : ℝ), x ≠ [] →
      (Cosine.CompareRel [] x r → r = 0) ∧ (Cosine.CompareRel x [] r → r = 0)) ∧
    (∀ (a : List Char) (r : ℝ), a ≠ [] → tokenize a ≠ [] →
      Cosine.CompareRel a a r → r = 1) ∧
    (∀ (a : List Char) (r : ℝ), a ≠ [] → tokenize a = [] →
      Cosine.CompareRel a a r → r = 0) ∧
    (∀ (a b : List Char) (r : ℝ), Cosine.CompareRel a b r → 0 ≤ r ∧ r ≤ 1) :=
  ⟨jaccard_nil_nil,
   fun _ hx => ⟨jaccard_nil_left hx, jaccard_nil_right hx⟩,
   fun _ ha ht => jaccard_self_tokens ha ht,
   fun _ ha ht => jaccard_self_tokenfree ha ht,
   fun a b => jaccard_range a b,
   fun _ h => cosine_nil_nil h,
   fun _ _ hx => ⟨fun h => cosine_nil_left hx h, fun h => cosine_nil_right hx h⟩,
   fun _ _ ha ht h => cosine_self_one ha ht h,
   fun _ _ ha ht h => cosine_self_tokenfree ha ht h,
   fun _ _ _ h => cosine_range h⟩

unseal Rat.mul Rat.inv Rat.add Rat.sub in
/-- Witness for `C6_amended` at a concrete token-bearing input. -/
theorem C6_amended_witness :
    Jaccard.Compare (str "ab") (str "ab") = GoFloat.q 1 :=
  C6_amended.2.2.1 (str "ab") (by decide) (by decide)

unseal Rat.mul Rat.inv Rat.add Rat.sub in
/-- Claim C5, counterexample: `sort.Slice` (pdqsort) promises nothing about
the order of equal scores — it is unstable for 12 or more elements — so
when a member ties the primary's score `1.0` (a stored neighbour at
distance `0`) the sort contract admits a returned group whose first entity
is not the primary: `C5badGroup` (tied neighbour first, primary second) is
a valid `GetMatchGroup` outcome of the tie store, refuting the
unconditional "primary entity first". -/
theorem C5_counterexample :
    GetMatchGroupRel baseConfig envGroupTie (str "p") groupOptsDirect
      (Except.ok C5badGroup) ∧
    (C5badGroup.entities.map (fun r => (r.id, r.score)) =
      [(str "q2", GoFloat.q 1), (str "p", GoFloat.q 1)]) := by
  refine ⟨?_, by decide⟩
  rw [GetMatchGroupRel_some baseConfig envGroupTie (str "p") groupOptsDirect
    (Except.ok C5badGroup) entPrimary (by decide)]
  rw [if_pos (by decide)]
  refine ⟨C5badGroup, ?_, rfl⟩
  show calculateGroupStatisticsRel C5tieGroup0 C5badGroup
  unfold calculateGroupStatisticsRel
  rw [if_neg (by decide)]
  refine ⟨C5badGroup.entities, ⟨?_, by decide⟩, by decide⟩
  have h1 : C5badGroup.entities =
      (calculateGroupStatistics C5tieGroup0).entities.reverse := rfl
  have h2 : (calculateGroupStatistics C5tieGroup0).entities =
      C5tieGroup0.entities := by decide
  rw [h1, h2]
  exact List.reverse_perm _

/-- Claim C5, amended: for every outcome the `sort.Slice` contract admits,
a group returned by `GetMatchGroup` has no duplicate entity IDs, its
entities are in descending-score order (no earlier member is strictly
below a later one), the first entity carries the top score `1.0`, the
primary entity is a member with score `1.0` (first only up to ties —
`sort.Slice` is unstable), `group.score` is the arithmetic mean of the
member scores and `group.size` is the number of members — under an honest
store (IDs consistent and duplicate-free, non-negative distances,
non-negative field weights) and provided no member score is `NaN`. -/
theorem C5_amended (cfg : Config) (env : Env) (entityID : List Char)
    (opts0 : MatchGroupOptions) (g : MatchGroup)
    (hid : ∀ (i : List Char) (e : EntityRecord), env.getEntity i = some e → e.id = i)
    (hnodup : ∀ v n f, ((env.search v n f).map (fun e => e.id)).Nodup)
    (hd : ∀ (v : List ℚ) (n : Int) (f : Option (List (List Char × List Char))),
      ∀ e ∈ env.search v n f, ∀ d : ℚ,
        metaGet e.metadata (str "distance") = some (MetaVal.num d) → 0 ≤ d)
    (hw : ∀ w ∈ opts0.fieldWeights, 0 ≤ w.2)
    (hrel : GetMatchGroupRel cfg env entityID opts0 (Except.ok g))
    (hnn : ∀ r ∈ g.entities, ¬ r.score = GoFloat.nan) :
    ((g.entities.map (fun r => r.id)).Nodup) ∧
    (g.entities.Pairwise (fun a b => GoFloat.lt a.score b.score = false)) ∧
    (∃ r0, g.entities.head? = some r0 ∧ r0.score = GoFloat.q 1) ∧
    (∃ rp ∈ g.entities, rp.id = entityID ∧ rp.score = GoFloat.q 1) ∧
    (g.score = (goSum (g.entities.map (fun r => r.score))).div
      (GoFloat.q ((g.entities.length : ℚ)))) ∧
    (g.size = ((g.entities.length : Int))) := by
  cases henv : env.getEntity entityID with
  | none =>
    rw [GetMatchGroupRel_none cfg env entityID opts0 (Except.ok g) henv] at hrel
    exact absurd hrel (by simp)
  | some entity =>
    rw [GetMatchGroupRel_some cfg env entityID opts0 (Except.ok g) entity henv] at hrel
    have heid : entity.id = entityID := hid entityID entity henv
    have hpid : (convertToMatchResult entity (GoFloat.q 1)).id = entity.id := rfl
    have hps : (convertToMatchResult entity (GoFloat.q 1)).score = GoFloat.q 1 := rfl
    have hw2 : ∀ w ∈ (gmOpts cfg opts0).fieldWeights, 0 ≤ w.2 := by
      intro w hwm
      exact hw w hwm
    by_cases hs1 : (gmOpts cfg opts0).strategy = str "direct"
    · rw [if_pos hs1] at hrel
      obtain ⟨g0, hrel0, hout⟩ := hrel
      have hgg : g = g0 := (Except.ok.injEq _ _).mp hout
      subst hgg
      obtain ⟨⟨rest0, hrest0⟩, hn, hbnd⟩ :=
        direct_inv cfg env (gmOpts cfg opts0) entity
          (convertToMatchResult entity (GoFloat.q 1)) hnodup hd hw2 hpid hps
      obtain ⟨k1, k2, k3, hpmem, k5, k6⟩ :=
        calcStatsRel_inv { id := entityID, primaryID := entityID, entities := getDirectMatchGroup cfg env (gmOpts cfg opts0) [convertToMatchResult entity (GoFloat.q 1)] entity, sampleFields := [] }
          g (convertToMatchResult entity (GoFloat.q 1)) rest0 hrest0
          (by rw [← hrest0]; exact hn)
          (by intro y hy; exact hbnd y (by rw [hrest0]; exact hy))
          hps hrel0 hnn
      exact ⟨k1, k2, k3,
        ⟨convertToMatchResult entity (GoFloat.q 1), hpmem, by rw [hpid, heid], hps⟩,
        k5, k6⟩
    · rw [if_neg hs1] at hrel
      by_cases hs2 : (gmOpts cfg opts0).strategy = str "transitive"
      · rw [if_pos hs2] at hrel
        obtain ⟨g0, hrel0, hout⟩ := hrel
        have hgg : g = g0 := (Except.ok.injEq _ _).mp hout
        subst hgg
        obtain ⟨⟨rest0, hrest0⟩, hn, hbnd⟩ :=
          transitive_inv cfg env (gmOpts cfg opts0) entity
            (convertToMatchResult entity (GoFloat.q 1)) hd hw2 hpid hps
        obtain ⟨k1, k2, k3, hpmem, k5, k6⟩ :=
          calcStatsRel_inv { id := entityID, primaryID := entityID, entities := getTransitiveMatchGroup cfg env (gmOpts cfg opts0) [convertToMatchResult entity (GoFloat.q 1)] entity, sampleFields := [] }
            g (convertToMatchResult entity (GoFloat.q 1)) rest0 hrest0
            (by rw [← hrest0]; exact hn)
            (by intro y hy; exact hbnd y (by rw [hrest0]; exact hy))
            hps hrel0 hnn
        exact ⟨k1, k2, k3,
          ⟨convertToMatchResult entity (GoFloat.q 1), hpmem, by rw [hpid, heid], hps⟩,
          k5, k6⟩
      · rw [if_neg hs2] at hrel
        by_cases hs3 : (gmOpts cfg opts0).strategy = str "hybrid"
        · rw [if_pos hs3] at hrel
          obtain ⟨g0, hrel0, hout⟩ := hrel
          have hgg : g = g0 := (Except.ok.injEq _ _).mp hout
          subst hgg
          obtain ⟨⟨rest0, hrest0⟩, hn, hbnd⟩ :=
            hybrid_inv cfg env (gmOpts cfg opts0) entity
              (convertToMatchResult entity (GoFloat.q 1)) hnodup hd hw2 hpid hps
          obtain ⟨k1, k2, k3, hpmem, k5, k6⟩ :=
            calcStatsRel_inv { id := entityID, primaryID := entityID, entities := getHybridMatchGroup cfg env (gmOpts cfg opts0) [convertToMatchResult entity (GoFloat.q 1)] entity, sampleFields := [] }
              g (convertToMatchResult entity (GoFloat.q 1)) rest0 hrest0
              (by rw [← hrest0]; exact hn)
              (by intro y hy; exact hbnd y (by rw [hrest0]; exact hy))
              hps hrel0 hnn
          exact ⟨k1, k2, k3,
            ⟨convertToMatchResult entity (GoFloat.q 1), hpmem, by rw [hpid, heid], hps⟩,
            k5, k6⟩
        · rw [if_neg hs3] at hrel
          exact absurd hrel (by simp)

unseal Rat.mul Rat.inv Rat.add Rat.sub in
/-- Witness for `C5_amended`: the concrete direct-strategy group of the
`envGroup` store (its deterministic outcome is one valid `sort.Slice`
outcome). -/
theorem C5_amended_witness :
    GetMatchGroupRel baseConfig envGroup (str "p") groupOptsDirect
      (Except.ok C5groupResult) ∧
    ((C5groupResult.entities.map (fun r => r.id)).Nodup) ∧
    (C5groupResult.entities.Pairwise
      (fun a b => GoFloat.lt a.score b.score = false)) ∧
    (∃ r0, C5groupResult.entities.head? = some r0 ∧ r0.score = GoFloat.q 1) ∧
    (∃ rp ∈ C5groupResult.entities, rp.id = str "p" ∧ rp.score = GoFloat.q 1) ∧
    (C5groupResult.score = (goSum (C5groupResult.entities.map (fun r => r.score))).div
      (GoFloat.q ((C5groupResult.entities.length : ℚ)))) ∧
    (C5groupResult.size = ((C5groupResult.entities.length : Int))) := by
  have hrel : GetMatchGroupRel baseConfig envGroup (str "p") groupOptsDirect
      (Except.ok C5groupResult) := by
    rw [GetMatchGroupRel_some baseConfig envGroup (str "p") groupOptsDirect
      (Except.ok C5groupResult) entPrimary (by decide)]
    rw [if_pos (by decide)]
    refine ⟨C5groupResult, ?_, rfl⟩
    unfold calculateGroupStatisticsRel
    rw [if_neg (by decide)]
    refine ⟨C5groupResult.entities, ⟨?_, by decide⟩, by decide⟩
    have h2 : C5groupResult.entities =
        ({ id := str "p", primaryID := str "p", entities := getDirectMatchGroup baseConfig envGroup (gmOpts baseConfig groupOptsDirect) [convertToMatchResult entPrimary (GoFloat.q 1)] entPrimary, sampleFields := [] } : MatchGroup).entities := by
      decide
    rw [h2]
  refine ⟨hrel, ?_⟩
  refine C5_amended baseConfig envGroup (str "p") groupOptsDirect C5groupResult
    ?_ ?_ ?_ ?_ hrel (by decide)
  · intro i e h
    have h2 : (if i = str "p" then some entPrimary else none) = some e := h
    by_cases hi : i = str "p"
    · rw [if_pos hi] at h2
      cases h2
      rw [hi]
      rfl
    · rw [if_neg hi] at h2
      cases h2
  · intro v n f
    have hsing : ((([entNeighbour] : List EntityRecord)).map (fun e => e.id)).Nodup := by
      decide
    exact hsing
  · intro v n f e he d hmd
    have he3 : e ∈ ([entNeighbour] : List EntityRecord) := he
    have he2 : e = entNeighbour := by simpa using he3
    rw [he2] at hmd
    have heval : metaGet entNeighbour.metadata (str "distance") =
        some (MetaVal.num (1 / 20)) := by decide
    rw [heval] at hmd
    cases hmd
    decide
  · intro w hwm
    have h0 : groupOptsDirect.fieldWeights = ([] : List (List Char × ℚ)) := rfl
    rw [h0] at hwm
    cases hwm

end Resolve
